import Mathlib

/-!
# munger3: a verification development

Shallow embedding of the two Node.js programs of the repository,

* `src/munger3.js` (variant B: per-customer `SN`/`SO` insight published to s3, weekly cycle),
* `src/SNSlotListGenerator.js` (variant A: one de-duplicated master list of serial numbers),

together with the part of the JavaScript platform they rely on: values produced by
`JSON.parse`, the conversions `ToString`/`ToNumber`, `JSON.stringify`, `JSON.parse`, and the
control flow of `async.series` / `async.forEachSeries`.

Callback-passing code is embedded as state passing over a history of the calls made to the
outside world (object stores, file system, timer); what a callback receives is the returned
`Cb` value.
-/

set_option autoImplicit false
set_option maxRecDepth 100000
set_option exponentiation.threshold 2048

/-! ## JavaScript values -/

/-- IEEE 754 double-precision values other than `NaN`: `fin neg m e` is `m * 2 ^ e`, negated
when `neg` holds (so `fin true 0 0` is `-0`), and `inf neg` is an infinity. -/
inductive Dbl where
  | fin (neg : Bool) (m : Nat) (e : Int)
  | inf (neg : Bool)
  deriving DecidableEq, Repr

/-- JavaScript values that can reach the programs: what `JSON.parse` produces, plus
`undefined` (the value of an absent property).  A number is `num n` when it is the integer
`n` (the platform functions below use this form for every integer of magnitude less than
`2 ^ 53`, which a double holds exactly) and `dbl d` when it is any other double: a
fraction, an integer of `2 ^ 53` or more in magnitude, `-0`, an infinity.  `NaN` is never
stored in a value.  An object is its list of own properties in enumeration order. -/
inductive JsVal where
  | undefined
  | null
  | bool (b : Bool)
  | num (n : Int)
  | dbl (d : Dbl)
  | str (s : String)
  | arr (xs : List JsVal)
  | obj (kvs : List (String × JsVal))

/-- Exceptions raised by the platform operations used in the programs. -/
inductive JsThrow where
  | typeError
  | syntaxError
  | rangeError
  deriving DecidableEq, Repr

namespace JsVal

mutual
/-- Structural equality test on values. -/
def beq : JsVal → JsVal → Bool
  | .undefined, .undefined => true
  | .null, .null => true
  | .bool a, .bool b => a == b
  | .num a, .num b => decide (a = b)
  | .dbl a, .dbl b => decide (a = b)
  | .str a, .str b => decide (a = b)
  | .arr a, .arr b => beqList a b
  | .obj a, .obj b => beqProps a b
  | _, _ => false
/-- Structural equality test on lists of values. -/
def beqList : List JsVal → List JsVal → Bool
  | [], [] => true
  | x :: xs, y :: ys => beq x y && beqList xs ys
  | _, _ => false
/-- Structural equality test on property lists. -/
def beqProps : List (String × JsVal) → List (String × JsVal) → Bool
  | [], [] => true
  | (k, x) :: xs, (l, y) :: ys => decide (k = l) && beq x y && beqProps xs ys
  | _, _ => false
end

/-- Own-property lookup in a property list (`undefined` when absent). -/
def lookup (k : String) : List (String × JsVal) → JsVal
  | [] => .undefined
  | (l, v) :: kvs => if l = k then v else lookup k kvs

/-- Whether a property list has an own property named `k`. -/
def hasKey (k : String) : List (String × JsVal) → Bool
  | [] => false
  | (l, _) :: kvs => decide (l = k) || hasKey k kvs

/-- The decimal digit `d` as a character. -/
def digitChar (d : Nat) : Char := Char.ofNat (48 + d)

/-- Decimal digits of `n`, most significant first; the first argument bounds the number of
digits produced. -/
def natDigits : Nat → Nat → List Char
  | 0, _ => []
  | fuel + 1, n =>
    if n < 10 then [digitChar n] else natDigits fuel (n / 10) ++ [digitChar (n % 10)]

/-- Decimal text of a natural number. -/
def natChars (n : Nat) : List Char := natDigits (n + 1) n

/-- Decimal text of an integer, as `Number.prototype.toString` prints the integers it writes
without an exponent. -/
def intChars (n : Int) : List Char :=
  if n < 0 then '-' :: natChars n.natAbs else natChars n.natAbs

end JsVal

namespace Dbl

/-- Moves factors `base` from `m` into the exponent, at most `fuel` of them. -/
def stripAux (base : Nat) : Nat → Nat → Int → Nat × Int
  | 0, m, e => (m, e)
  | fuel + 1, m, e => if m % base = 0 then stripAux base fuel (m / base) (e + 1) else (m, e)

/-- The representation of `m * base ^ e` in which `m` is no multiple of `base` (and
`0 * base ^ 0` for zero). -/
def strip (base m : Nat) (e : Int) : Nat × Int :=
  if m = 0 then (0, 0) else stripAux base m m e

/-- The representation of `m * 2 ^ e` with an odd `m` (and `0 * 2 ^ 0` for zero). -/
def norm (m : Nat) (e : Int) : Nat × Int := strip 2 m e

/-- The representation of the decimal `s * 10 ^ p` with no zero at the end of `s`. -/
def normDec (s : Nat) (p : Int) : Nat × Int := strip 10 s p

/-- Number of halvings that take `n` below 2, at most `fuel` of them. -/
def log2Aux : Nat → Nat → Nat
  | 0, _ => 0
  | fuel + 1, n => if n < 2 then 0 else log2Aux fuel (n / 2) + 1

/-- The integer `l` with `2 ^ l ≤ n < 2 ^ (l + 1)`, for positive `n`. -/
def log2 (n : Nat) : Nat := log2Aux n n

/-- Whether `m * 2 ^ e`, with `m` positive, is a finite double: the significand has at most
53 bits, the exponent is at least `-1074`, and the value is below `2 ^ 1024`. -/
def isDouble (m : Nat) (e : Int) : Bool :=
  decide (m < 2 ^ 53 ∧ -1074 ≤ e ∧ (log2 m : Int) + e ≤ 1023)

/-- The integer `l` with `2 ^ l ≤ a / b < 2 ^ (l + 1)`, for positive `a` and `b`. -/
def floorLog2 (a b : Nat) : Int :=
  let l : Int := (log2 a : Int) - (log2 b : Int)
  let reached : Bool :=
    if 0 ≤ l then decide (b * 2 ^ l.toNat ≤ a) else decide (b ≤ a * 2 ^ (-l).toNat)
  if reached then l else l - 1

/-- The double nearest to the positive fraction `a / b`, ties going to the even significand:
the significand has at most 53 bits, the exponent is at least `-1074`, and a value of
`2 ^ 1024` or more is infinite. -/
def roundPos (a b : Nat) : Dbl :=
  let e : Int := max (floorLog2 a b - 52) (-1074)
  let num : Nat := if 0 ≤ e then a else a * 2 ^ (-e).toNat
  let den : Nat := if 0 ≤ e then b * 2 ^ e.toNat else b
  let q := num / den
  let r := num % den
  let m := if den < 2 * r ∨ (2 * r = den ∧ q % 2 = 1) then q + 1 else q
  if m = 0 then .fin false 0 0
  else if 972 ≤ e ∨ (e = 971 ∧ 2 ^ 53 ≤ m) then .inf false
  else .fin false (norm m e).1 (norm m e).2

/-- The decimal `s * 10 ^ p`, with no zero at the end of `s`, when it is itself a double:
for `p < 0` that takes `s` to be a multiple of `5 ^ (-p)`. -/
def exactDbl (s : Nat) (p : Int) : Option Dbl :=
  if 0 ≤ p then
    let me := norm (s * 10 ^ p.toNat) 0
    if isDouble me.1 me.2 then some (.fin false me.1 me.2) else none
  else if s % 5 ^ (-p).toNat = 0 then
    let me := norm (s / 5 ^ (-p).toNat) p
    if isDouble me.1 me.2 then some (.fin false me.1 me.2) else none
  else none

/-- The double nearest to the decimal `s * 10 ^ p` (the Number value of the decimal): the
decimal itself when it is a double, and otherwise the nearer of its two neighbours, the one
with the even significand in a tie.  A decimal of `10 ^ 400` or more is infinite and one
below `10 ^ (-400)` is zero. -/
def ofDec (s : Nat) (p : Int) : Dbl :=
  let sp := normDec s p
  if sp.1 = 0 then .fin false 0 0
  else if 400 < sp.2 then .inf false
  else if ((JsVal.natChars sp.1).length : Int) + sp.2 < -400 then .fin false 0 0
  else
    match exactDbl sp.1 sp.2 with
    | some d => d
    | none =>
      if 0 ≤ sp.2 then roundPos (sp.1 * 10 ^ sp.2.toNat) 1
      else roundPos sp.1 (10 ^ (-sp.2).toNat)

/-- Whether `a / b < 10 ^ n`. -/
def belowPow10 (a b : Nat) (n : Int) : Bool :=
  if 0 ≤ n then decide (a < b * 10 ^ n.toNat) else decide (a * 10 ^ (-n).toNat < b)

/-- Searches upwards from `n` for the least exponent with `a / b < 10 ^ n`. -/
def magnitudeFrom (a b : Nat) : Nat → Int → Int
  | 0, n => n
  | fuel + 1, n => if belowPow10 a b n then n else magnitudeFrom a b fuel (n + 1)

/-- The integer `n` with `10 ^ (n - 1) ≤ a / b < 10 ^ n`, for positive `a` and `b`. -/
def magnitude (a b : Nat) : Int :=
  let l : Int := (log2 a : Int) - (log2 b : Int)
  magnitudeFrom a b 8 ((l - 1) * 30103 / 100000 - 1)

/-- Drops zeros from the end of a digit text. -/
def stripZeros (ds : List Char) : List Char :=
  (ds.reverse.dropWhile (fun c => c = '0')).reverse

/-- For a digit count `k`: the `k`-digit decimals next to `a / b` below and above, and of
those whose Number value is the double `x` the nearer one (the even one in a tie), as the
integer `s` with `s * 10 ^ (n - k)` the decimal. -/
def candidate (x : Dbl) (a b : Nat) (n : Int) (k : Nat) : Option Nat :=
  let sh : Int := n - k
  let xa : Nat := if 0 ≤ sh then a else a * 10 ^ (-sh).toNat
  let xb : Nat := if 0 ≤ sh then b * 10 ^ sh.toNat else b
  let lo := xa / xb
  let r := xa % xb
  let okLo : Bool := decide (ofDec lo sh = x)
  let okHi : Bool := decide (ofDec (lo + 1) sh = x)
  if okLo ∧ okHi then
    (if 2 * r < xb ∨ (2 * r = xb ∧ lo % 2 = 0) then some lo else some (lo + 1))
  else if okLo then some lo
  else if okHi then some (lo + 1)
  else none

/-- The shortest decimal whose Number value is `x`: tries `k`, `k + 1`, ... digits, at most
`fuel` counts. -/
def shortestFrom (x : Dbl) (a b : Nat) (n : Int) : Nat → Nat → Nat × Nat
  | 0, k => (k, a * 10 ^ (k - n).toNat / b)
  | fuel + 1, k =>
    match candidate x a b n k with
    | some s => (k, s)
    | none => shortestFrom x a b n fuel (k + 1)

/-- The shortest decimal whose Number value is the positive finite double `m * 2 ^ e`, as
the pair of `s` and `p` with `s * 10 ^ p` the decimal.  The search ends at the latest with
the decimal that is the double exactly. -/
def shortest (m : Nat) (e : Int) : Nat × Int :=
  let a : Nat := if 0 ≤ e then m * 2 ^ e.toNat else m
  let b : Nat := if 0 ≤ e then 1 else 2 ^ (-e).toNat
  let n0 := magnitude a b
  let x : Dbl := .fin false (norm m e).1 (norm m e).2
  let ks := shortestFrom x a b n0 (17 + (n0 - min e 0).toNat) 1
  (ks.2, n0 - ks.1)

/-- Lays out the digits of a decimal, of which `n` stand before the point (for `n ≤ 0`
the point is followed by `-n` zeros before the digits), as `Number.prototype.toString`
does: as an integer, with a decimal point, or with an exponent. -/
def layout (digits : List Char) (n : Int) : List Char :=
  let k := digits.length
  if (k : Int) ≤ n ∧ n ≤ 21 then digits ++ List.replicate (n - k).toNat '0'
  else if 0 < n ∧ n ≤ 21 then digits.take n.toNat ++ '.' :: digits.drop n.toNat
  else if -6 < n ∧ n ≤ 0 then '0' :: '.' :: (List.replicate (-n).toNat '0' ++ digits)
  else
    let ex : Int := n - 1
    let exChars := (if ex < 0 then '-' else '+') :: JsVal.natChars ex.natAbs
    if k = 1 then digits ++ 'e' :: exChars
    else digits.take 1 ++ '.' :: (digits.drop 1 ++ 'e' :: exChars)

/-- Text of the positive finite double `m * 2 ^ e`, as `Number.prototype.toString` writes
it: the digits of the shortest decimal whose Number value it is, without the zeros at
their end, laid out according to the position of the point. -/
def posChars (m : Nat) (e : Int) : List Char :=
  let sd := shortest m e
  let all := JsVal.natChars sd.1
  layout (stripZeros all) (sd.2 + all.length)

/-- Text of a double, as `Number.prototype.toString` writes it. -/
def chars : Dbl → List Char
  | .inf false => "Infinity".data
  | .inf true => "-Infinity".data
  | .fin neg m e =>
    if m = 0 then ['0']
    else if neg then '-' :: posChars m e
    else posChars m e

/-- The double nearest to a non-zero integer. -/
def ofInt (n : Int) : Dbl :=
  match roundPos n.natAbs 1 with
  | .fin _ m e => .fin (decide (n < 0)) m e
  | .inf _ => .inf (decide (n < 0))

/-- The comparison `d < k` of a double with an integer. -/
def ltInt : Dbl → Int → Bool
  | .inf neg, _ => neg
  | .fin neg m e, k =>
    let v : Int := if neg then - (m : Int) else (m : Int)
    if 0 ≤ e then decide (v * 2 ^ e.toNat < k) else decide (v < k * 2 ^ (-e).toNat)

/-- Whether a double is one that `JSON.parse` gives in the form `dbl`: finite, written with
an odd significand, and not an integer of magnitude below `2 ^ 53` (so not `0` or `-0`). -/
def isJson : Dbl → Bool
  | .inf _ => false
  | .fin _ m e =>
    decide (m % 2 = 1) && isDouble m e &&
      !decide (0 ≤ e ∧ e < 53 ∧ m * 2 ^ e.toNat < 2 ^ 53)

/-- The number of natural numbers below a double; `none` when there is no end to them. -/
def count : Dbl → Option Nat
  | .inf neg => if neg then some 0 else none
  | .fin neg m e =>
    if neg then some 0
    else if 0 ≤ e then some (m * 2 ^ e.toNat)
    else some ((m + 2 ^ (-e).toNat - 1) / 2 ^ (-e).toNat)

end Dbl

/-- A number as the conversion `ToNumber` gives it: an integer, another double, or `NaN`. -/
inductive JsNumber where
  | int (n : Int)
  | dbl (d : Dbl)
  | nan
  deriving DecidableEq, Repr

namespace JsNumber

/-- Zero with a sign. -/
def zero (neg : Bool) : JsNumber := if neg then .dbl (.fin true 0 0) else .int 0

/-- An integer with a sign. -/
def signed (neg : Bool) (n : Nat) : Int := if neg then - (n : Int) else (n : Int)

/-- The number that a double with the given sign is: an integer of magnitude less than
`2 ^ 53` in the form `int`, anything else in the form `dbl`. -/
def ofDbl (neg : Bool) : Dbl → JsNumber
  | .inf _ => .dbl (.inf neg)
  | .fin _ m e =>
    if m = 0 then zero neg
    else if 0 ≤ e ∧ e < 53 ∧ m * 2 ^ e.toNat < 2 ^ 53 then .int (signed neg (m * 2 ^ e.toNat))
    else .dbl (.fin neg m e)

/-- The number denoted by the decimal `s * 10 ^ p` with the given sign: its Number
value. -/
def ofDecimal (neg : Bool) (s : Nat) (p : Int) : JsNumber := ofDbl neg (Dbl.ofDec s p)

end JsNumber

namespace JsVal

/-- Text of the number `num n`, as `Number.prototype.toString` writes it: the decimal digits
of `n` when its magnitude is less than `2 ^ 53`, and otherwise the text of the double
nearest to `n`. -/
def numChars (n : Int) : List Char :=
  if n.natAbs < 2 ^ 53 then intChars n else (Dbl.ofInt n).chars

/-- Joins pieces of text with commas. -/
def commaJoin : List (List Char) → List Char
  | [] => []
  | [t] => t
  | t :: ts => t ++ ',' :: commaJoin ts

mutual
/-- The abstract operation `ToString` (also what `ToPrimitive` yields for arrays and
objects).  An array is joined with commas, `null` and `undefined` elements printing as
nothing; a parsed object prints as `[object Object]` unless it has an own `toString`
property, which, not being callable, makes the conversion throw a `TypeError`. -/
def toStr : JsVal → Except JsThrow (List Char)
  | .undefined => .ok "undefined".data
  | .null => .ok "null".data
  | .bool true => .ok "true".data
  | .bool false => .ok "false".data
  | .num n => .ok (numChars n)
  | .dbl d => .ok d.chars
  | .str s => .ok s.data
  | .arr xs =>
    match elemStrs xs with
    | .ok ts => .ok (commaJoin ts)
    | .error e => .error e
  | .obj kvs => if hasKey "toString" kvs then .error .typeError else .ok "[object Object]".data
/-- Texts of the elements of an array, as `Array.prototype.join` converts them: `null` and
`undefined` give the empty text, any other element its `ToString`. -/
def elemStrs : List JsVal → Except JsThrow (List (List Char))
  | [] => .ok []
  | x :: xs =>
    let t : Except JsThrow (List Char) :=
      match x with
      | .undefined => .ok []
      | .null => .ok []
      | v => toStr v
    match t, elemStrs xs with
    | .ok t, .ok ts => .ok (t :: ts)
    | .error e, _ => .error e
    | _, .error e => .error e
end

/-- White space and line terminators that `StringToNumber` strips from both ends. -/
def isStrWhiteSpace (c : Char) : Bool :=
  let n := c.toNat
  decide (n = 9 ∨ n = 10 ∨ n = 11 ∨ n = 12 ∨ n = 13 ∨ n = 32 ∨ n = 160 ∨ n = 5760 ∨
    (8192 ≤ n ∧ n ≤ 8202) ∨ n = 8232 ∨ n = 8233 ∨ n = 8239 ∨ n = 8287 ∨ n = 12288 ∨
    n = 65279)

/-- Value of a decimal digit character. -/
def digitVal (c : Char) : Option Nat :=
  if 48 ≤ c.toNat ∧ c.toNat ≤ 57 then some (c.toNat - 48) else none

/-- Reads the longest run of decimal digits, continuing the value `acc`. -/
def readDigits : List Char → Nat → Nat × List Char
  | [], acc => (acc, [])
  | c :: cs, acc =>
    match digitVal c with
    | some d => readDigits cs (acc * 10 + d)
    | none => (acc, c :: cs)

/-- Value of a text made of one or more decimal digits and nothing else. -/
def digitsOnly (cs : List Char) : Option Nat :=
  match cs, readDigits cs 0 with
  | _ :: _, (n, []) => some n
  | _, _ => none

/-- Reads an exponent after its letter: an optional sign and one or more digits. -/
def readExponent (cs : List Char) : Option (Int × List Char) :=
  let neg : Bool := match cs with
    | c :: _ => decide (c = '-')
    | [] => false
  let ds : List Char := match cs with
    | c :: rest => if c = '-' ∨ c = '+' then rest else c :: rest
    | [] => []
  match ds, readDigits ds 0 with
  | d :: _, (x, rest) =>
    match digitVal d with
    | some _ => some (JsNumber.signed neg x, rest)
    | none => none
  | [], _ => none

/-- The exponent part, if any, that ends an unsigned decimal text of `StringToNumber` whose
digits so far are `s`, `cnt` of them behind the point. -/
def strExponent (neg : Bool) (s cnt : Nat) : List Char → JsNumber
  | [] => JsNumber.ofDecimal neg s (- (cnt : Int))
  | c :: rest =>
    if c = 'e' ∨ c = 'E' then
      match readExponent rest with
      | some (x, []) => JsNumber.ofDecimal neg s (x - cnt)
      | _ => .nan
    else .nan

/-- An unsigned decimal text of `StringToNumber`: digits with an optional point anywhere
among them (at least one digit in all) and an optional exponent, or `Infinity`. -/
def strDecimal (neg : Bool) (cs : List Char) : JsNumber :=
  if cs = "Infinity".data then .dbl (.inf neg)
  else
    match readDigits cs 0 with
    | (v1, r1) =>
      match r1 with
      | [] => if cs.length = 0 then .nan else JsNumber.ofDecimal neg v1 0
      | c :: r =>
        if c = '.' then
          match readDigits r v1 with
          | (v2, r2) =>
            if (cs.length - r1.length) + (r.length - r2.length) = 0 then .nan
            else strExponent neg v2 (r.length - r2.length) r2
        else if cs.length - r1.length = 0 then .nan
        else strExponent neg v1 0 r1

/-- Value of a digit of a radix form. -/
def radixDigit (base : Nat) (c : Char) : Option Nat :=
  let n := c.toNat
  let v : Option Nat :=
    if 48 ≤ n ∧ n ≤ 57 then some (n - 48)
    else if 97 ≤ n ∧ n ≤ 102 then some (n - 87)
    else if 65 ≤ n ∧ n ≤ 70 then some (n - 55)
    else none
  match v with
  | some d => if d < base then some d else none
  | none => none

/-- Value of a text made of digits of the given base and nothing else. -/
def readRadix (base : Nat) : List Char → Nat → Option Nat
  | [], acc => some acc
  | c :: cs, acc =>
    match radixDigit base c with
    | some d => readRadix base cs (acc * base + d)
    | none => none

/-- The base that a text announces with `0x`, `0o` or `0b` (in either case), and the digits
that follow. -/
def radixForm : List Char → Option (Nat × List Char)
  | z :: x :: d :: ds =>
    if z = '0' then
      if x = 'x' ∨ x = 'X' then some (16, d :: ds)
      else if x = 'o' ∨ x = 'O' then some (8, d :: ds)
      else if x = 'b' ∨ x = 'B' then some (2, d :: ds)
      else none
    else none
  | _ => none

/-- The operation `StringToNumber`: surrounding white space is dropped; the empty text is
`0`; a radix form is its integer; an optionally signed decimal text or `Infinity` is the
nearest double; every other text is `NaN`. -/
def stringToNumber (cs : List Char) : JsNumber :=
  match ((cs.dropWhile isStrWhiteSpace).reverse.dropWhile isStrWhiteSpace).reverse with
  | [] => .int 0
  | c :: ds =>
    if c = '+' then strDecimal false ds
    else if c = '-' then strDecimal true ds
    else
      match radixForm (c :: ds) with
      | some (base, digits) =>
        match readRadix base digits 0 with
        | some n => JsNumber.ofDecimal false n 0
        | none => .nan
      | none => strDecimal false (c :: ds)

/-- The abstract operation `ToNumber` after `ToPrimitive`. -/
def toNumber : JsVal → Except JsThrow JsNumber
  | .undefined => .ok .nan
  | .null => .ok (.int 0)
  | .bool true => .ok (.int 1)
  | .bool false => .ok (.int 0)
  | .num n => .ok (.int n)
  | .dbl d => .ok (.dbl d)
  | v =>
    match toStr v with
    | .ok t => .ok (stringToNumber t)
    | .error e => .error e

/-- The comparison `v < n` against an integer `n`: `v` is converted with `ToNumber`, and a
comparison with `NaN` is false. -/
def ltNum (v : JsVal) (n : Int) : Except JsThrow Bool :=
  match toNumber v with
  | .ok (.int m) => .ok (decide (m < n))
  | .ok (.dbl d) => .ok (d.ltInt n)
  | .ok .nan => .ok false
  | .error e => .error e

/-- UTF-16 code units of a text, one entry per unit: a character outside the basic plane
takes two units, each represented here by the character itself. -/
def utf16 : List Char → List Char
  | [] => []
  | c :: cs => if c.toNat < 65536 then c :: utf16 cs else c :: c :: utf16 cs

/-- Property read `v.k` for the names the programs read (`length`, `records`, `rows`,
`gduns`, `ITEM_SERIAL_NUMBER`, `SALES_ORDER`), none of which is inherited from a prototype:
reading from `null` or `undefined` throws a `TypeError`, an object gives its own property,
arrays and strings have `length`, anything else gives `undefined`. -/
def getProp (v : JsVal) (k : String) : Except JsThrow JsVal :=
  match v with
  | .undefined => .error .typeError
  | .null => .error .typeError
  | .obj kvs => .ok (lookup k kvs)
  | .arr xs => .ok (if k = "length" then .num xs.length else .undefined)
  | .str s => .ok (if k = "length" then .num (utf16 s.data).length else .undefined)
  | _ => .ok .undefined

/-- Indexed read `v[i]` for a non-negative integer `i`. -/
def getIndex (v : JsVal) (i : Nat) : Except JsThrow JsVal :=
  match v with
  | .undefined => .error .typeError
  | .null => .error .typeError
  | .arr xs => .ok (xs.getD i .undefined)
  | .obj kvs => .ok (lookup (String.mk (natChars i)) kvs)
  | .str s =>
    match (utf16 s.data).get? i with
    | some c => .ok (.str (String.singleton c))
    | none => .ok .undefined
  | _ => .ok .undefined

/-- Iterations `i, i+1, ...` (at most `count` of them) of a loop that pushes `body (x[i])`. -/
def loopFrom (x : JsVal) (body : JsVal → Except JsThrow JsVal) :
    Nat → Nat → Except JsThrow (List JsVal)
  | 0, _ => .ok []
  | count + 1, i =>
    match getIndex x i with
    | .error e => .error e
    | .ok xi =>
      match body xi with
      | .error e => .error e
      | .ok v =>
        match loopFrom x body count (i + 1) with
        | .error e => .error e
        | .ok vs => .ok (v :: vs)

/-- The number of indices `0, 1, ...` that pass the test `i < len` for a number `len`;
`none` when every index passes. -/
def loopCount : JsNumber → Option Nat
  | .int n => some n.toNat
  | .dbl d => d.count
  | .nan => some 0

/-- The loop `for (var i = 0; i < x.length; i++) out.push(body(x[i]))` that all three
collecting functions of the programs share; the result is `out`.  `x` is not changed by the
loop, so its `length` is the same at every test.  When the test can never fail (`length` is
`Infinity`) the loop runs until an iteration throws; an array holds at most `2 ^ 32 - 1`
elements, so if none of the first `2 ^ 32` iterations throws in the body, the push of the
last of them throws a `RangeError`. -/
def forLength (x : JsVal) (body : JsVal → Except JsThrow JsVal) :
    Except JsThrow (List JsVal) :=
  match getProp x "length" with
  | .error e => .error e
  | .ok len =>
    match toNumber len with
    | .error e => .error e
    | .ok number =>
      match loopCount number with
      | some count => loopFrom x body count 0
      | none =>
        match loopFrom x body (2 ^ 32) 0 with
        | .error e => .error e
        | .ok _ => .error .rangeError

end JsVal

/-! ## `JSON.stringify` and `JSON.parse` -/

namespace JSON

open JsVal

/-- The double-quote character. -/
def dquote : Char := Char.ofNat 34
/-- The backslash character. -/
def bslash : Char := Char.ofNat 92
/-- The opening brace. -/
def lbrace : Char := Char.ofNat 123
/-- The closing brace. -/
def rbrace : Char := Char.ofNat 125

/-- Lower-case hexadecimal digit. -/
def hexChar (d : Nat) : Char := if d < 10 then Char.ofNat (48 + d) else Char.ofNat (87 + d)

/-- How `JSON.stringify` writes one character of a string: the quote and the backslash are
escaped, control characters below U+0020 get their short escape or a `u00XX` escape, any
other character is copied. -/
def quoteChar (c : Char) : List Char :=
  if c = dquote then [bslash, dquote]
  else if c = bslash then [bslash, bslash]
  else if c.toNat = 8 then [bslash, 'b']
  else if c.toNat = 9 then [bslash, 't']
  else if c.toNat = 10 then [bslash, 'n']
  else if c.toNat = 12 then [bslash, 'f']
  else if c.toNat = 13 then [bslash, 'r']
  else if c.toNat < 32 then
    [bslash, 'u', '0', '0', hexChar (c.toNat / 16), hexChar (c.toNat % 16)]
  else [c]

/-- Escaped content of a string literal. -/
def quoteChars : List Char → List Char
  | [] => []
  | c :: cs => quoteChar c ++ quoteChars cs

/-- A string as a JSON string literal. -/
def quote (cs : List Char) : List Char := dquote :: (quoteChars cs ++ [dquote])

mutual
/-- Text of a value under `JSON.stringify` with no indentation; `none` is the result
`undefined` (the value `undefined` has no JSON text). -/
def stringifyVal : JsVal → Option (List Char)
  | .undefined => none
  | .null => some "null".data
  | .bool true => some "true".data
  | .bool false => some "false".data
  | .num n => some (numChars n)
  | .dbl (.inf _) => some "null".data
  | .dbl d => some d.chars
  | .str s => some (quote s.data)
  | .arr xs => some ('[' :: (commaJoin (elemTexts xs) ++ [']']))
  | .obj kvs => some (lbrace :: (commaJoin (memberTexts kvs) ++ [rbrace]))
/-- Texts of array elements; an `undefined` element is written `null`. -/
def elemTexts : List JsVal → List (List Char)
  | [] => []
  | x :: xs =>
    (match stringifyVal x with
     | some t => t
     | none => "null".data) :: elemTexts xs
/-- Texts of object members; a member whose value is `undefined` is left out. -/
def memberTexts : List (String × JsVal) → List (List Char)
  | [] => []
  | (k, v) :: kvs =>
    match stringifyVal v with
    | some t => (quote k.data ++ ':' :: t) :: memberTexts kvs
    | none => memberTexts kvs
end

/-- The call `JSON.stringify(v)`. -/
def stringify (v : JsVal) : Option String := (stringifyVal v).map String.mk

/-- JSON white space. -/
def isWs (c : Char) : Bool :=
  decide (c.toNat = 32 ∨ c.toNat = 9 ∨ c.toNat = 10 ∨ c.toNat = 13)

/-- Drops leading JSON white space. -/
def skipWs : List Char → List Char
  | [] => []
  | c :: cs => if isWs c then skipWs cs else c :: cs

/-- Value of a hexadecimal digit of either case. -/
def hexVal (c : Char) : Option Nat :=
  let n := c.toNat
  if 48 ≤ n ∧ n ≤ 57 then some (n - 48)
  else if 97 ≤ n ∧ n ≤ 102 then some (n - 87)
  else if 65 ≤ n ∧ n ≤ 70 then some (n - 55)
  else none

/-- Value of four hexadecimal digits. -/
def hex4 (a b c d : Char) : Option Nat :=
  match hexVal a, hexVal b, hexVal c, hexVal d with
  | some x, some y, some z, some w => some (((x * 16 + y) * 16 + z) * 16 + w)
  | _, _, _, _ => none

/-- The character denoted by a one-letter escape. -/
def unescape (e : Char) : Option Char :=
  if e = dquote then some dquote
  else if e = bslash then some bslash
  else if e = '/' then some '/'
  else if e = 'b' then some (Char.ofNat 8)
  else if e = 'f' then some (Char.ofNat 12)
  else if e = 'n' then some (Char.ofNat 10)
  else if e = 'r' then some (Char.ofNat 13)
  else if e = 't' then some (Char.ofNat 9)
  else none

/-- Puts a character in front of a parsed string content. -/
def consChar (c : Char) : Option (List Char × List Char) → Option (List Char × List Char)
  | some (s, rest) => some (c :: s, rest)
  | none => none

/-- Reads four hexadecimal digits; gives their value and the remaining input. -/
def hex4At : List Char → Option (Nat × List Char)
  | h1 :: h2 :: h3 :: h4 :: rest =>
    match hex4 h1 h2 h3 h4 with
    | some n => some (n, rest)
    | none => none
  | _ => none

/-- Reads what follows a backslash inside a string literal; gives the character denoted and
the remaining input.  A `u` escape naming half of a surrogate pair is accepted only as the
first half of a well-formed pair (a lone half has no counterpart among the characters of the
model). -/
def readEscape : List Char → Option (Char × List Char)
  | [] => none
  | e :: rest =>
    if e = 'u' then
      match hex4At rest with
      | none => none
      | some (n, rest2) =>
        if 55296 ≤ n ∧ n < 56320 then
          match rest2 with
          | b :: u :: rest3 =>
            if b = bslash ∧ u = 'u' then
              match hex4At rest3 with
              | none => none
              | some (m, rest4) =>
                if 56320 ≤ m ∧ m < 57344 then
                  some (Char.ofNat (65536 + (n - 55296) * 1024 + (m - 56320)), rest4)
                else none
            else none
          | _ => none
        else if 56320 ≤ n ∧ n < 57344 then none
        else some (Char.ofNat n, rest2)
    else
      match unescape e with
      | some ch => some (ch, rest)
      | none => none

/-- Reads the content of a string literal up to and including the closing quote, taking at
most as many steps as the first argument says; gives the string and the remaining input. -/
def parseCharsAux : Nat → List Char → Option (List Char × List Char)
  | 0, _ => none
  | _ + 1, [] => none
  | fuel + 1, c :: cs =>
    if c = dquote then some ([], cs)
    else if c = bslash then
      match readEscape cs with
      | some (ch, rest) => consChar ch (parseCharsAux fuel rest)
      | none => none
    else if c.toNat < 32 then none
    else consChar c (parseCharsAux fuel cs)

/-- Reads the content of a string literal after its opening quote (every step consumes
input, so its length bounds the number of steps). -/
def parseChars (cs : List Char) : Option (List Char × List Char) :=
  parseCharsAux cs.length cs

/-- Reads the integer part of a JSON number: a single `0`, or a non-zero digit followed by
digits. -/
def parseNat : List Char → Option (Nat × List Char)
  | [] => none
  | c :: rest =>
    match digitVal c with
    | none => none
    | some d => if d = 0 then some (0, rest) else some (readDigits rest d)

/-- Reads the fraction part of a JSON number, if there is one, after an integer part of
value `n`: a point and one or more digits.  Gives the value of all digits read so far, the
number of digits behind the point, and the remaining input. -/
def readFraction (n : Nat) : List Char → Option (Nat × Nat × List Char)
  | [] => some (n, 0, [])
  | c :: r =>
    if c = '.' then
      match readDigits r n with
      | (v, r2) => if r.length - r2.length = 0 then none else some (v, r.length - r2.length, r2)
    else some (n, 0, c :: r)

/-- Reads the exponent part of a JSON number, if there is one. -/
def readExpPart : List Char → Option (Int × List Char)
  | [] => some (0, [])
  | c :: r => if c = 'e' ∨ c = 'E' then readExponent r else some (0, c :: r)

/-- Reads a JSON number after its sign: an integer part, an optional fraction part and an
optional exponent part; the value is the Number value of the decimal written. -/
def parseUnsigned (neg : Bool) (body : List Char) : Option (JsVal × List Char) :=
  match parseNat body with
  | none => none
  | some (n, r1) =>
    match readFraction n r1 with
    | none => none
    | some (v, cnt, r2) =>
      match readExpPart r2 with
      | none => none
      | some (x, r3) =>
        match JsNumber.ofDecimal neg v (x - cnt) with
        | .int k => some (.num k, r3)
        | .dbl d => some (.dbl d, r3)
        | .nan => none

/-- Reads a JSON number: an optional minus sign and the unsigned number. -/
def parseNumber (cs : List Char) : Option (JsVal × List Char) :=
  match cs with
  | c :: rest => if c = '-' then parseUnsigned true rest else parseUnsigned false (c :: rest)
  | [] => none

/-- Strips the literal `lit` from the front of the input. -/
def expectText : List Char → List Char → Option (List Char)
  | [], cs => some cs
  | _ :: _, [] => none
  | l :: ls, c :: cs => if l = c then expectText ls cs else none

/-- The array index that a property name spells, if any: the decimal text, with no
superfluous zero in front, of an integer below `2 ^ 32 - 1`. -/
def arrayIndex (k : String) : Option Nat :=
  match digitsOnly k.data with
  | some n => if k.data = natChars n ∧ n < 4294967295 then some n else none
  | none => none

/-- Whether a new property named `k` is enumerated before an existing property named `l`:
array indices come first, in ascending order, and every other name after them. -/
def comesBefore (k l : String) : Bool :=
  match arrayIndex k, arrayIndex l with
  | some i, some j => decide (i < j)
  | some _, none => true
  | none, _ => false

/-- Puts a new property at its place in the enumeration order: before the first property
that it comes before, or last. -/
def insertProp (k : String) (v : JsVal) : List (String × JsVal) → List (String × JsVal)
  | [] => [(k, v)]
  | (l, w) :: kvs =>
    if comesBefore k l then (k, v) :: (l, w) :: kvs else (l, w) :: insertProp k v kvs

/-- Gives an existing property a new value, at the place it has. -/
def replaceProp (k : String) (v : JsVal) : List (String × JsVal) → List (String × JsVal)
  | [] => []
  | (l, w) :: kvs => if l = k then (l, v) :: kvs else (l, w) :: replaceProp k v kvs

/-- Defines property `k` of an object under construction: an existing property keeps its
place and takes the new value; a new one takes its place in the enumeration order, array
indices in ascending order first and the other names in the order of their creation. -/
def setProp (k : String) (v : JsVal) (kvs : List (String × JsVal)) : List (String × JsVal) :=
  if hasKey k kvs then replaceProp k v kvs else insertProp k v kvs

/-- The object made from the members of a JSON text, taken in document order; a repeated
name keeps its last value. -/
def buildObj (members : List (String × JsVal)) : List (String × JsVal) :=
  members.foldl (fun o kv => setProp kv.1 kv.2 o) []

mutual
/-- Reads one JSON value, white space before it included; the first argument bounds the
nesting of calls. -/
def parseValue : Nat → List Char → Option (JsVal × List Char)
  | 0, _ => none
  | fuel + 1, cs =>
    match skipWs cs with
    | [] => none
    | c :: rest =>
      if c = '[' then
        match skipWs rest with
        | [] => none
        | d :: rest2 =>
          if d = ']' then some (.arr [], rest2)
          else
            match parseElems fuel (d :: rest2) with
            | some (xs, r) => some (.arr xs, r)
            | none => none
      else if c = lbrace then
        match skipWs rest with
        | [] => none
        | d :: rest2 =>
          if d = rbrace then some (.obj [], rest2)
          else
            match parseMembers fuel (d :: rest2) with
            | some (kvs, r) => some (.obj (buildObj kvs), r)
            | none => none
      else if c = dquote then
        match parseChars rest with
        | some (s, r) => some (.str (String.mk s), r)
        | none => none
      else if c = 'n' then
        match expectText "ull".data rest with
        | some r => some (.null, r)
        | none => none
      else if c = 't' then
        match expectText "rue".data rest with
        | some r => some (.bool true, r)
        | none => none
      else if c = 'f' then
        match expectText "alse".data rest with
        | some r => some (.bool false, r)
        | none => none
      else
        parseNumber (c :: rest)
/-- Reads the elements of a non-empty array up to and including the closing bracket. -/
def parseElems : Nat → List Char → Option (List JsVal × List Char)
  | 0, _ => none
  | fuel + 1, cs =>
    match parseValue fuel cs with
    | none => none
    | some (v, r) =>
      match skipWs r with
      | [] => none
      | d :: r2 =>
        if d = ',' then
          match parseElems fuel r2 with
          | some (vs, r3) => some (v :: vs, r3)
          | none => none
        else if d = ']' then some ([v], r2)
        else none
/-- Reads the members of a non-empty object, in document order, up to and including the
closing brace. -/
def parseMembers : Nat → List Char → Option (List (String × JsVal) × List Char)
  | 0, _ => none
  | fuel + 1, cs =>
    match skipWs cs with
    | [] => none
    | q :: r0 =>
      if q = dquote then
        match parseChars r0 with
        | none => none
        | some (k, r1) =>
          match skipWs r1 with
          | [] => none
          | colon :: r2 =>
            if colon = ':' then
              match parseValue fuel r2 with
              | none => none
              | some (v, r3) =>
                match skipWs r3 with
                | [] => none
                | d :: r4 =>
                  if d = ',' then
                    match parseMembers fuel r4 with
                    | some (kvs, r5) => some ((String.mk k, v) :: kvs, r5)
                    | none => none
                  else if d = rbrace then some ([(String.mk k, v)], r4)
                  else none
            else none
      else none
end

/-- The call `JSON.parse(text)`: one value, optionally surrounded by white space, and nothing
else; anything else throws a `SyntaxError`. -/
def parse (text : String) : Except JsThrow JsVal :=
  match parseValue (2 * text.data.length + 2) text.data with
  | some (v, rest) =>
    match skipWs rest with
    | [] => .ok v
    | _ :: _ => .error .syntaxError
  | none => .error .syntaxError

/-- The call `JSON.parse(v)` on an arbitrary value: the argument is first converted with
`ToString`. -/
def parseVal (v : JsVal) : Except JsThrow JsVal :=
  match toStr v with
  | .ok t => parse (String.mk t)
  | .error e => .error e

end JSON

/-! ## JSON documents -/

namespace JSON

open JsVal

mutual
/-- A JSON document: a value with no `undefined` inside, whose numbers are finite and in the
form that the platform functions give them (`num` for an integer of magnitude less than
`2 ^ 53`, `dbl` with an odd significand for any other double) and not `-0`, which
`JSON.stringify` writes as `0`, and in which the own properties of every object have
pairwise different names and stand in enumeration order (as they do in any JavaScript
object). -/
def isDoc : JsVal → Bool
  | .undefined => false
  | .num n => decide (n.natAbs < 2 ^ 53)
  | .dbl d => d.isJson
  | .arr xs => allDocs xs
  | .obj kvs =>
    decide (kvs.map Prod.fst).Nodup &&
      decide ((kvs.map Prod.fst).Pairwise (fun a b => comesBefore b a = false)) &&
      propsDocs kvs
  | _ => true
/-- Every element is a JSON document. -/
def allDocs : List JsVal → Bool
  | [] => true
  | x :: xs => isDoc x && allDocs xs
/-- Every property value is a JSON document. -/
def propsDocs : List (String × JsVal) → Bool
  | [] => true
  | (_, v) :: kvs => isDoc v && propsDocs kvs
end

mutual
/-- Nesting of parser calls that reading the text of a value takes. -/
def need : JsVal → Nat
  | .arr xs => 1 + needElems xs
  | .obj kvs => 1 + needProps kvs
  | _ => 1
/-- Nesting of parser calls for the elements of an array. -/
def needElems : List JsVal → Nat
  | [] => 0
  | x :: xs => 1 + need x + needElems xs
/-- Nesting of parser calls for the members of an object. -/
def needProps : List (String × JsVal) → Nat
  | [] => 0
  | (_, v) :: kvs => 1 + need v + needProps kvs
end

/-- Input that can follow a value inside a JSON text: the end of the input, a comma, a
closing bracket or a closing brace. -/
def Delim (rest : List Char) : Prop :=
  rest = [] ∨ ∃ c r, rest = c :: r ∧ (c = ',' ∨ c = ']' ∨ c = rbrace)

/-- What the parser relies on about the first character of the text of a value: it is not
white space and closes neither an array nor an object. -/
structure ValueHead (c : Char) : Prop where
  notWs : isWs c = false
  notClose : c ≠ ']'
  notRbrace : c ≠ rbrace

/-- The two-step decode of `getIBdata`: `JSON.parse(data.Body)` and then `JSON.parse` of
the result. -/
def doubleDecode (body : String) : Except JsThrow JsVal :=
  match parse body with
  | .ok dataPayload => parseVal dataPayload
  | .error e => .error e

end JSON

/-! ## The outside world and callback-passing control flow -/

/-- Error values handed to callbacks: an error object produced by a client library
(described by its text), or a string built by the program itself. -/
inductive JsErr where
  | object (desc : String)
  | text (msg : String)
  deriving DecidableEq, Repr

/-- The parameter object of `s3.putObject`; `Body` is `none` when `JSON.stringify` gave
`undefined`. -/
structure PutParams where
  Bucket : String
  Key : String
  Body : Option String
  ContentType : String
  deriving DecidableEq, Repr

/-- Calls to the outside world, each with the answer it got.  Console output is recorded
only for the line by which `cycleThru` reports how a cycle ended. -/
inductive Event where
  | ecsGetObject (bucket key : String) (resp : Except String String)
  | s3PutObject (params : PutParams) (resp : Except String String)
  | writeFile (path : String) (data : List JsVal) (resp : Option String)
  | setTimeout (ms : Nat)
  | log (msg : String)

/-- The outside world: how the input store answers `getObject` (an error, or the body), how
the output store answers `putObject` (an error, or the `ETag` of the stored object) and how
the file system answers `writeFile` (an error, if any), each as a function of everything that
happened before; and the directory of the script. -/
structure World where
  ecsGetObject : List Event → String → String → Except String String
  s3PutObject : List Event → PutParams → Except String String
  writeFile : List Event → String → List JsVal → Option String
  dirname : String

/-- How a piece of callback-passing code ends: its callback is called without error
(`ok`, with the result passed), called with an error (`err`), never called (`silent`), or an
exception escapes that no handler of the program catches (`thrown`). -/
inductive Cb (α : Type) where
  | ok (a : α)
  | err (e : JsErr)
  | silent
  | thrown (e : JsThrow)

/-- Callback-passing code over a state `σ`: from the state before to the state after and
the way it ended. -/
abbrev Step (σ α : Type) := σ → σ × Cb α

namespace Async

/-- Two consecutive tasks of `async.series`, the second using what the first passed on
(through a variable of the enclosing function): the second task starts only when the first
has called back without error; an error goes straight to the final callback. -/
def andThen {σ α β : Type} (first : Step σ α) (next : α → Step σ β) : Step σ β :=
  fun s =>
    match first s with
    | (s1, .ok a) => next a s1
    | (s1, .err e) => (s1, .err e)
    | (s1, .silent) => (s1, .silent)
    | (s1, .thrown e) => (s1, .thrown e)

/-- The call `async.forEachSeries(items, iterator, callback)`: the iterator runs on one item
at a time, in order, the next one only after the previous one has called back; the first
error stops the iteration and goes to the final callback. -/
def forEachSeries {σ α : Type} (iterator : α → Step σ Unit) : List α → Step σ Unit
  | [], s => (s, .ok ())
  | x :: xs, s =>
    match iterator x s with
    | (s1, .ok _) => forEachSeries iterator xs s1
    | (s1, .err e) => (s1, .err e)
    | (s1, .silent) => (s1, .silent)
    | (s1, .thrown e) => (s1, .thrown e)

end Async

/-! ## Code shared by the two programs -/

open JsVal

/-- The file `PNWandNCAcustomers.json` that `cycleThru` names as the customer list. -/
def customerListSource : String := "PNWandNCAcustomers.json"

/-- The function `getCustomerList(source, callback)`, the same in both programs up to the
bucket read: a store error is passed to the callback; otherwise the body is parsed and, for
each index below `dataPayload.length`, `dataPayload[i].gduns` is pushed on the list passed to
the callback.  Neither the parse nor the loop is inside a `try`. -/
def getCustomerListIn (bucket : String) (w : World) (source : String) :
    Step (List Event) (List JsVal) :=
  fun t =>
    let resp := w.ecsGetObject t bucket source
    let t1 := t ++ [.ecsGetObject bucket source resp]
    match resp with
    | .error e => (t1, .err (.object e))
    | .ok body =>
      match JSON.parse body with
      | .error e => (t1, .thrown e)
      | .ok dataPayload =>
        match forLength dataPayload (fun item => getProp item "gduns") with
        | .error e => (t1, .thrown e)
        | .ok GDUNS => (t1, .ok GDUNS)

/-- What the `try` block of `getIBdata` passes to the callback for a fetched body: the body
is decoded twice; a `records` property below 1 gives the error `no JSON payload in <key>`;
otherwise the extractor runs and its result is passed on; any exception inside the block
gives the error `unexpected install base JSON format in <key>`.  (Variant A prints
`payloadObject.records` before the test; building that line throws in exactly the cases in
which the test itself throws.) -/
def ibCallback {α : Type} (extract : JsVal → Except JsThrow α) (key body : String) :
    Except JsErr α :=
  match JSON.doubleDecode body with
  | .error _ => .error (.text ("unexpected install base JSON format in " ++ key))
  | .ok payloadObject =>
    match getProp payloadObject "records" with
    | .error _ => .error (.text ("unexpected install base JSON format in " ++ key))
    | .ok records =>
      match ltNum records 1 with
      | .error _ => .error (.text ("unexpected install base JSON format in " ++ key))
      | .ok true => .error (.text ("no JSON payload in " ++ key))
      | .ok false =>
        match extract payloadObject with
        | .ok insight => .ok insight
        | .error _ => .error (.text ("unexpected install base JSON format in " ++ key))

/-- The function `getIBdata(gdun, callback)`, the same in both programs up to the bucket
read and the extractor called (`extractInsight`, `extractSNs`): the object `<gdun>.json` is
fetched; a store error is passed to the callback; otherwise the callback gets what
`ibCallback` says.  The key is built by string concatenation before any `try`: for a
customer id that has no text the concatenation throws, and the run is not followed past that
exception. -/
def getIBdataWith {α : Type} (bucket : String) (extract : JsVal → Except JsThrow α)
    (w : World) (gdun : JsVal) : Step (List Event) α :=
  fun t =>
    match toStr gdun with
    | .error e => (t, .thrown e)
    | .ok g =>
      let key := String.mk g ++ ".json"
      let resp := w.ecsGetObject t bucket key
      let t1 := t ++ [.ecsGetObject bucket key resp]
      match resp with
      | .error e => (t1, .err (.object e))
      | .ok body =>
        match ibCallback extract key body with
        | .ok insight => (t1, .ok insight)
        | .error e => (t1, .err e)

/-! ## `munger3.js` (variant B) -/

namespace Munger3

/-- The global `mungerNumber`. -/
def mungerNumber : String := "3"
/-- The global `ecsBucket`. -/
def ecsBucket : String := "installBase"
/-- The global `awsBucket`. -/
def awsBucket : String := "munger-insights"

/-- Text of an error as string concatenation prints it. -/
def errText : JsErr → String
  | .object desc => desc
  | .text msg => msg

/-- The function `getCustomerList`. -/
def getCustomerList (w : World) (source : String) : Step (List Event) (List JsVal) :=
  getCustomerListIn ecsBucket w source

/-- The function `extractInsight(installBaseData, callback)`: one `SN`/`SO` object per
index below `installBaseData.rows.length`; the result is the array passed to the callback. -/
def extractInsight (installBaseData : JsVal) : Except JsThrow (List JsVal) :=
  match getProp installBaseData "rows" with
  | .error e => .error e
  | .ok rows =>
    forLength rows (fun row =>
      match getProp row "ITEM_SERIAL_NUMBER" with
      | .error e => .error e
      | .ok sn =>
        match getProp row "SALES_ORDER" with
        | .error e => .error e
        | .ok so => .ok (.obj [("SN", sn), ("SO", so)]))

/-- The function `getIBdata`. -/
def getIBdata (w : World) (gdun : JsVal) : Step (List Event) (List JsVal) :=
  getIBdataWith ecsBucket extractInsight w gdun

/-- The parameters `s3params` that `storeInsight` builds. -/
def s3params (g : List Char) (insightToStore : List JsVal) : PutParams :=
  { Bucket := awsBucket
    Key := String.mk g ++ "." ++ "SNSO" ++ "." ++ mungerNumber
    Body := JSON.stringify (.arr insightToStore)
    ContentType := "json" }

/-- The function `storeInsight(gdun, insightToStore, callback)`: one `putObject`; a store
error is passed to the callback; on success the `ETag` is parsed (outside any `try`) and
passed on. -/
def storeInsight (w : World) (gdun : JsVal) (insightToStore : List JsVal) :
    Step (List Event) JsVal :=
  fun t =>
    match toStr gdun with
    | .error e => (t, .thrown e)
    | .ok g =>
      let resp := w.s3PutObject t (s3params g insightToStore)
      let t1 := t ++ [.s3PutObject (s3params g insightToStore) resp]
      match resp with
      | .error e => (t1, .err (.object e))
      | .ok etag =>
        match JSON.parse etag with
        | .error e => (t1, .thrown e)
        | .ok eTag => (t1, .ok eTag)

/-- The iterator that `processGDUN` hands to `async.forEachSeries`: the series of
`getIBdata` and `storeInsight`, whose final callback calls back without error whether or not
the series failed. -/
def processGDUNItem (w : World) (gdun : JsVal) : Step (List Event) Unit :=
  fun t =>
    match Async.andThen (getIBdata w gdun) (fun insight => storeInsight w gdun insight) t with
    | (t1, .ok _) => (t1, .ok ())
    | (t1, .err _) => (t1, .ok ())
    | (t1, .silent) => (t1, .silent)
    | (t1, .thrown e) => (t1, .thrown e)

/-- The function `processGDUN(GDUNlist, callback)`. -/
def processGDUN (w : World) (GDUNlist : List JsVal) : Step (List Event) Unit :=
  Async.forEachSeries (processGDUNItem w) GDUNlist

/-- The function `cycleThru()`, one cycle: the series of `getCustomerList` and
`processGDUN`; its final callback reports how the cycle ended and sets the timer that
restarts the cycle after 604800000 ms.  The result is what the final callback received. -/
def cycleThru (w : World) : Step (List Event) Unit :=
  fun t =>
    match Async.andThen (getCustomerList w customerListSource)
        (fun GDUNarray => processGDUN w GDUNarray) t with
    | (t1, .ok _) =>
      (t1 ++ [.log "Full cycle completed successfully", .setTimeout 604800000], .ok ())
    | (t1, .err e) =>
      (t1 ++ [.log ("Full cycle likely not complete, error: " ++ errText e),
        .setTimeout 604800000], .err e)
    | (t1, .silent) => (t1, .silent)
    | (t1, .thrown e) => (t1, .thrown e)

/-- The program from its launch, for at most `n` cycles: `cycleThru()` is called at the
start and again by every timer that a cycle has set.  A cycle whose final callback does not
run sets no timer, and the run ends there. -/
def run (w : World) : Nat → Step (List Event) Unit
  | 0, t => (t, .ok ())
  | n + 1, t =>
    match cycleThru w t with
    | (t1, .ok _) => run w n t1
    | (t1, .err _) => run w n t1
    | (t1, .silent) => (t1, .silent)
    | (t1, .thrown e) => (t1, .thrown e)

end Munger3

/-! ## `SNSlotListGenerator.js` (variant A) -/

namespace SNSlotListGenerator

/-- The global `ecsBucket`. -/
def ecsBucket : String := "pacnwinstalls"

/-- State of the program: the history of calls and the global `masterListOfSNs`. -/
structure State where
  events : List Event
  masterListOfSNs : List JsVal

/-- Runs a step on the history inside the program state. -/
def onEvents {α : Type} (step : Step (List Event) α) : Step State α :=
  fun s =>
    match step s.events with
    | (t1, r) => ({ s with events := t1 }, r)

/-- Strict equality `===` between a searched value and an array item.  Primitive values are
compared by value, `-0` being equal to `0`.  Arrays and objects are compared by identity:
each one reaching the program is a separate node of a parsed document, so two of them are
never identical. -/
def strictEq : JsVal → JsVal → Bool
  | .undefined, .undefined => true
  | .null, .null => true
  | .bool a, .bool b => a == b
  | .num a, .num b => decide (a = b)
  | .dbl (.fin _ 0 _), .num b => decide (b = 0)
  | .num a, .dbl (.fin _ 0 _) => decide (a = 0)
  | .dbl (.fin _ 0 _), .dbl (.fin _ 0 _) => true
  | .dbl a, .dbl b => decide (a = b)
  | .str a, .str b => decide (a = b)
  | _, _ => false

/-- The method `Array.prototype.indexOf`: the first index holding an item strictly equal to
the needle, or `-1`. -/
def indexOf : List JsVal → JsVal → Int
  | [], _ => -1
  | item :: items, needle =>
    if strictEq item needle then 0
    else
      match indexOf items needle with
      | .negSucc _ => -1
      | .ofNat i => Int.ofNat (i + 1)

/-- The function `contains`, called with the master list as `this`.  The test
`needle !== needle` singles out `NaN`, which the number model does not have, so the built-in
`indexOf` is the branch taken. -/
def contains (self : List JsVal) (needle : JsVal) : Bool :=
  decide (indexOf self needle > -1)

/-- The function `getCustomerList`. -/
def getCustomerList (w : World) (source : String) : Step State (List JsVal) :=
  onEvents (getCustomerListIn ecsBucket w source)

/-- The function `extractSNs(installBaseData, callback)`: the `ITEM_SERIAL_NUMBER` of each
index below `installBaseData.rows.length`; the result is the array passed to the callback. -/
def extractSNs (installBaseData : JsVal) : Except JsThrow (List JsVal) :=
  match getProp installBaseData "rows" with
  | .error e => .error e
  | .ok rows => forLength rows (fun row => getProp row "ITEM_SERIAL_NUMBER")

/-- The function `getIBdata`. -/
def getIBdata (w : World) (gdun : JsVal) : Step State (List JsVal) :=
  onEvents (getIBdataWith ecsBucket extractSNs w gdun)

/-- The loop of `addSNsToList`: each item not yet contained in the master list is pushed
on it. -/
def pushNew : List JsVal → List JsVal → List JsVal
  | [], master => master
  | needle :: rest, master =>
    if contains master needle then pushNew rest master
    else pushNew rest (master ++ [needle])

/-- The function `addSNsToList(SNsToAdd, callback)`, called with an array: nothing in its
`try` block throws on an array, so the callback is called without error. -/
def addSNsToList (SNsToAdd : List JsVal) : Step State Unit :=
  fun s => ({ s with masterListOfSNs := pushNew SNsToAdd s.masterListOfSNs }, .ok ())

/-- The function `processGDUN(GDUNlist, callback)`: for each customer the series of
`getIBdata` and `addSNsToList`, whose final callback passes an error on. -/
def processGDUN (w : World) (GDUNlist : List JsVal) : Step State Unit :=
  Async.forEachSeries
    (fun gdun => Async.andThen (getIBdata w gdun) (fun SNsToAdd => addSNsToList SNsToAdd))
    GDUNlist

/-- The function `storeSNList(listToStore, callback)`: one `fs.writeFile` of the list to
`allSNs.txt` in the script directory, which receives the list as it is.  The parameter
`callback` is not used in the body, and the callback given to `fs.writeFile` only prints. -/
def storeSNList (w : World) (listToStore : List JsVal) : Step State Unit :=
  fun s =>
    let path := w.dirname ++ "/allSNs.txt"
    ({ s with events :=
        s.events ++ [.writeFile path listToStore (w.writeFile s.events path listToStore)] },
      .silent)

/-- The function `cycleThru()`: the series of `getCustomerList`, `processGDUN` and
`storeSNList` (which is given the master list as it is then); the final callback prints
`Process Complete.`.  The result is what the final callback received. -/
def cycleThru (w : World) : Step State Unit :=
  fun s =>
    match Async.andThen (getCustomerList w customerListSource)
        (fun GDUNarray => Async.andThen (processGDUN w GDUNarray)
          (fun _ s2 => storeSNList w s2.masterListOfSNs s2)) s with
    | (s1, .ok _) => ({ s1 with events := s1.events ++ [.log "Process Complete."] }, .ok ())
    | (s1, .err e) => ({ s1 with events := s1.events ++ [.log "Process Complete."] }, .err e)
    | (s1, .silent) => (s1, .silent)
    | (s1, .thrown e) => (s1, .thrown e)

end SNSlotListGenerator

/-! ## Inputs used in the scenarios -/

namespace Scenario

/-- A store body holding `doc` the way the upstream producer writes it:
`JSON.stringify(JSON.stringify(doc))`. -/
def encodeTwice (doc : JsVal) : String :=
  match JSON.stringify doc with
  | some s1 =>
    match JSON.stringify (.str s1) with
    | some s2 => s2
    | none => ""
  | none => ""

/-- A world whose input store answers every `getObject` with the given function of the key,
whose output store accepts every `putObject` with the `ETag` `"etag"` (quotes included), and
whose file system accepts every write. -/
def world (store : String → Except String String) : World :=
  { ecsGetObject := fun _ _ key => store key
    s3PutObject := fun _ _ => .ok (String.mk (JSON.quote "etag".data))
    writeFile := fun _ _ _ => none
    dirname := "/app" }

/-- A customer list whose second element has no `gduns` field:
`[{"gduns":"100"},{"name":"x"}]`. -/
def listLackingGduns : String := "[\x7b\"gduns\":\"100\"\x7d,\x7b\"name\":\"x\"\x7d]"

/-- A customer list with a repeated customer:
`[{"gduns":"100"},{"gduns":"200"},{"gduns":"100"}]`. -/
def listWithRepeat : String :=
  "[\x7b\"gduns\":\"100\"\x7d,\x7b\"gduns\":\"200\"\x7d,\x7b\"gduns\":\"100\"\x7d]"

/-- A customer list with numbers in it: a repeated customer, a customer number with a
fraction, a further field written with an exponent, and a customer number beyond `2 ^ 53`:
`[{"gduns":"100"},{"gduns":1.5},{"gduns":"100","weight":1e3},{"gduns":12345678901234567890}]`. -/
def listWithNumbers : String :=
  "[\x7b\"gduns\":\"100\"\x7d,\x7b\"gduns\":1.5\x7d," ++
    "\x7b\"gduns\":\"100\",\"weight\":1e3\x7d,\x7b\"gduns\":12345678901234567890\x7d]"

/-- The customer list of the scenario: `[{"gduns":"100"},{"gduns":"200"}]`. -/
def list100and200 : String := "[\x7b\"gduns\":\"100\"\x7d,\x7b\"gduns\":\"200\"\x7d]"

/-- The install-base document of the scenario, with two rows for serial number `A1`. -/
def doc100 : JsVal :=
  .obj [("records", .num 2), ("rows", .arr [
    .obj [("ITEM_SERIAL_NUMBER", .str "A1"), ("SALES_ORDER", .str "SO1")],
    .obj [("ITEM_SERIAL_NUMBER", .str "A1"), ("SALES_ORDER", .str "SO2")]])]

/-- The store of the scenario: the customer list, `100.json`, and nothing else. -/
def store100 (key : String) : Except String String :=
  if key = "PNWandNCAcustomers.json" then .ok list100and200
  else if key = "100.json" then .ok (encodeTwice doc100)
  else .error "NoSuchKey"

/-- A store in which every customer of the list `["100", "200"]` has the install-base
document of the scenario. -/
def storeFull (key : String) : Except String String :=
  if key = "PNWandNCAcustomers.json" then .ok list100and200
  else .ok (encodeTwice doc100)

/-- A document that declares `recordCount: 0` and has no `records` property. -/
def docRecordCount0 : JsVal := .obj [("recordCount", .num 0), ("rows", .arr [])]

/-- A document that declares `records: 0`. -/
def docRecords0 : JsVal :=
  .obj [("records", .num 0), ("rows", .arr [
    .obj [("ITEM_SERIAL_NUMBER", .str "A1"), ("SALES_ORDER", .str "SO1")]])]

/-- A document that declares `records: "0.5"`, a text. -/
def docRecordsText : JsVal :=
  .obj [("records", .str "0.5"), ("rows", .arr [
    .obj [("ITEM_SERIAL_NUMBER", .str "A1"), ("SALES_ORDER", .str "SO1")]])]

/-- A document that declares `records: 0.5`, a number. -/
def docRecordsHalf : JsVal :=
  .obj [("records", .dbl (.fin false 1 (-1))), ("rows", .arr [
    .obj [("ITEM_SERIAL_NUMBER", .str "A1"), ("SALES_ORDER", .str "SO1")]])]

/-- The customer number `1e21` as a value. -/
def gdun1e21 : JsVal := .dbl (.fin false 476837158203125 21)

/-- Text of an install-base document whose row has a price with a fraction and a sales
order that is an object, its member `b` written before its member `1`:
`{"records":1,"rows":[{"ITEM_SERIAL_NUMBER":"A1","SALES_ORDER":{"b":1,"1":2},"LIST_PRICE":12.5}]}`. -/
def docPricedText : String :=
  "\x7b\"records\":1,\"rows\":[\x7b\"ITEM_SERIAL_NUMBER\":\"A1\"," ++
    "\"SALES_ORDER\":\x7b\"b\":1,\"1\":2\x7d,\"LIST_PRICE\":12.5\x7d]\x7d"

/-- A store body holding an install-base text as a JSON string:
`JSON.stringify(docPricedText)`. -/
def docPricedBody : String :=
  match JSON.stringify (.str docPricedText) with
  | some s => s
  | none => ""

/-- A store that holds the priced document for the customer number `1e21`, under the key
`1e+21.json`, and nothing else. -/
def storePriced (key : String) : Except String String :=
  if key = "1e+21.json" then .ok docPricedBody else .error "NoSuchKey"

end Scenario

/-! ## Reading a history -/

/-- The event is a `putObject` on the output store (a publish attempt). -/
def Event.isPut : Event → Bool
  | .s3PutObject _ _ => true
  | _ => false

/-- The event is a `writeFile`. -/
def Event.isWrite : Event → Bool
  | .writeFile _ _ _ => true
  | _ => false

/-- The event is a `setTimeout`. -/
def Event.isTimer : Event → Bool
  | .setTimeout _ => true
  | _ => false

/-- The event is a line printed by the final callback of `cycleThru`. -/
def Event.isLog : Event → Bool
  | .log _ => true
  | _ => false

/-- The key of a `getObject` on the input store. -/
def Event.fetchKey : Event → Option String
  | .ecsGetObject _ key _ => some key
  | _ => none

/-- The key under which the install-base document of customer `gdun` is fetched, if the
customer id has a text. -/
def ibKey (gdun : JsVal) : Option String :=
  match JsVal.toStr gdun with
  | .ok g => some (String.mk g ++ ".json")
  | .error _ => none

/-- The event is a fetch of variant B that succeeded and whose body passed decoding, the
`records` check and the extractor, so that `getIBdata` called back with an insight. -/
def Munger3.isValidFetch : Event → Bool
  | .ecsGetObject _ key (.ok body) =>
    match ibCallback Munger3.extractInsight key body with
    | .ok _ => true
    | .error _ => false
  | _ => false
/-! ## Facts about decimals and doubles -/

namespace Dbl

theorem stripAux_fuel (base : Nat) (hb : 2 ≤ base) :
    ∀ (m : Nat), 0 < m → ∀ (f g : Nat) (e : Int), m ≤ f → m ≤ g →
      stripAux base f m e = stripAux base g m e := by
  intro m
  induction m using Nat.strong_induction_on with
  | _ m ih =>
    intro hm f g e hf hg
    obtain ⟨f1, rfl⟩ : ∃ f1, f = f1 + 1 := ⟨f - 1, by omega⟩
    obtain ⟨g1, rfl⟩ : ∃ g1, g = g1 + 1 := ⟨g - 1, by omega⟩
    simp only [stripAux]
    by_cases hmod : m % base = 0
    · simp only [hmod, if_true]
      have hlt : m / base < m := Nat.div_lt_self hm (by omega)
      have hle : base ≤ m := Nat.le_of_dvd hm (Nat.dvd_of_mod_eq_zero hmod)
      have hpos : 0 < m / base := Nat.div_pos hle (by omega)
      exact ih (m / base) hlt hpos f1 g1 (e + 1) (by omega) (by omega)
    · simp only [hmod, if_false]

theorem strip_mul (base : Nat) (hb : 2 ≤ base) (m : Nat) (hm : 0 < m) (e : Int) :
    strip base (m * base) (e - 1) = strip base m e := by
  have hpos : 0 < m * base := Nat.mul_pos hm (by omega)
  have hne : m * base ≠ 0 := by omega
  have hm0 : m ≠ 0 := by omega
  obtain ⟨k, hk⟩ : ∃ k, m * base = k + 1 := ⟨m * base - 1, by omega⟩
  have hkm : m ≤ k := by
    have : m * 2 ≤ m * base := Nat.mul_le_mul_left m hb
    omega
  simp only [strip, hne, hm0, if_false]
  rw [hk]
  simp only [stripAux]
  rw [← hk]
  simp only [Nat.mul_mod_left, if_true, Nat.mul_div_cancel _ (show 0 < base by omega),
    sub_add_cancel]
  exact stripAux_fuel base hb m hm k m e hkm (le_refl m)

theorem strip_mul_pow (base : Nat) (hb : 2 ≤ base) (m : Nat) (hm : 0 < m) (e : Int) :
    ∀ j : Nat, strip base (m * base ^ j) (e - j) = strip base m e := by
  intro j
  induction j with
  | zero => simp
  | succ j ih =>
    have hpos : 0 < m * base ^ j := Nat.mul_pos hm (Nat.pow_pos (by omega))
    have h := strip_mul base hb (m * base ^ j) hpos (e - j)
    have e1 : m * base ^ (j + 1) = m * base ^ j * base := by ring
    have e2 : e - ((j + 1 : Nat) : Int) = e - j - 1 := by push_cast; ring
    rw [e1, e2, h, ih]

theorem strip_of_not_dvd (base m : Nat) (e : Int) (h : m % base ≠ 0) :
    strip base m e = (m, e) := by
  have hm : m ≠ 0 := by
    intro h0
    apply h
    simp [h0]
  obtain ⟨k, rfl⟩ : ∃ k, m = k + 1 := ⟨m - 1, by omega⟩
  simp only [strip, hm, if_false, stripAux, h]

theorem stripAux_value (base : Nat) (hb : 2 ≤ base) :
    ∀ (f m : Nat) (e : Int), 0 < m →
      ∃ t : Nat, (stripAux base f m e).2 = e + t ∧ (stripAux base f m e).1 * base ^ t = m ∧
        0 < (stripAux base f m e).1 ∧ (m ≤ f → (stripAux base f m e).1 % base ≠ 0) := by
  intro f
  induction f with
  | zero =>
    intro m e hm
    exact ⟨0, by simp [stripAux], by simp [stripAux], by simpa [stripAux] using hm,
      fun h => by omega⟩
  | succ f ih =>
    intro m e hm
    simp only [stripAux]
    by_cases hmod : m % base = 0
    · simp only [hmod, if_true]
      have hlt : m / base < m := Nat.div_lt_self hm (by omega)
      have hle : base ≤ m := Nat.le_of_dvd hm (Nat.dvd_of_mod_eq_zero hmod)
      have hpos : 0 < m / base := Nat.div_pos hle (by omega)
      obtain ⟨t, h1, h2, h3, h4⟩ := ih (m / base) (e + 1) hpos
      refine ⟨t + 1, ?_, ?_, h3, fun h => h4 (by omega)⟩
      · rw [h1]
        push_cast
        ring
      · rw [pow_succ, ← mul_assoc, h2]
        exact Nat.div_mul_cancel (Nat.dvd_of_mod_eq_zero hmod)
    · simp only [hmod, if_false]
      exact ⟨0, by simp, by simp, hm, fun _ => hmod⟩

theorem strip_value (base : Nat) (hb : 2 ≤ base) (m : Nat) (e : Int) (hm : 0 < m) :
    ∃ t : Nat, (strip base m e).2 = e + t ∧ (strip base m e).1 * base ^ t = m ∧
      0 < (strip base m e).1 ∧ (strip base m e).1 % base ≠ 0 := by
  have hm0 : m ≠ 0 := by omega
  obtain ⟨t, h1, h2, h3, h4⟩ := stripAux_value base hb m m e hm
  simp only [strip, hm0, if_false]
  exact ⟨t, h1, h2, h3, h4 (le_refl m)⟩

theorem log2Aux_lt : ∀ (f n j : Nat), n < 2 ^ j → 1 ≤ j → log2Aux f n < j := by
  intro f
  induction f with
  | zero => intro n j _ hj; simp only [log2Aux]; omega
  | succ f ih =>
    intro n j hn hj
    simp only [log2Aux]
    by_cases h2 : n < 2
    · simp only [h2, if_true]; omega
    · simp only [h2, if_false]
      obtain ⟨i, rfl⟩ : ∃ i, j = i + 1 := ⟨j - 1, by omega⟩
      have hi : 1 ≤ i := by
        rcases Nat.eq_zero_or_pos i with h0 | h0
        · subst h0
          simp at hn
          omega
        · exact h0
      have hdiv : n / 2 < 2 ^ i := by
        rw [Nat.div_lt_iff_lt_mul (by norm_num)]
        calc n < 2 ^ (i + 1) := hn
          _ = 2 ^ i * 2 := by ring
      have := ih (n / 2) i hdiv hi
      omega

theorem log2_lt (n j : Nat) (hn : n < 2 ^ j) (hj : 1 ≤ j) : log2 n < j :=
  log2Aux_lt n n j hn hj

theorem natDigits_length_bound : ∀ (fuel n : Nat), n < 10 ^ fuel →
    n < 10 ^ (JsVal.natDigits fuel n).length := by
  intro fuel
  induction fuel with
  | zero =>
    intro n h
    have : n = 0 := by simpa using h
    subst this
    simp [JsVal.natDigits]
  | succ f ih =>
    intro n h
    by_cases h10 : n < 10
    · simp [JsVal.natDigits, h10]
    · have hdiv : n / 10 < 10 ^ f := by
        rw [Nat.div_lt_iff_lt_mul (by norm_num)]
        calc n < 10 ^ (f + 1) := h
          _ = 10 ^ f * 10 := by ring
      have := ih (n / 10) hdiv
      simp only [JsVal.natDigits, h10, if_false, List.length_append, List.length_singleton]
      rw [pow_succ]
      have h2 := Nat.div_add_mod n 10
      have h3 : n % 10 < 10 := Nat.mod_lt _ (by norm_num)
      have h4 : n / 10 + 1 ≤ 10 ^ (JsVal.natDigits f (n / 10)).length := this
      nlinarith

theorem natChars_length_bound (n : Nat) : n < 10 ^ (JsVal.natChars n).length := by
  unfold JsVal.natChars
  exact natDigits_length_bound (n + 1) n
    (calc n < n + 1 := Nat.lt_succ_self n
      _ < 10 ^ (n + 1) := Nat.lt_pow_self (by norm_num) _)

end Dbl

namespace Dbl

theorem norm_odd_pow (m : Nat) (hodd : m % 2 = 1) (j : Nat) (e : Int) :
    norm (m * 2 ^ j) (e - j) = (m, e) := by
  have hm : 0 < m := by omega
  unfold norm
  rw [strip_mul_pow 2 (le_refl 2) m hm e j]
  exact strip_of_not_dvd 2 m e (by omega)

theorem isDouble_iff (m : Nat) (e : Int) :
    isDouble m e = true ↔ m < 2 ^ 53 ∧ -1074 ≤ e ∧ (log2 m : Int) + e ≤ 1023 := by
  simp only [isDouble, decide_eq_true_eq]

theorem pow_bound_int : 2 ^ 53 * 2 ^ 1023 < 10 ^ 401 := by
  have h0 : (2 : ℕ) ^ 53 * 2 ^ 1023 = 2 ^ 1076 := by rw [← pow_add]
  have h1 : (2 : ℕ) ^ 1076 ≤ 2 ^ (3 * 359) := Nat.pow_le_pow_right (by norm_num) (by norm_num)
  have h2 : (2 : ℕ) ^ (3 * 359) = (2 ^ 3) ^ 359 := pow_mul 2 3 359
  have h3 : ((2 : ℕ) ^ 3) ^ 359 < 10 ^ 359 := Nat.pow_lt_pow_left (by norm_num) (by norm_num)
  have h4 : (10 : ℕ) ^ 359 ≤ 10 ^ 401 := Nat.pow_le_pow_right (by norm_num) (by norm_num)
  omega

theorem ofDec_exact_int (m : Nat) (hodd : m % 2 = 1) (j : Nat) (hd : isDouble m j = true)
    (i : Nat) : ofDec (m * 2 ^ j * 10 ^ i) (-(i : Int)) = .fin false m j := by
  obtain ⟨hm53, _, hlog⟩ := (isDouble_iff m j).mp hd
  have hm : 0 < m := by omega
  have hj : j ≤ 1023 := by omega
  have hN : 0 < m * 2 ^ j := Nat.mul_pos hm (Nat.pow_pos (by norm_num))
  have hNlt : m * 2 ^ j < 10 ^ 401 := by
    have h1 : m * 2 ^ j < 2 ^ 53 * 2 ^ j :=
      Nat.mul_lt_mul_of_pos_right hm53 (Nat.pow_pos (by norm_num))
    have h2 : 2 ^ 53 * 2 ^ j ≤ 2 ^ 53 * 2 ^ 1023 :=
      Nat.mul_le_mul_left _ (Nat.pow_le_pow_right (by norm_num) hj)
    have h3 := pow_bound_int
    omega
  have hnorm : normDec (m * 2 ^ j * 10 ^ i) (-(i : Int)) = strip 10 (m * 2 ^ j) 0 := by
    have := strip_mul_pow 10 (by norm_num) (m * 2 ^ j) hN 0 i
    simpa [normDec] using this
  obtain ⟨t, h1, h2, h3, _⟩ := strip_value 10 (by norm_num) (m * 2 ^ j) 0 hN
  have ht : t ≤ 400 := by
    by_contra hcon
    have hle : 10 ^ 401 ≤ 10 ^ t := Nat.pow_le_pow_right (by norm_num) (by omega)
    have hle2 : 10 ^ t ≤ (strip 10 (m * 2 ^ j) 0).1 * 10 ^ t :=
      Nat.le_mul_of_pos_left _ h3
    omega
  have hexact : exactDbl (strip 10 (m * 2 ^ j) 0).1 (strip 10 (m * 2 ^ j) 0).2
      = some (.fin false m j) := by
    have hnn : (0 : Int) ≤ (strip 10 (m * 2 ^ j) 0).2 := by rw [h1]; omega
    have htn : (strip 10 (m * 2 ^ j) 0).2.toNat = t := by rw [h1]; simp
    have hno := norm_odd_pow m hodd j j
    simp only [sub_self] at hno
    simp only [exactDbl, hnn, if_true, htn, h2, hno, hd]
  have hs0 : (strip 10 (m * 2 ^ j) 0).1 ≠ 0 := by omega
  have hg1 : ¬ (400 < (strip 10 (m * 2 ^ j) 0).2) := by rw [h1]; omega
  have hg2 : ¬ (((JsVal.natChars (strip 10 (m * 2 ^ j) 0).1).length : Int)
      + (strip 10 (m * 2 ^ j) 0).2 < -400) := by rw [h1]; omega
  simp only [ofDec, hnorm, hs0, if_false, hg1, hg2, hexact]

theorem five_pow_length (m q : Nat) (hm : 0 < m) (hq : q ≤ 1074) :
    (q : Int) ≤ (JsVal.natChars (m * 5 ^ q)).length + 400 := by
  by_contra hcon
  have hL : (JsVal.natChars (m * 5 ^ q)).length + 400 < q := by omega
  have hb := natChars_length_bound (m * 5 ^ q)
  generalize (JsVal.natChars (m * 5 ^ q)).length = L at hL hb
  have h5 : 5 ^ q ≤ m * 5 ^ q := Nat.le_mul_of_pos_left _ hm
  have hsplit : 5 ^ q = 5 ^ (q - L) * 5 ^ L := by rw [← pow_add]; congr 1; omega
  have h10 : 10 ^ L = 2 ^ L * 5 ^ L := by rw [← Nat.mul_pow]
  have hlt : 5 ^ (q - L) * 5 ^ L < 2 ^ L * 5 ^ L := by omega
  have hlt2 : 5 ^ (q - L) < 2 ^ L := Nat.lt_of_mul_lt_mul_right hlt
  have h401 : 5 ^ 401 ≤ 5 ^ (q - L) := Nat.pow_le_pow_right (by norm_num) (by omega)
  have h4 : ((2 : ℕ) ^ 2) ^ 401 ≤ 5 ^ 401 := Nat.pow_le_pow_left (by norm_num) 401
  have h42 : ((2 : ℕ) ^ 2) ^ 401 = 2 ^ (2 * 401) := (pow_mul 2 2 401).symm
  have h2L : 2 ^ L ≤ 2 ^ (2 * 401) := Nat.pow_le_pow_right (by norm_num) (by omega)
  omega

theorem ofDec_exact_frac (m : Nat) (hodd : m % 2 = 1) (q : Nat) (hq : 1 ≤ q)
    (hd : isDouble m (-(q : Int)) = true) (i : Nat) :
    ofDec (m * 5 ^ q * 10 ^ i) (-((q + i : Nat) : Int)) = .fin false m (-(q : Int)) := by
  obtain ⟨hm53, hlow, _⟩ := (isDouble_iff m (-(q : Int))).mp hd
  have hm : 0 < m := by omega
  have hq2 : q ≤ 1074 := by omega
  have hN : 0 < m * 5 ^ q := Nat.mul_pos hm (Nat.pow_pos (by norm_num))
  have hodd5 : (m * 5 ^ q) % 2 = 1 := by
    have h5 : Odd (5 ^ q) := Odd.pow (by decide)
    have hmo : Odd m := Nat.odd_iff.mpr hodd
    exact Nat.odd_iff.mp (hmo.mul h5)
  have hnorm : normDec (m * 5 ^ q * 10 ^ i) (-((q + i : Nat) : Int))
      = (m * 5 ^ q, -(q : Int)) := by
    have h1 := strip_mul_pow 10 (by norm_num) (m * 5 ^ q) hN (-(q : Int)) i
    have h2 : (-(q : Int)) - (i : Int) = -((q + i : Nat) : Int) := by push_cast; ring
    rw [h2] at h1
    rw [normDec, h1]
    exact strip_of_not_dvd 10 _ _ (by omega)
  have hexact : exactDbl (m * 5 ^ q) (-(q : Int)) = some (.fin false m (-(q : Int))) := by
    have hneg : ¬ ((0 : Int) ≤ -(q : Int)) := by omega
    have htn : (-(-(q : Int))).toNat = q := by simp
    have hno : norm m (-(q : Int)) = (m, -(q : Int)) := by
      unfold norm
      exact strip_of_not_dvd 2 m _ (by omega)
    simp only [exactDbl, hneg, if_false, htn, Nat.mul_mod_left, if_true,
      Nat.mul_div_cancel _ (Nat.pow_pos (show 0 < 5 by norm_num)), hno, hd]
  have hs0 : m * 5 ^ q ≠ 0 := by omega
  have hg1 : ¬ (400 < -(q : Int)) := by omega
  have hg2 : ¬ (((JsVal.natChars (m * 5 ^ q)).length : Int) + -(q : Int) < -400) := by
    have := five_pow_length m q hm hq2
    omega
  simp only [ofDec, hnorm, hs0, if_false, hg1, hg2, hexact]

end Dbl

namespace Dbl

theorem candidate_sound (x : Dbl) (a b : Nat) (n : Int) (k s : Nat)
    (h : candidate x a b n k = some s) : ofDec s (n - k) = x := by
  simp only [candidate] at h
  generalize (if 0 ≤ n - (k : Int) then a else a * 10 ^ (-(n - (k : Int))).toNat) = xa at h
  generalize (if 0 ≤ n - (k : Int) then b * 10 ^ (n - (k : Int)).toNat else b) = xb at h
  split_ifs at h with h1 h2 h3 h4
  · simp only [Option.some.injEq] at h
    subst h
    simpa using h1.1
  · simp only [Option.some.injEq] at h
    subst h
    simpa using h1.2
  · simp only [Option.some.injEq] at h
    subst h
    simpa using h3
  · simp only [Option.some.injEq] at h
    subst h
    simpa using h4

theorem candidate_of_lo (x : Dbl) (a b : Nat) (n : Int) (k : Nat)
    (h : ofDec ((if 0 ≤ n - (k : Int) then a else a * 10 ^ (-(n - (k : Int))).toNat) /
      (if 0 ≤ n - (k : Int) then b * 10 ^ (n - (k : Int)).toNat else b)) (n - k) = x) :
    candidate x a b n k ≠ none := by
  simp only [candidate]
  generalize (if 0 ≤ n - (k : Int) then a else a * 10 ^ (-(n - (k : Int))).toNat) = xa at h
  generalize (if 0 ≤ n - (k : Int) then b * 10 ^ (n - (k : Int)).toNat else b) = xb at h
  simp only [h, decide_True, true_and]
  split_ifs <;> simp

theorem shortestFrom_spec (x : Dbl) (a b : Nat) (n : Int) :
    ∀ (fuel k : Nat), (∃ k2, k ≤ k2 ∧ k2 < k + fuel ∧ candidate x a b n k2 ≠ none) →
      candidate x a b n (shortestFrom x a b n fuel k).1
        = some (shortestFrom x a b n fuel k).2 := by
  intro fuel
  induction fuel with
  | zero =>
    intro k h
    obtain ⟨k2, h1, h2, _⟩ := h
    omega
  | succ fuel ih =>
    intro k h
    obtain ⟨k2, h1, h2, h3⟩ := h
    cases hc : candidate x a b n k with
    | some s => simp only [shortestFrom, hc]
    | none =>
      simp only [shortestFrom, hc]
      have hne : k2 ≠ k := by
        intro e
        subst e
        exact h3 hc
      exact ih (k + 1) ⟨k2, by omega, by omega, h3⟩

theorem candidate_exact (m : Nat) (e : Int) (hodd : m % 2 = 1) (hd : isDouble m e = true)
    (n0 : Int) (k : Nat) (hk : n0 - min e 0 < k) :
    candidate (.fin false m e) (if 0 ≤ e then m * 2 ^ e.toNat else m)
      (if 0 ≤ e then 1 else 2 ^ (-e).toNat) n0 k ≠ none := by
  apply candidate_of_lo
  obtain ⟨i, hi⟩ : ∃ i : Nat, n0 - (k : Int) = -(i : Int) :=
    ⟨(-(n0 - (k : Int))).toNat, by omega⟩
  have hsh : ¬ ((0 : Int) ≤ n0 - (k : Int)) := by omega
  simp only [hsh, if_false]
  rw [hi]
  simp only [neg_neg, Int.toNat_ofNat]
  by_cases he : 0 ≤ e
  · obtain ⟨j, rfl⟩ : ∃ j : Nat, e = j := ⟨e.toNat, by omega⟩
    simp only [he, if_true, Int.toNat_ofNat, Nat.div_one]
    exact ofDec_exact_int m hodd j hd i
  · obtain ⟨q, rfl⟩ : ∃ q : Nat, e = -(q : Int) := ⟨(-e).toNat, by omega⟩
    have hq : 1 ≤ q := by omega
    have hiq : q ≤ i := by omega
    obtain ⟨r, rfl⟩ : ∃ r, i = q + r := ⟨i - q, by omega⟩
    simp only [he, if_false, neg_neg, Int.toNat_ofNat]
    have hval : m * 10 ^ (q + r) / 2 ^ q = m * 5 ^ q * 10 ^ r := by
      have h10 : (10 : ℕ) ^ q = 5 ^ q * 2 ^ q := by rw [← Nat.mul_pow]
      have : m * 10 ^ (q + r) = m * 5 ^ q * 10 ^ r * 2 ^ q := by
        rw [pow_add, h10]
        ring
      rw [this]
      exact Nat.mul_div_cancel _ (Nat.pow_pos (by norm_num))
    rw [hval]
    exact ofDec_exact_frac m hodd q hq hd r

theorem shortest_spec (m : Nat) (e : Int) (hodd : m % 2 = 1) (hd : isDouble m e = true) :
    ofDec (shortest m e).1 (shortest m e).2 = .fin false m e := by
  have hno : norm m e = (m, e) := by
    unfold norm
    exact strip_of_not_dvd 2 m e (by omega)
  simp only [shortest, hno]
  apply candidate_sound
  apply shortestFrom_spec
  refine ⟨(magnitude (if 0 ≤ e then m * 2 ^ e.toNat else m)
      (if 0 ≤ e then 1 else 2 ^ (-e).toNat) - min e 0).toNat + 1, by omega, by omega, ?_⟩
  apply candidate_exact m e hodd hd
  push_cast
  omega

end Dbl

/-! ## Facts about the number and string texts -/

namespace JsVal

theorem digitVal_digitChar (d : Nat) (h : d < 10) : digitVal (digitChar d) = some d := by
  interval_cases d <;> rfl

theorem readDigits_natDigits (fuel : Nat) :
    ∀ (n acc : Nat) (rest : List Char), n < 10 ^ fuel →
      readDigits (natDigits fuel n ++ rest) acc
        = readDigits rest (acc * 10 ^ (natDigits fuel n).length + n) := by
  induction fuel with
  | zero =>
    intro n acc rest h
    have : n = 0 := by simpa using h
    subst this
    simp [natDigits]
  | succ f ih =>
    intro n acc rest h
    by_cases h10 : n < 10
    · simp [natDigits, h10, readDigits, digitVal_digitChar n h10]
    · have hdiv : n / 10 < 10 ^ f := by
        rw [Nat.div_lt_iff_lt_mul (by norm_num)]
        calc n < 10 ^ (f + 1) := h
          _ = 10 ^ f * 10 := by ring
      have hmod : n % 10 < 10 := Nat.mod_lt _ (by norm_num)
      simp only [natDigits, h10, if_false, List.append_assoc, List.singleton_append,
        List.length_append, List.length_singleton]
      rw [ih (n / 10) acc _ hdiv]
      simp only [readDigits, digitVal_digitChar _ hmod]
      congr 1
      have := Nat.div_add_mod n 10
      rw [pow_succ]
      nlinarith [Nat.div_add_mod n 10]

end JsVal

namespace JSON

open JsVal

theorem natDigits_head (fuel : Nat) :
    ∀ n : Nat, 0 < n → n < 10 ^ fuel →
      ∃ c tail d, natDigits fuel n = c :: tail ∧ digitVal c = some d ∧ d ≠ 0 := by
  induction fuel with
  | zero =>
    intro n h0 h
    have : n = 0 := by simpa using h
    omega
  | succ f ih =>
    intro n h0 h
    by_cases h10 : n < 10
    · exact ⟨digitChar n, [], n, by simp [natDigits, h10], digitVal_digitChar n h10, by omega⟩
    · have hdiv : n / 10 < 10 ^ f := by
        rw [Nat.div_lt_iff_lt_mul (by norm_num)]
        calc n < 10 ^ (f + 1) := h
          _ = 10 ^ f * 10 := by ring
      have hpos : 0 < n / 10 := Nat.div_pos (by omega) (by norm_num)
      obtain ⟨c, tail, d, hc, hd, hne⟩ := ih (n / 10) hpos hdiv
      exact ⟨c, tail ++ [digitChar (n % 10)], d, by simp [natDigits, h10, hc], hd, hne⟩

theorem lt_pow_succ_self (n : Nat) : n < 10 ^ (n + 1) :=
  calc n < n + 1 := Nat.lt_succ_self n
    _ < 10 ^ (n + 1) := Nat.lt_pow_self (by norm_num) _

theorem delim_digitVal {c : Char} {r : List Char} (h : Delim (c :: r)) : digitVal c = none := by
  rcases h with h | ⟨c2, r2, h, hc⟩
  · cases h
  · cases h
    rcases hc with rfl | rfl | rfl <;> rfl

theorem readDigits_delim {rest : List Char} (h : Delim rest) (n : Nat) :
    readDigits rest n = (n, rest) := by
  cases rest with
  | nil => rfl
  | cons c r => simp [readDigits, delim_digitVal h]

theorem readDigits_natChars (n : Nat) {rest : List Char} (h : Delim rest) :
    readDigits (natChars n ++ rest) 0 = (n, rest) := by
  unfold natChars
  rw [readDigits_natDigits (n + 1) n 0 rest (lt_pow_succ_self n)]
  simp [readDigits_delim h]

theorem parseNat_natChars (n : Nat) {rest : List Char} (h : Delim rest) :
    parseNat (natChars n ++ rest) = some (n, rest) := by
  rcases Nat.eq_zero_or_pos n with h0 | hpos
  · subst h0
    rfl
  · obtain ⟨c, tail, d, hc, hd, hne⟩ := natDigits_head (n + 1) n hpos (lt_pow_succ_self n)
    have hread := readDigits_natChars n h
    unfold natChars at hread ⊢
    rw [hc] at hread ⊢
    simp only [List.cons_append, readDigits, hd, zero_mul, zero_add] at hread
    simp only [List.cons_append, parseNat, hd, hne, if_false]
    exact congrArg some hread

end JSON

namespace JSON

open JsVal

theorem intChars_natAbs (n : Int) :
    (n < 0 ∧ intChars n = '-' :: natChars n.natAbs ∧ n = - Int.ofNat n.natAbs) ∨
    (¬ n < 0 ∧ intChars n = natChars n.natAbs ∧ n = Int.ofNat n.natAbs) := by
  by_cases h : n < 0
  · left
    refine ⟨h, by simp [intChars, h], ?_⟩
    simp only [Int.ofNat_eq_coe]
    omega
  · right
    refine ⟨h, by simp [intChars, h], ?_⟩
    simp only [Int.ofNat_eq_coe]
    omega

theorem natChars_head (n : Nat) : ∃ c tail d, natChars n = c :: tail ∧ digitVal c = some d := by
  rcases Nat.eq_zero_or_pos n with h0 | hpos
  · subst h0
    exact ⟨'0', [], 0, rfl, rfl⟩
  · obtain ⟨c, tail, d, hc, hd, _⟩ := natDigits_head (n + 1) n hpos (lt_pow_succ_self n)
    exact ⟨c, tail, d, hc, hd⟩

theorem digitVal_ne_minus {c : Char} {d : Nat} (h : digitVal c = some d) : c ≠ '-' := by
  intro hc
  subst hc
  cases h

theorem readFraction_delim (n : Nat) {rest : List Char} (h : Delim rest) :
    readFraction n rest = some (n, 0, rest) := by
  rcases h with h | ⟨c, r, h, hc⟩
  · subst h
    rfl
  · subst h
    rcases hc with rfl | rfl | rfl <;> rfl

theorem readExpPart_delim {rest : List Char} (h : Delim rest) :
    readExpPart rest = some (0, rest) := by
  rcases h with h | ⟨c, r, h, hc⟩
  · subst h
    rfl
  · subst h
    rcases hc with rfl | rfl | rfl <;> rfl

theorem ofDecimal_safe (neg : Bool) (s : Nat) (hs : s < 2 ^ 53) (h0 : s ≠ 0 ∨ neg = false) :
    JsNumber.ofDecimal neg s 0 = .int (JsNumber.signed neg s) := by
  by_cases hz : s = 0
  · subst hz
    rcases h0 with h0 | h0
    · exact absurd rfl h0
    · subst h0
      rfl
  · have hpos : 0 < s := by omega
    obtain ⟨t, _, h2, h3, h4⟩ := Dbl.strip_value 2 (le_refl 2) s 0 hpos
    generalize (Dbl.strip 2 s 0).1 = M at h2 h3 h4
    have hodd : M % 2 = 1 := by omega
    have h2t : 0 < 2 ^ t := Nat.pow_pos (by norm_num)
    have hM : M ≤ s := by
      rw [← h2]
      exact Nat.le_mul_of_pos_right _ h2t
    have ht : t < 53 := by
      by_contra hcon
      have h53 : 2 ^ 53 ≤ 2 ^ t := Nat.pow_le_pow_right (by norm_num) (by omega)
      have hle : 2 ^ t ≤ M * 2 ^ t := Nat.le_mul_of_pos_left _ h3
      omega
    have hlog : Dbl.log2 M < 53 := Dbl.log2_lt M 53 (by omega) (by norm_num)
    have hd : Dbl.isDouble M t = true :=
      (Dbl.isDouble_iff M t).mpr ⟨by omega, by omega, by omega⟩
    have hex := Dbl.ofDec_exact_int M hodd t hd 0
    simp only [pow_zero, mul_one, Nat.cast_zero, neg_zero, h2] at hex
    have hM0 : M ≠ 0 := by omega
    have hcond : (0 : Int) ≤ (t : Int) ∧ (t : Int) < 53 ∧ M * 2 ^ (t : Int).toNat < 2 ^ 53 := by
      refine ⟨by omega, by omega, ?_⟩
      simp only [Int.toNat_ofNat, h2]
      exact hs
    simp only [JsNumber.ofDecimal, hex, JsNumber.ofDbl, hM0, if_false, hcond, and_self, if_true,
      Int.toNat_ofNat, h2, hs]

theorem numChars_safe (n : Int) (hn : n.natAbs < 2 ^ 53) : numChars n = intChars n := by
  simp only [numChars, hn, if_true]

theorem parseNumber_intChars (n : Int) (hn : n.natAbs < 2 ^ 53) {rest : List Char}
    (h : Delim rest) : parseNumber (intChars n ++ rest) = some (.num n, rest) := by
  rcases intChars_natAbs n with ⟨hneg, hc, hval⟩ | ⟨_, hc, hval⟩
  · have hne : n.natAbs ≠ 0 := by omega
    have hsigned : JsNumber.signed true n.natAbs = n := by
      simp only [JsNumber.signed, if_true]
      omega
    rw [hc]
    simp only [parseNumber, parseUnsigned, List.cons_append, if_true, decide_True, parseNat_natChars _ h,
      readFraction_delim _ h, readExpPart_delim h, Nat.cast_zero, sub_zero,
      ofDecimal_safe true _ hn (Or.inl hne), hsigned]
  · obtain ⟨c, tail, d, hcs, hd⟩ := natChars_head n.natAbs
    have hp := parseNat_natChars n.natAbs h
    have hsigned : JsNumber.signed false n.natAbs = n := by
      simp only [JsNumber.signed, Bool.false_eq_true, if_false]
      omega
    rw [hc]
    rw [hcs] at hp ⊢
    simp only [List.cons_append] at hp ⊢
    simp only [parseNumber, parseUnsigned, digitVal_ne_minus hd, if_false, decide_False, hp,
      readFraction_delim _ h, readExpPart_delim h, Nat.cast_zero, sub_zero,
      ofDecimal_safe false _ hn (Or.inr rfl), hsigned]

end JSON

namespace JSON

theorem char_eq_ofNat (c : Char) : c = Char.ofNat c.toNat := (Char.ofNat_toNat c).symm

theorem readEscape_short (e ch : Char) (tail : List Char) (hu : e ≠ 'u')
    (h : unescape e = some ch) : readEscape (e :: tail) = some (ch, tail) := by
  simp only [readEscape, hu, if_false, h]

theorem readEscape_u00 (n : Nat) (hn : n < 32) (tail : List Char) :
    readEscape ('u' :: '0' :: '0' :: hexChar (n / 16) :: hexChar (n % 16) :: tail)
      = some (Char.ofNat n, tail) := by
  have hx : hex4 '0' '0' (hexChar (n / 16)) (hexChar (n % 16)) = some n := by
    interval_cases n <;> rfl
  have h1 : ¬ (55296 ≤ n ∧ n < 56320) := by omega
  have h2 : ¬ (56320 ≤ n ∧ n < 57344) := by omega
  simp only [readEscape, hex4At, if_true, hx, h1, h2, if_false]

theorem readEscape_quoteChar (c : Char) (h : c = dquote ∨ c = bslash ∨ c.toNat < 32) :
    ∃ q, quoteChar c = bslash :: q ∧ ∀ tail, readEscape (q ++ tail) = some (c, tail) := by
  unfold quoteChar
  by_cases h1 : c = dquote
  · subst h1
    exact ⟨[dquote], by simp, fun tail => readEscape_short dquote dquote tail (by decide) rfl⟩
  by_cases h2 : c = bslash
  · subst h2
    exact ⟨[bslash], by simp [h1], fun tail => readEscape_short bslash bslash tail (by decide) rfl⟩
  have h32 : c.toNat < 32 := by
    rcases h with h | h | h
    · exact absurd h h1
    · exact absurd h h2
    · exact h
  have hc := char_eq_ofNat c
  simp only [h1, h2, if_false]
  by_cases e8 : c.toNat = 8
  · refine ⟨['b'], by simp [e8], fun tail => ?_⟩
    rw [hc, e8]
    exact readEscape_short 'b' _ tail (by decide) rfl
  by_cases e9 : c.toNat = 9
  · refine ⟨['t'], by simp [e9], fun tail => ?_⟩
    rw [hc, e9]
    exact readEscape_short 't' _ tail (by decide) rfl
  by_cases e10 : c.toNat = 10
  · refine ⟨['n'], by simp [e10], fun tail => ?_⟩
    rw [hc, e10]
    exact readEscape_short 'n' _ tail (by decide) rfl
  by_cases e12 : c.toNat = 12
  · refine ⟨['f'], by simp [e12], fun tail => ?_⟩
    rw [hc, e12]
    exact readEscape_short 'f' _ tail (by decide) rfl
  by_cases e13 : c.toNat = 13
  · refine ⟨['r'], by simp [e13], fun tail => ?_⟩
    rw [hc, e13]
    exact readEscape_short 'r' _ tail (by decide) rfl
  refine ⟨['u', '0', '0', hexChar (c.toNat / 16), hexChar (c.toNat % 16)],
    by simp [e8, e9, e10, e12, e13, h32], fun tail => ?_⟩
  have := readEscape_u00 c.toNat h32 tail
  rw [← hc] at this
  exact this

theorem quoteChar_plain (c : Char) (h1 : c ≠ dquote) (h2 : c ≠ bslash) (h3 : ¬ c.toNat < 32) :
    quoteChar c = [c] := by
  have e8 : c.toNat ≠ 8 := by omega
  have e9 : c.toNat ≠ 9 := by omega
  have e10 : c.toNat ≠ 10 := by omega
  have e12 : c.toNat ≠ 12 := by omega
  have e13 : c.toNat ≠ 13 := by omega
  simp [quoteChar, h1, h2, h3, e8, e9, e10, e12, e13]

theorem parseCharsAux_quoteChars (s rest : List Char) :
    ∀ fuel, s.length < fuel →
      parseCharsAux fuel (quoteChars s ++ dquote :: rest) = some (s, rest) := by
  induction s with
  | nil =>
    intro fuel hf
    obtain ⟨f, rfl⟩ : ∃ f, fuel = f + 1 := ⟨fuel - 1, by simp at hf; omega⟩
    simp [quoteChars, parseCharsAux]
  | cons c cs ih =>
    intro fuel hf
    obtain ⟨f, rfl⟩ : ∃ f, fuel = f + 1 := ⟨fuel - 1, by simp at hf; omega⟩
    have hf2 : cs.length < f := by simp at hf; omega
    simp only [quoteChars, List.append_assoc]
    by_cases h : c = dquote ∨ c = bslash ∨ c.toNat < 32
    · obtain ⟨q, hq, hread⟩ := readEscape_quoteChar c h
      have hb : bslash ≠ dquote := by decide
      rw [hq]
      simp only [List.cons_append, parseCharsAux, hb, if_false, if_true, List.append_eq,
        hread, ih f hf2, consChar]
    · have h1 : c ≠ dquote := fun e => h (Or.inl e)
      have h2 : c ≠ bslash := fun e => h (Or.inr (Or.inl e))
      have h3 : ¬ c.toNat < 32 := fun e => h (Or.inr (Or.inr e))
      rw [quoteChar_plain c h1 h2 h3]
      simp only [List.cons_append, List.nil_append, parseCharsAux, h1, h2, h3, if_false,
        List.append_eq, ih f hf2, consChar]

theorem length_le_quoteChars (s : List Char) : s.length ≤ (quoteChars s).length := by
  induction s with
  | nil => simp [quoteChars]
  | cons c cs ih =>
    have : 1 ≤ (quoteChar c).length := by
      unfold quoteChar
      repeat' split
      all_goals simp
    simp only [quoteChars, List.length_append, List.length_cons]
    omega

theorem parseChars_quoteChars (s rest : List Char) :
    parseChars (quoteChars s ++ dquote :: rest) = some (s, rest) := by
  unfold parseChars
  apply parseCharsAux_quoteChars
  have := length_le_quoteChars s
  simp only [List.length_append, List.length_cons]
  omega

end JSON

/-! ## Reading back the text of a number -/

namespace JSON

open JsVal

theorem readDigits_digits (ds : List Char) (hds : ∀ c ∈ ds, digitVal c ≠ none) :
    ∀ (acc : Nat) (rest : List Char),
      readDigits (ds ++ rest) acc
        = readDigits rest (acc * 10 ^ ds.length + (readDigits ds 0).1) := by
  induction ds with
  | nil => intro acc rest; simp [readDigits]
  | cons c ds ih =>
    intro acc rest
    have hc : digitVal c ≠ none := hds c (List.mem_cons_self _ _)
    have hrest : ∀ x ∈ ds, digitVal x ≠ none := fun x hx => hds x (List.mem_cons_of_mem _ hx)
    obtain ⟨d, hd⟩ : ∃ d, digitVal c = some d := Option.ne_none_iff_exists'.mp hc
    have h1 := ih hrest (acc * 10 + d) rest
    have h2 := ih hrest d []
    simp only [List.append_nil, readDigits] at h2
    have e1 : readDigits (c :: ds ++ rest) acc = readDigits (ds ++ rest) (acc * 10 + d) := by
      simp only [List.cons_append, readDigits, hd, List.append_eq]
    have e2 : readDigits (c :: ds) 0 = readDigits ds d := by
      simp only [readDigits, hd, zero_mul, zero_add]
    rw [e1, h1, e2, h2]
    simp only [List.length_cons]
    congr 1
    ring

theorem readDigits_stop (rest : List Char) (hstop : ∀ c r, rest = c :: r → digitVal c = none)
    (acc : Nat) : readDigits rest acc = (acc, rest) := by
  cases rest with
  | nil => rfl
  | cons c r => simp [readDigits, hstop c r rfl]

theorem delim_stop {rest : List Char} (h : Delim rest) :
    ∀ c r, rest = c :: r → digitVal c = none := by
  intro c r e
  subst e
  exact delim_digitVal h

theorem natDigits_digits (fuel : Nat) :
    ∀ n : Nat, ∀ c ∈ natDigits fuel n, digitVal c ≠ none := by
  induction fuel with
  | zero => intro n c hc; simp [natDigits] at hc
  | succ f ih =>
    intro n c hc
    by_cases h10 : n < 10
    · simp only [natDigits, h10, if_true, List.mem_singleton] at hc
      subst hc
      rw [digitVal_digitChar n h10]
      simp
    · simp only [natDigits, h10, if_false, List.mem_append, List.mem_singleton] at hc
      rcases hc with hc | hc
      · exact ih (n / 10) c hc
      · subst hc
        rw [digitVal_digitChar _ (Nat.mod_lt _ (by norm_num))]
        simp

theorem natChars_digits (n : Nat) : ∀ c ∈ natChars n, digitVal c ≠ none :=
  natDigits_digits (n + 1) n

theorem natChars_value (n : Nat) : (readDigits (natChars n) 0).1 = n := by
  have h := readDigits_natChars n (Or.inl rfl : Delim [])
  simp only [List.append_nil] at h
  rw [h]

theorem zeros_digits (z : Nat) : ∀ c ∈ List.replicate z '0', digitVal c ≠ none := by
  intro c hc
  rw [List.eq_of_mem_replicate hc]
  decide

theorem zeros_value (z : Nat) : (readDigits (List.replicate z '0') 0).1 = 0 := by
  induction z with
  | zero => rfl
  | succ z ih =>
    have h0 : digitVal '0' = some 0 := by decide
    simp only [List.replicate_succ, readDigits, h0, mul_zero, add_zero, ih]

theorem value_append (xs ys : List Char) (hxs : ∀ c ∈ xs, digitVal c ≠ none)
    (hys : ∀ c ∈ ys, digitVal c ≠ none) :
    (readDigits (xs ++ ys) 0).1 = (readDigits xs 0).1 * 10 ^ ys.length + (readDigits ys 0).1 := by
  have h1 := readDigits_digits xs hxs 0 ys
  have h2 := readDigits_digits ys hys (readDigits xs 0).1 []
  simp only [List.append_nil, readDigits] at h2
  simp only [zero_mul, zero_add] at h1
  rw [h1, h2]

theorem stripZeros_append (l : List Char) :
    ∃ z, l = Dbl.stripZeros l ++ List.replicate z '0' := by
  have h := List.takeWhile_append_dropWhile (fun c => decide (c = '0')) l.reverse
  have hl : l = (l.reverse.dropWhile (fun c => decide (c = '0'))).reverse
      ++ (l.reverse.takeWhile (fun c => decide (c = '0'))).reverse := by
    rw [← List.reverse_append, h, List.reverse_reverse]
  have hz : (l.reverse.takeWhile (fun c => decide (c = '0'))).reverse
      = List.replicate (l.reverse.takeWhile (fun c => decide (c = '0'))).length '0' := by
    rw [List.eq_replicate_iff]
    refine ⟨by simp, ?_⟩
    intro c hc
    have hc2 := List.mem_takeWhile_imp (List.mem_reverse.mp hc)
    simpa using hc2
  refine ⟨(l.reverse.takeWhile (fun c => decide (c = '0'))).length, ?_⟩
  rw [← hz]
  exact hl

theorem parseNat_head (c : Char) (cs : List Char) (d0 : Nat) (hc : digitVal c = some d0)
    (h0 : d0 ≠ 0) : parseNat (c :: cs) = some (readDigits cs d0) := by
  simp only [parseNat, hc, h0, if_false]

theorem readExponent_text (ex : Int) {rest : List Char} (h : Delim rest) :
    readExponent ((if ex < 0 then '-' else '+') :: (natChars ex.natAbs ++ rest))
      = some (ex, rest) := by
  obtain ⟨d, tail, v, hd, hv⟩ := natChars_head ex.natAbs
  have hread := readDigits_natChars ex.natAbs h
  rw [hd] at hread
  simp only [List.cons_append] at hread
  by_cases hneg : ex < 0
  · have hs : JsNumber.signed true ex.natAbs = ex := by
      simp only [JsNumber.signed, if_true]
      omega
    simp only [hneg, if_true, readExponent, decide_True, true_or, hd, List.cons_append, hread,
      hv, hs]
  · have hs : JsNumber.signed false ex.natAbs = ex := by
      simp only [JsNumber.signed, Bool.false_eq_true, if_false]
      omega
    have hpm : ('+' : Char) ≠ '-' := by decide
    simp only [hneg, if_false, readExponent, hpm, decide_False, or_true, if_true, hd,
      List.cons_append, hread, hv, hs]

end JSON

namespace JSON

open JsVal

theorem parseNat_digits (c : Char) (t : List Char) (d0 : Nat) (hc : digitVal c = some d0)
    (h0 : d0 ≠ 0) (hds : ∀ x ∈ t, digitVal x ≠ none) (more : List Char)
    (hstop : ∀ x r, more = x :: r → digitVal x = none) :
    parseNat (c :: t ++ more) = some ((readDigits (c :: t) 0).1, more) ∧
      0 < (readDigits (c :: t) 0).1 := by
  have e2 : readDigits (c :: t) 0 = readDigits t d0 := by
    simp only [readDigits, hc, zero_mul, zero_add]
  have h2 := readDigits_digits t hds d0 []
  simp only [List.append_nil, readDigits] at h2
  have h1 := readDigits_digits t hds d0 more
  rw [readDigits_stop more hstop] at h1
  have hpos : 0 < d0 * 10 ^ t.length := Nat.mul_pos (by omega) (Nat.pow_pos (by norm_num))
  constructor
  · rw [List.cons_append, parseNat_head c _ d0 hc h0, h1, e2, h2]
  · rw [e2, h2]
    show 0 < d0 * 10 ^ t.length + (readDigits t 0).1
    omega

theorem readFraction_digits (nn : Nat) (ds : List Char) (hds : ∀ x ∈ ds, digitVal x ≠ none)
    (hne : ds ≠ []) (more : List Char) (hstop : ∀ x r, more = x :: r → digitVal x = none) :
    readFraction nn ('.' :: (ds ++ more))
      = some (nn * 10 ^ ds.length + (readDigits ds 0).1, ds.length, more) := by
  have h1 := readDigits_digits ds hds nn more
  rw [readDigits_stop more hstop] at h1
  have hlen : (ds ++ more).length - more.length = ds.length := by
    simp
  have hpos : ds.length ≠ 0 := by
    intro h
    exact hne (List.length_eq_zero.mp h)
  simp only [readFraction, if_true, h1, hlen, hpos, if_false]

theorem readFraction_other (nn : Nat) (x : Char) (r : List Char) (hx : x ≠ '.') :
    readFraction nn (x :: r) = some (nn, 0, x :: r) := by
  simp only [readFraction, hx, if_false]

theorem readExpPart_text (ex : Int) {rest : List Char} (h : Delim rest) :
    readExpPart ('e' :: (if ex < 0 then '-' else '+') :: (natChars ex.natAbs ++ rest))
      = some (ex, rest) := by
  simp only [readExpPart, true_or, if_true, readExponent_text ex h]

theorem stop_point (r : List Char) : ∀ x r2, '.' :: r = x :: r2 → digitVal x = none := by
  intro x r2 e
  cases e
  decide

theorem stop_e (r : List Char) : ∀ x r2, 'e' :: r = x :: r2 → digitVal x = none := by
  intro x r2 e
  cases e
  decide

theorem layout_zeros (ds : List Char) (n : Int) (h1 : (ds.length : Int) ≤ n ∧ n ≤ 21) :
    Dbl.layout ds n = ds ++ List.replicate (n - ds.length).toNat '0' := by
  unfold Dbl.layout
  dsimp only
  rw [if_pos h1]

theorem layout_point (ds : List Char) (n : Int) (h1 : ¬ ((ds.length : Int) ≤ n ∧ n ≤ 21))
    (h2 : 0 < n ∧ n ≤ 21) :
    Dbl.layout ds n = ds.take n.toNat ++ '.' :: ds.drop n.toNat := by
  unfold Dbl.layout
  dsimp only
  rw [if_neg h1, if_pos h2]

theorem layout_small (ds : List Char) (n : Int) (h1 : ¬ ((ds.length : Int) ≤ n ∧ n ≤ 21))
    (h2 : ¬ (0 < n ∧ n ≤ 21)) (h3 : -6 < n ∧ n ≤ 0) :
    Dbl.layout ds n = '0' :: '.' :: (List.replicate (-n).toNat '0' ++ ds) := by
  unfold Dbl.layout
  dsimp only
  rw [if_neg h1, if_neg h2, if_pos h3]

theorem layout_exp (ds : List Char) (n : Int) (h1 : ¬ ((ds.length : Int) ≤ n ∧ n ≤ 21))
    (h2 : ¬ (0 < n ∧ n ≤ 21)) (h3 : ¬ (-6 < n ∧ n ≤ 0)) :
    Dbl.layout ds n =
      if ds.length = 1 then
        ds ++ 'e' :: (if n - 1 < 0 then '-' else '+') :: natChars (n - 1).natAbs
      else ds.take 1 ++ '.' :: (ds.drop 1 ++
        'e' :: (if n - 1 < 0 then '-' else '+') :: natChars (n - 1).natAbs) := by
  unfold Dbl.layout
  dsimp only
  rw [if_neg h1, if_neg h2, if_neg h3]

theorem layout_parts (c : Char) (t : List Char) (d0 : Nat) (hc : digitVal c = some d0)
    (h0 : d0 ≠ 0) (hds : ∀ x ∈ t, digitVal x ≠ none) (n : Int) {rest : List Char}
    (h : Delim rest) :
    ∃ (nn : Nat) (r1 : List Char) (v cnt : Nat) (r2 : List Char) (x : Int),
      parseNat (Dbl.layout (c :: t) n ++ rest) = some (nn, r1) ∧
      readFraction nn r1 = some (v, cnt, r2) ∧
      readExpPart r2 = some (x, rest) ∧
      Dbl.normDec v (x - cnt)
        = Dbl.normDec (readDigits (c :: t) 0).1 (n - ((c :: t).length : Nat)) := by
  have hall : ∀ x ∈ c :: t, digitVal x ≠ none := by
    intro x hx
    rcases List.mem_cons.mp hx with rfl | hx
    · rw [hc]; simp
    · exact hds x hx
  have hV := (parseNat_digits c t d0 hc h0 hds [] (by intro x r e; cases e)).2
  by_cases h1 : (((c :: t).length : Nat) : Int) ≤ n ∧ n ≤ 21
  · -- the digits followed by zeros
    obtain ⟨j, hj⟩ : ∃ j : Nat, n - ((c :: t).length : Nat) = j :=
      ⟨(n - ((c :: t).length : Nat)).toNat, by omega⟩
    have hzd : ∀ x ∈ t ++ List.replicate j '0', digitVal x ≠ none := by
      intro x hx
      rcases List.mem_append.mp hx with hx | hx
      · exact hds x hx
      · exact zeros_digits j x hx
    have hp := parseNat_digits c (t ++ List.replicate j '0') d0 hc h0 hzd rest (delim_stop h)
    have hval := value_append (c :: t) (List.replicate j '0') hall (zeros_digits j)
    simp only [zeros_value, add_zero, List.length_replicate] at hval
    refine ⟨(readDigits (c :: t) 0).1 * 10 ^ j, rest, (readDigits (c :: t) 0).1 * 10 ^ j, 0,
      rest, 0, ?_, readFraction_delim _ h, readExpPart_delim h, ?_⟩
    · rw [layout_zeros _ _ h1, hj]
      simp only [Int.toNat_ofNat]
      have := hp.1
      simp only [List.cons_append, List.append_assoc] at this hval ⊢
      rw [this, hval]
    · rw [hj]
      have := Dbl.strip_mul_pow 10 (by norm_num) _ hV (j : Int) j
      simpa [Dbl.normDec] using this
  · by_cases h2 : 0 < n ∧ n ≤ 21
    · -- a point inside the digits
      obtain ⟨i, hi⟩ : ∃ i : Nat, n = ((i + 1 : Nat) : Int) := ⟨(n - 1).toNat, by omega⟩
      have hik : i + 1 < (c :: t).length := by
        have : ¬ ((((c :: t).length : Nat) : Int) ≤ n) := fun hh => h1 ⟨hh, h2.2⟩
        omega
      have hit : i < t.length := by simpa using hik
      have htake : ∀ x ∈ t.take i, digitVal x ≠ none :=
        fun x hx => hds x (List.mem_of_mem_take hx)
      have hdrop : ∀ x ∈ t.drop i, digitVal x ≠ none :=
        fun x hx => hds x (List.mem_of_mem_drop hx)
      have hdne : t.drop i ≠ [] := by
        intro e
        have := congrArg List.length e
        simp at this
        omega
      have hp := parseNat_digits c (t.take i) d0 hc h0 htake ('.' :: (t.drop i ++ rest))
        (stop_point _)
      have hf := readFraction_digits (readDigits (c :: t.take i) 0).1 (t.drop i) hdrop hdne rest
        (delim_stop h)
      have hall2 : ∀ x ∈ c :: t.take i, digitVal x ≠ none := by
        intro x hx
        rcases List.mem_cons.mp hx with rfl | hx
        · rw [hc]; simp
        · exact htake x hx
      have hval := value_append (c :: t.take i) (t.drop i) hall2 hdrop
      simp only [List.cons_append, List.take_append_drop] at hval
      refine ⟨(readDigits (c :: t.take i) 0).1, '.' :: (t.drop i ++ rest),
        (readDigits (c :: t) 0).1, (t.drop i).length, rest, 0, ?_, ?_, readExpPart_delim h, ?_⟩
      · rw [layout_point _ _ h1 h2, hi]
        simp only [Int.toNat_ofNat, List.take_succ_cons, List.drop_succ_cons]
        have := hp.1
        simp only [List.cons_append, List.append_assoc] at this ⊢
        exact this
      · rw [hf, hval]
      · congr 1
        rw [hi]
        simp only [List.length_drop, List.length_cons]
        push_cast
        omega
    · by_cases h3 : -6 < n ∧ n ≤ 0
      · -- zeros between the point and the digits
        obtain ⟨z, hz⟩ : ∃ z : Nat, n = -(z : Int) := ⟨(-n).toNat, by omega⟩
        have hzd : ∀ x ∈ List.replicate z '0' ++ (c :: t), digitVal x ≠ none := by
          intro x hx
          rcases List.mem_append.mp hx with hx | hx
          · exact zeros_digits z x hx
          · exact hall x hx
        have hzne : List.replicate z '0' ++ (c :: t) ≠ [] := by simp
        have hf := readFraction_digits 0 (List.replicate z '0' ++ (c :: t)) hzd hzne rest
          (delim_stop h)
        have hval := value_append (List.replicate z '0') (c :: t) (zeros_digits z) hall
        simp only [zeros_value, zero_mul, zero_add] at hval
        have hzero : digitVal '0' = some 0 := by decide
        refine ⟨0, '.' :: ((List.replicate z '0' ++ (c :: t)) ++ rest),
          (readDigits (c :: t) 0).1, (List.replicate z '0' ++ (c :: t)).length, rest, 0, ?_, ?_,
          readExpPart_delim h, ?_⟩
        · rw [layout_small _ _ h1 h2 h3, hz]
          simp only [neg_neg, Int.toNat_ofNat, List.cons_append, parseNat, hzero, if_true]
        · rw [hf, hval]
          simp
        · congr 1
          rw [hz]
          simp only [List.length_append, List.length_replicate, List.length_cons]
          push_cast
          omega
      · -- an exponent
        cases t with
        | nil =>
          have hp := parseNat_digits c [] d0 hc h0 hds
            ('e' :: (if n - 1 < 0 then '-' else '+') :: (natChars (n - 1).natAbs ++ rest))
            (stop_e _)
          refine ⟨(readDigits [c] 0).1,
            'e' :: (if n - 1 < 0 then '-' else '+') :: (natChars (n - 1).natAbs ++ rest),
            (readDigits [c] 0).1, 0,
            'e' :: (if n - 1 < 0 then '-' else '+') :: (natChars (n - 1).natAbs ++ rest),
            n - 1, ?_, readFraction_other _ _ _ (by decide), readExpPart_text (n - 1) h, ?_⟩
          · rw [layout_exp _ _ h1 h2 h3]
            simp only [List.length_singleton, if_true]
            have := hp.1
            simp only [List.cons_append, List.append_assoc, List.nil_append,
              List.singleton_append] at this ⊢
            exact this
          · congr 1
            simp
        | cons c2 t2 =>
          have hp := parseNat_digits c [] d0 hc h0 (by intro x hx; cases hx)
            ('.' :: ((c2 :: t2) ++ 'e' :: (if n - 1 < 0 then '-' else '+') ::
              (natChars (n - 1).natAbs ++ rest)))
            (stop_point _)
          have hf := readFraction_digits (readDigits [c] 0).1 (c2 :: t2) hds (by simp)
            ('e' :: (if n - 1 < 0 then '-' else '+') :: (natChars (n - 1).natAbs ++ rest))
            (stop_e _)
          have hall1 : ∀ x ∈ [c], digitVal x ≠ none := by
            intro x hx
            rw [List.mem_singleton.mp hx, hc]
            simp
          have hval := value_append [c] (c2 :: t2) hall1 hds
          simp only [List.singleton_append] at hval
          have hk1 : (c :: c2 :: t2).length ≠ 1 := by simp
          refine ⟨(readDigits [c] 0).1,
            '.' :: ((c2 :: t2) ++ 'e' :: (if n - 1 < 0 then '-' else '+') ::
              (natChars (n - 1).natAbs ++ rest)),
            (readDigits (c :: c2 :: t2) 0).1, (c2 :: t2).length,
            'e' :: (if n - 1 < 0 then '-' else '+') :: (natChars (n - 1).natAbs ++ rest),
            n - 1, ?_, ?_, readExpPart_text (n - 1) h, ?_⟩
          · rw [layout_exp _ _ h1 h2 h3]
            simp only [hk1, if_false]
            have := hp.1
            simp only [List.cons_append, List.append_assoc, List.nil_append, List.take_succ_cons,
              List.take_zero, List.drop_succ_cons, List.drop_zero,
              List.singleton_append] at this ⊢
            exact this
          · rw [hf, hval]
          · congr 1
            simp only [List.length_cons]
            push_cast
            omega

end JSON

namespace JSON

open JsVal

theorem ofDec_congr (v1 v2 : Nat) (p1 p2 : Int) (h : Dbl.normDec v1 p1 = Dbl.normDec v2 p2) :
    Dbl.ofDec v1 p1 = Dbl.ofDec v2 p2 := by
  simp only [Dbl.ofDec, h]

theorem layout_head (c : Char) (t : List Char) (d0 : Nat) (hc : digitVal c = some d0)
    (n : Int) : ∃ c2 r d, Dbl.layout (c :: t) n = c2 :: r ∧ digitVal c2 = some d := by
  by_cases h1 : (((c :: t).length : Nat) : Int) ≤ n ∧ n ≤ 21
  · exact ⟨c, _, d0, by rw [layout_zeros _ _ h1]; rfl, hc⟩
  · by_cases h2 : 0 < n ∧ n ≤ 21
    · obtain ⟨i, hi⟩ : ∃ i : Nat, n.toNat = i + 1 := ⟨n.toNat - 1, by omega⟩
      exact ⟨c, _, d0, by rw [layout_point _ _ h1 h2, hi]; rfl, hc⟩
    · by_cases h3 : -6 < n ∧ n ≤ 0
      · exact ⟨'0', _, 0, layout_small _ _ h1 h2 h3, by decide⟩
      · by_cases hk : (c :: t).length = 1
        · exact ⟨c, _, d0, by rw [layout_exp _ _ h1 h2 h3, if_pos hk]; rfl, hc⟩
        · exact ⟨c, _, d0, by rw [layout_exp _ _ h1 h2 h3, if_neg hk]; rfl, hc⟩

theorem ofDec_zero (p : Int) : Dbl.ofDec 0 p = .fin false 0 0 := by
  simp [Dbl.ofDec, Dbl.normDec, Dbl.strip]

theorem posChars_parts (m : Nat) (e : Int) (hodd : m % 2 = 1) (hd : Dbl.isDouble m e = true)
    {rest : List Char} (h : Delim rest) :
    (∃ c2 r d, Dbl.posChars m e = c2 :: r ∧ digitVal c2 = some d) ∧
    ∃ (nn : Nat) (r1 : List Char) (v cnt : Nat) (r2 : List Char) (x : Int),
      parseNat (Dbl.posChars m e ++ rest) = some (nn, r1) ∧
      readFraction nn r1 = some (v, cnt, r2) ∧
      readExpPart r2 = some (x, rest) ∧
      Dbl.ofDec v (x - cnt) = .fin false m e := by
  have hspec := Dbl.shortest_spec m e hodd hd
  have hs : 0 < (Dbl.shortest m e).1 := by
    rcases Nat.eq_zero_or_pos (Dbl.shortest m e).1 with h0 | h0
    · rw [h0, ofDec_zero] at hspec
      have : (0 : Nat) = m := by
        injection hspec
      omega
    · exact h0
  have hpc : Dbl.posChars m e
      = Dbl.layout (Dbl.stripZeros (natChars (Dbl.shortest m e).1))
          ((Dbl.shortest m e).2 + ((natChars (Dbl.shortest m e).1).length : Nat)) := rfl
  rw [hpc]
  generalize (Dbl.shortest m e).1 = s at hspec hs ⊢
  generalize (Dbl.shortest m e).2 = sh at hspec ⊢
  obtain ⟨c, tail, d0, hall, hc, h0⟩ := natDigits_head (s + 1) s hs (lt_pow_succ_self s)
  have hall2 : natChars s = c :: tail := hall
  obtain ⟨z, hz⟩ := stripZeros_append (natChars s)
  have hdig := natChars_digits s
  have hval := natChars_value s
  cases hdg : Dbl.stripZeros (natChars s) with
  | nil =>
    rw [hdg, hall2, List.nil_append] at hz
    cases z with
    | zero => simp at hz
    | succ z =>
      simp only [List.replicate_succ, List.cons.injEq] at hz
      rw [hz.1] at hc
      have : digitVal '0' = some 0 := by decide
      rw [this] at hc
      injection hc with hc
      omega
  | cons c2 t2 =>
    rw [hdg] at hz
    have hcc : c2 = c := by
      rw [hall2] at hz
      simp only [List.cons_append, List.cons.injEq] at hz
      exact hz.1.symm
    subst hcc
    have ht2 : ∀ x ∈ t2, digitVal x ≠ none := by
      intro x hx
      apply hdig
      rw [hz]
      simp [hx]
    have hall3 : ∀ x ∈ c2 :: t2, digitVal x ≠ none := by
      intro x hx
      apply hdig
      rw [hz]
      exact List.mem_append_left _ hx
    have hV := (parseNat_digits c2 t2 d0 hc h0 ht2 [] (by intro x r e; cases e)).2
    have hvs : (readDigits (c2 :: t2) 0).1 * 10 ^ z = s := by
      have := value_append (c2 :: t2) (List.replicate z '0') hall3 (zeros_digits z)
      rw [← hz, hval] at this
      simp only [zeros_value, add_zero, List.length_replicate] at this
      exact this.symm
    have hlen : (natChars s).length = (c2 :: t2).length + z := by
      rw [hz]
      simp only [List.length_append, List.length_replicate]
    refine ⟨layout_head c2 t2 d0 hc _, ?_⟩
    obtain ⟨nn, r1, v, cnt, r2, x, hp1, hp2, hp3, hnorm⟩ :=
      layout_parts c2 t2 d0 hc h0 ht2 (sh + ((natChars s).length : Nat)) h
    refine ⟨nn, r1, v, cnt, r2, x, hp1, hp2, hp3, ?_⟩
    rw [← hspec]
    apply ofDec_congr
    rw [hnorm]
    have h1 := Dbl.strip_mul_pow 10 (by norm_num) _ hV (sh + (z : Int)) z
    rw [hvs] at h1
    simp only [add_sub_cancel_right] at h1
    rw [Dbl.normDec, Dbl.normDec, h1]
    congr 1
    rw [hlen]
    push_cast
    ring

end JSON

namespace JSON

open JsVal

theorem isJson_iff (neg : Bool) (m : Nat) (e : Int) :
    (Dbl.fin neg m e).isJson = true ↔
      m % 2 = 1 ∧ Dbl.isDouble m e = true ∧ ¬ (0 ≤ e ∧ e < 53 ∧ m * 2 ^ e.toNat < 2 ^ 53) := by
  simp only [Dbl.isJson, Bool.and_eq_true, decide_eq_true_eq, Bool.not_eq_true',
    decide_eq_false_iff_not, and_assoc]

theorem chars_head (d : Dbl) (hd : d.isJson = true) :
    ∃ c r, d.chars = c :: r ∧ (c = '-' ∨ ∃ k, digitVal c = some k) := by
  cases d with
  | inf neg => simp [Dbl.isJson] at hd
  | fin neg m e =>
    obtain ⟨hodd, hdbl, _⟩ := (isJson_iff neg m e).mp hd
    have hm0 : m ≠ 0 := by omega
    obtain ⟨⟨c2, r, k, hpc, hk⟩, _⟩ := posChars_parts m e hodd hdbl (Or.inl rfl : Delim [])
    cases neg with
    | true =>
      exact ⟨'-', Dbl.posChars m e, by simp only [Dbl.chars, hm0, if_false, if_true],
        Or.inl rfl⟩
    | false =>
      exact ⟨c2, r, by simp only [Dbl.chars, hm0, if_false, Bool.false_eq_true, hpc],
        Or.inr ⟨k, hk⟩⟩

theorem parseNumber_chars (d : Dbl) (hd : d.isJson = true) {rest : List Char}
    (h : Delim rest) : parseNumber (d.chars ++ rest) = some (.dbl d, rest) := by
  cases d with
  | inf neg => simp [Dbl.isJson] at hd
  | fin neg m e =>
    obtain ⟨hodd, hdbl, hns⟩ := (isJson_iff neg m e).mp hd
    have hm0 : m ≠ 0 := by omega
    obtain ⟨⟨c2, r, k, hpc, hk⟩, nn, r1, v, cnt, r2, x, hp1, hp2, hp3, hof⟩ :=
      posChars_parts m e hodd hdbl h
    cases neg with
    | true =>
      simp only [Dbl.chars, hm0, if_false, if_true, List.cons_append, parseNumber,
        parseUnsigned, hp1, hp2, hp3, JsNumber.ofDecimal, hof, JsNumber.ofDbl, hns]
    | false =>
      rw [hpc] at hp1
      simp only [List.cons_append] at hp1
      simp only [Dbl.chars, hm0, if_false, Bool.false_eq_true, hpc, List.cons_append,
        parseNumber, digitVal_ne_minus hk, parseUnsigned, hp1, hp2, hp3, JsNumber.ofDecimal,
        hof, JsNumber.ofDbl, hns]

end JSON

/-! ## `JSON.parse` reads back what `JSON.stringify` writes -/

namespace JSON

open JsVal

theorem digitVal_bounds {c : Char} {d : Nat} (h : digitVal c = some d) :
    48 ≤ c.toNat ∧ c.toNat ≤ 57 := by
  unfold digitVal at h
  split at h
  · assumption
  · cases h

theorem isWs_false_of_toNat {c : Char} (h : 33 ≤ c.toNat) : isWs c = false := by
  unfold isWs
  rw [decide_eq_false_iff_not]
  omega

theorem skipWs_head {c : Char} (r : List Char) (h : isWs c = false) :
    skipWs (c :: r) = c :: r := by
  simp [skipWs, h]

theorem skipWs_delim {rest : List Char} (h : Delim rest) : skipWs rest = rest := by
  rcases h with h | ⟨c, r, h, hc⟩
  · subst h
    rfl
  · subst h
    apply skipWs_head
    rcases hc with rfl | rfl | rfl <;> rfl

theorem numHead {c : Char} (h : c = '-' ∨ ∃ d, digitVal c = some d) :
    isWs c = false ∧ c ≠ '[' ∧ c ≠ lbrace ∧ c ≠ dquote ∧ c ≠ 'n' ∧ c ≠ 't' ∧ c ≠ 'f' ∧
      c ≠ ']' ∧ c ≠ rbrace := by
  rcases h with rfl | ⟨d, hd⟩
  · decide
  · have hb := digitVal_bounds hd
    refine ⟨isWs_false_of_toNat (by omega), ?_, ?_, ?_, ?_, ?_, ?_, ?_, ?_⟩ <;>
      (intro hc; subst hc; revert hb; decide)

theorem intChars_head (n : Int) :
    ∃ c tail, intChars n = c :: tail ∧ (c = '-' ∨ ∃ d, digitVal c = some d) := by
  rcases intChars_natAbs n with ⟨_, hc, _⟩ | ⟨_, hc, _⟩
  · exact ⟨'-', _, hc, Or.inl rfl⟩
  · obtain ⟨c, tail, d, hcs, hd⟩ := natChars_head n.natAbs
    exact ⟨c, tail, by rw [hc, hcs], Or.inr ⟨d, hd⟩⟩

theorem parseValue_num (fuel : Nat) (n : Int) (hn : n.natAbs < 2 ^ 53) {rest : List Char}
    (h : Delim rest) : parseValue (fuel + 1) (numChars n ++ rest) = some (.num n, rest) := by
  obtain ⟨c, tail, hc, hhead⟩ := intChars_head n
  obtain ⟨h1, h2, h3, h4, h5, h6, h7, _, _⟩ := numHead hhead
  have hp := parseNumber_intChars n hn h
  rw [numChars_safe n hn]
  rw [hc] at hp ⊢
  simp only [List.cons_append] at hp ⊢
  simp only [parseValue, skipWs_head _ h1, h2, h3, h4, h5, h6, h7, if_false, hp]

theorem stringifyVal_dbl (d : Dbl) (hd : d.isJson = true) :
    stringifyVal (.dbl d) = some d.chars := by
  cases d with
  | inf neg => simp [Dbl.isJson] at hd
  | fin neg m e => rfl

theorem parseValue_dbl (fuel : Nat) (d : Dbl) (hd : d.isJson = true) {rest : List Char}
    (h : Delim rest) : parseValue (fuel + 1) (d.chars ++ rest) = some (.dbl d, rest) := by
  obtain ⟨c, tail, hc, hhead⟩ := chars_head d hd
  obtain ⟨h1, h2, h3, h4, h5, h6, h7, _, _⟩ := numHead hhead
  have hp := parseNumber_chars d hd h
  rw [hc] at hp ⊢
  simp only [List.cons_append] at hp ⊢
  simp only [parseValue, skipWs_head _ h1, h2, h3, h4, h5, h6, h7, if_false, hp]

theorem parseValue_str (fuel : Nat) (s : String) (rest : List Char) :
    parseValue (fuel + 1) (quote s.data ++ rest) = some (.str s, rest) := by
  have h1 : isWs dquote = false := by decide
  have h2 : dquote ≠ '[' := by decide
  have h3 : dquote ≠ lbrace := by decide
  have hp := parseChars_quoteChars s.data rest
  simp only [quote, List.cons_append, List.append_assoc, List.singleton_append, parseValue,
    List.nil_append, skipWs_head _ h1, h2, h3, if_false, if_true, hp]

theorem parseValue_null (fuel : Nat) (rest : List Char) :
    parseValue (fuel + 1) ("null".data ++ rest) = some (.null, rest) := by
  simp [parseValue, skipWs, isWs, expectText, lbrace, dquote]

theorem parseValue_true (fuel : Nat) (rest : List Char) :
    parseValue (fuel + 1) ("true".data ++ rest) = some (.bool true, rest) := by
  simp [parseValue, skipWs, isWs, expectText, lbrace, dquote]

theorem parseValue_false (fuel : Nat) (rest : List Char) :
    parseValue (fuel + 1) ("false".data ++ rest) = some (.bool false, rest) := by
  simp [parseValue, skipWs, isWs, expectText, lbrace, dquote]

end JSON

namespace JSON

open JsVal

theorem stringifyVal_head {v : JsVal} {t : List Char} (hdoc : isDoc v = true)
    (h : stringifyVal v = some t) : ∃ c r, t = c :: r ∧ ValueHead c := by
  cases v with
  | undefined => simp [stringifyVal] at h
  | dbl d =>
    have hd : d.isJson = true := by simpa [isDoc] using hdoc
    rw [stringifyVal_dbl d hd, Option.some.injEq] at h
    obtain ⟨c, tail, hc, hhead⟩ := chars_head d hd
    obtain ⟨h1, _, _, _, _, _, _, h8, h9⟩ := numHead hhead
    exact ⟨c, tail, by rw [← h, hc], h1, h8, h9⟩
  | null =>
    simp only [stringifyVal, Option.some.injEq] at h
    exact ⟨'n', _, h.symm, by decide, by decide, by decide⟩
  | bool b =>
    cases b <;> simp only [stringifyVal, Option.some.injEq] at h
    · exact ⟨'f', _, h.symm, by decide, by decide, by decide⟩
    · exact ⟨'t', _, h.symm, by decide, by decide, by decide⟩
  | num n =>
    have hn : n.natAbs < 2 ^ 53 := by simpa [isDoc] using hdoc
    simp only [stringifyVal, numChars_safe n hn, Option.some.injEq] at h
    obtain ⟨c, tail, hc, hhead⟩ := intChars_head n
    obtain ⟨h1, _, _, _, _, _, _, h8, h9⟩ := numHead hhead
    exact ⟨c, tail, by rw [← h, hc], h1, h8, h9⟩
  | str s =>
    simp only [stringifyVal, Option.some.injEq] at h
    exact ⟨dquote, _, h.symm, by decide, by decide, by decide⟩
  | arr xs =>
    simp only [stringifyVal, Option.some.injEq] at h
    exact ⟨'[', _, h.symm, by decide, by decide, by decide⟩
  | obj kvs =>
    simp only [stringifyVal, Option.some.injEq] at h
    exact ⟨lbrace, _, h.symm, by decide, by decide, by decide⟩

theorem parseValue_arr_nil (fuel : Nat) (rest : List Char) :
    parseValue (fuel + 1) ('[' :: ']' :: rest) = some (.arr [], rest) := by
  simp [parseValue, skipWs, isWs]

theorem parseValue_arr_cons (fuel : Nat) {d : Char} (r : List Char) (hd : ValueHead d) :
    parseValue (fuel + 1) ('[' :: d :: r) =
      match parseElems fuel (d :: r) with
      | some (xs, r2) => some (.arr xs, r2)
      | none => none := by
  have h1 : isWs '[' = false := by decide
  simp only [parseValue, skipWs_head _ h1, skipWs_head _ hd.notWs, hd.notClose, if_true,
    if_false]

theorem parseValue_obj_nil (fuel : Nat) (rest : List Char) :
    parseValue (fuel + 1) (lbrace :: rbrace :: rest) = some (.obj [], rest) := by
  have h1 : isWs lbrace = false := by decide
  have h2 : isWs rbrace = false := by decide
  have h3 : lbrace ≠ '[' := by decide
  simp only [parseValue, skipWs_head _ h1, skipWs_head _ h2, h3, if_true, if_false]

theorem parseValue_obj_cons (fuel : Nat) (r : List Char) :
    parseValue (fuel + 1) (lbrace :: dquote :: r) =
      match parseMembers fuel (dquote :: r) with
      | some (kvs, r2) => some (.obj (buildObj kvs), r2)
      | none => none := by
  have h1 : isWs lbrace = false := by decide
  have h2 : isWs dquote = false := by decide
  have h3 : lbrace ≠ '[' := by decide
  have h4 : dquote ≠ rbrace := by decide
  simp only [parseValue, skipWs_head _ h1, skipWs_head _ h2, h3, h4, if_true, if_false]

theorem delim_comma (r : List Char) : Delim (',' :: r) := Or.inr ⟨_, _, rfl, Or.inl rfl⟩
theorem delim_close (r : List Char) : Delim (']' :: r) := Or.inr ⟨_, _, rfl, Or.inr (Or.inl rfl)⟩
theorem delim_rbrace (r : List Char) : Delim (rbrace :: r) :=
  Or.inr ⟨_, _, rfl, Or.inr (Or.inr rfl)⟩

theorem parseElems_step (fuel : Nat) (t : List Char) (v : JsVal) (d : Char) (r : List Char)
    (hd : Delim (d :: r)) (hv : parseValue fuel (t ++ d :: r) = some (v, d :: r)) :
    parseElems (fuel + 1) (t ++ d :: r) =
      if d = ',' then
        match parseElems fuel r with
        | some (vs, r3) => some (v :: vs, r3)
        | none => none
      else if d = ']' then some ([v], r)
      else none := by
  simp only [parseElems, hv, skipWs_delim hd]

theorem parseMembers_step (fuel : Nat) (k : String) (t : List Char) (v : JsVal) (d : Char)
    (r : List Char) (hd : Delim (d :: r))
    (hv : parseValue fuel (t ++ d :: r) = some (v, d :: r)) :
    parseMembers (fuel + 1) (quote k.data ++ ':' :: (t ++ d :: r)) =
      if d = ',' then
        match parseMembers fuel r with
        | some (kvs, r5) => some ((k, v) :: kvs, r5)
        | none => none
      else if d = rbrace then some ([(k, v)], r)
      else none := by
  have h1 : isWs dquote = false := by decide
  have h2 : isWs ':' = false := by decide
  have hp := parseChars_quoteChars k.data (':' :: (t ++ d :: r))
  simp only [quote, List.cons_append, List.append_assoc, List.singleton_append,
    List.nil_append, parseMembers, skipWs_head _ h1, skipWs_head _ h2, if_true, hp, hv,
    skipWs_delim hd]

end JSON

namespace JSON

open JsVal

theorem hasKey_eq_false {k : String} :
    ∀ (acc : List (String × JsVal)), k ∉ acc.map Prod.fst → hasKey k acc = false
  | [], _ => rfl
  | (l, w) :: acc, h => by
    have hl : l ≠ k := by
      intro e
      apply h
      simp [e]
    have hrest : k ∉ acc.map Prod.fst := by
      intro e
      apply h
      simp only [List.map_cons, List.mem_cons]
      exact Or.inr e
    simp only [hasKey, hl, decide_False, Bool.false_or, hasKey_eq_false acc hrest]

theorem insertProp_append {k : String} {v : JsVal} :
    ∀ (acc : List (String × JsVal)), (∀ l ∈ acc.map Prod.fst, comesBefore k l = false) →
      insertProp k v acc = acc ++ [(k, v)]
  | [], _ => rfl
  | (l, w) :: acc, h => by
    have hl : comesBefore k l = false := h l (by simp)
    have hrest : ∀ l2 ∈ acc.map Prod.fst, comesBefore k l2 = false := by
      intro l2 hl2
      apply h
      simp only [List.map_cons, List.mem_cons]
      exact Or.inr hl2
    simp only [insertProp, hl, Bool.false_eq_true, if_false, insertProp_append acc hrest,
      List.cons_append]

theorem setProp_append {k : String} {v : JsVal} (acc : List (String × JsVal))
    (hnew : k ∉ acc.map Prod.fst) (hlast : ∀ l ∈ acc.map Prod.fst, comesBefore k l = false) :
    setProp k v acc = acc ++ [(k, v)] := by
  simp only [setProp, hasKey_eq_false acc hnew, Bool.false_eq_true, if_false,
    insertProp_append acc hlast]

theorem foldl_setProp (kvs : List (String × JsVal)) :
    ∀ acc : List (String × JsVal), ((acc ++ kvs).map Prod.fst).Nodup →
      ((acc ++ kvs).map Prod.fst).Pairwise (fun a b => comesBefore b a = false) →
      kvs.foldl (fun o kv => setProp kv.1 kv.2 o) acc = acc ++ kvs := by
  induction kvs with
  | nil => intro acc _ _; simp
  | cons kv kvs ih =>
    intro acc h hord
    have hk : kv.1 ∉ acc.map Prod.fst := by
      simp only [List.map_append, List.map_cons] at h
      have := (List.nodup_append.mp h).2.2
      intro e
      exact this e (List.mem_cons_self _ _)
    have hlast : ∀ l ∈ acc.map Prod.fst, comesBefore kv.1 l = false := by
      intro l hl
      simp only [List.map_append, List.map_cons] at hord
      exact (List.pairwise_append.mp hord).2.2 l hl kv.1 (List.mem_cons_self _ _)
    simp only [List.foldl_cons, setProp_append acc hk hlast]
    have h2 : (((acc ++ [(kv.1, kv.2)]) ++ kvs).map Prod.fst).Nodup := by
      simpa using h
    have h3 : (((acc ++ [(kv.1, kv.2)]) ++ kvs).map Prod.fst).Pairwise
        (fun a b => comesBefore b a = false) := by
      simpa using hord
    simpa using ih (acc ++ [(kv.1, kv.2)]) h2 h3

theorem buildObj_of_ordered (kvs : List (String × JsVal)) (h : (kvs.map Prod.fst).Nodup)
    (hord : (kvs.map Prod.fst).Pairwise (fun a b => comesBefore b a = false)) :
    buildObj kvs = kvs := by
  simpa [buildObj] using foldl_setProp kvs [] (by simpa using h) (by simpa using hord)

theorem commaJoin_cons_cons (t u : List Char) (us : List (List Char)) :
    commaJoin (t :: u :: us) = t ++ ',' :: commaJoin (u :: us) := rfl

theorem stringifyVal_of_isDoc {v : JsVal} (h : isDoc v = true) :
    ∃ t, stringifyVal v = some t := by
  cases v with
  | undefined => simp [isDoc] at h
  | null => exact ⟨_, rfl⟩
  | bool b => cases b <;> exact ⟨_, rfl⟩
  | num n => exact ⟨_, rfl⟩
  | dbl d => exact ⟨_, stringifyVal_dbl d (by simpa [isDoc] using h)⟩
  | str s => exact ⟨_, rfl⟩
  | arr xs => exact ⟨_, rfl⟩
  | obj kvs => exact ⟨_, rfl⟩

mutual
theorem parseValue_stringifyVal :
    ∀ (v : JsVal), isDoc v = true → ∀ (fuel : Nat) (rest : List Char), need v ≤ fuel →
      Delim rest → ∃ t, stringifyVal v = some t ∧ parseValue fuel (t ++ rest) = some (v, rest)
  | .undefined, h, _, _, _, _ => by simp [isDoc] at h
  | .null, _, fuel, rest, hf, _ => by
    obtain ⟨f, rfl⟩ : ∃ f, fuel = f + 1 := ⟨fuel - 1, by simp [need] at hf; omega⟩
    exact ⟨_, rfl, parseValue_null f rest⟩
  | .bool true, _, fuel, rest, hf, _ => by
    obtain ⟨f, rfl⟩ : ∃ f, fuel = f + 1 := ⟨fuel - 1, by simp [need] at hf; omega⟩
    exact ⟨_, rfl, parseValue_true f rest⟩
  | .bool false, _, fuel, rest, hf, _ => by
    obtain ⟨f, rfl⟩ : ∃ f, fuel = f + 1 := ⟨fuel - 1, by simp [need] at hf; omega⟩
    exact ⟨_, rfl, parseValue_false f rest⟩
  | .num n, h, fuel, rest, hf, hd => by
    obtain ⟨f, rfl⟩ : ∃ f, fuel = f + 1 := ⟨fuel - 1, by simp [need] at hf; omega⟩
    exact ⟨_, rfl, parseValue_num f n (by simpa [isDoc] using h) hd⟩
  | .dbl d, h, fuel, rest, hf, hd => by
    obtain ⟨f, rfl⟩ : ∃ f, fuel = f + 1 := ⟨fuel - 1, by simp [need] at hf; omega⟩
    have hj : d.isJson = true := by simpa [isDoc] using h
    exact ⟨_, stringifyVal_dbl d hj, parseValue_dbl f d hj hd⟩
  | .str s, _, fuel, rest, hf, _ => by
    obtain ⟨f, rfl⟩ : ∃ f, fuel = f + 1 := ⟨fuel - 1, by simp [need] at hf; omega⟩
    exact ⟨_, rfl, parseValue_str f s rest⟩
  | .arr [], _, fuel, rest, hf, _ => by
    obtain ⟨f, rfl⟩ : ∃ f, fuel = f + 1 := ⟨fuel - 1, by simp [need] at hf; omega⟩
    exact ⟨_, rfl, parseValue_arr_nil f rest⟩
  | .arr (x :: xs), h, fuel, rest, hf, _ => by
    obtain ⟨f, rfl⟩ : ∃ f, fuel = f + 1 := ⟨fuel - 1, by simp [need] at hf; omega⟩
    have hf2 : needElems (x :: xs) ≤ f := by simp only [need] at hf; omega
    have hdocs : allDocs (x :: xs) = true := by simpa [isDoc] using h
    obtain ⟨c, r, hc, hhead⟩ := parseElems_elemTexts (x :: xs) hdocs (by simp) f rest hf2
    refine ⟨_, rfl, ?_⟩
    simp only [List.cons_append, List.append_assoc, List.singleton_append, List.nil_append]
    rw [hc.1, parseValue_arr_cons f r hc.2, ← hc.1, hhead]
  | .obj [], _, fuel, rest, hf, _ => by
    obtain ⟨f, rfl⟩ : ∃ f, fuel = f + 1 := ⟨fuel - 1, by simp [need] at hf; omega⟩
    exact ⟨_, rfl, parseValue_obj_nil f rest⟩
  | .obj (kv :: kvs), h, fuel, rest, hf, _ => by
    obtain ⟨f, rfl⟩ : ∃ f, fuel = f + 1 := ⟨fuel - 1, by simp [need] at hf; omega⟩
    have hf2 : needProps (kv :: kvs) ≤ f := by simp only [need] at hf; omega
    have hdocs : propsDocs (kv :: kvs) = true := by
      simp only [isDoc, Bool.and_eq_true] at h
      exact h.2
    have hnd : ((kv :: kvs).map Prod.fst).Nodup := by
      simp only [isDoc, Bool.and_eq_true, decide_eq_true_eq] at h
      exact h.1.1
    have hord : ((kv :: kvs).map Prod.fst).Pairwise (fun a b => comesBefore b a = false) := by
      simp only [isDoc, Bool.and_eq_true, decide_eq_true_eq] at h
      exact h.1.2
    obtain ⟨r, hc, hmem⟩ := parseMembers_memberTexts (kv :: kvs) hdocs (by simp) f rest hf2
    refine ⟨_, rfl, ?_⟩
    simp only [List.cons_append, List.append_assoc, List.singleton_append, List.nil_append]
    rw [hc, parseValue_obj_cons f r, ← hc, hmem]
    simp only [buildObj_of_ordered _ hnd hord]
theorem parseElems_elemTexts :
    ∀ (xs : List JsVal), allDocs xs = true → xs ≠ [] → ∀ (fuel : Nat) (rest : List Char),
      needElems xs ≤ fuel →
      ∃ c r, (commaJoin (elemTexts xs) ++ ']' :: rest = c :: r ∧ ValueHead c) ∧
        parseElems fuel (commaJoin (elemTexts xs) ++ ']' :: rest) = some (xs, rest)
  | [], _, hne, _, _, _ => absurd rfl hne
  | x :: xs, h, _, fuel, rest, hf => by
    obtain ⟨f, rfl⟩ : ∃ f, fuel = f + 1 := ⟨fuel - 1, by simp [needElems] at hf; omega⟩
    have hx : isDoc x = true := by
      simp only [allDocs, Bool.and_eq_true] at h
      exact h.1
    have hxs : allDocs xs = true := by
      simp only [allDocs, Bool.and_eq_true] at h
      exact h.2
    have hfx : need x ≤ f := by simp only [needElems] at hf; omega
    have hfxs : needElems xs ≤ f := by simp only [needElems] at hf; omega
    cases xs with
    | nil =>
      obtain ⟨t, ht, hp⟩ := parseValue_stringifyVal x hx f (']' :: rest) hfx (delim_close rest)
      obtain ⟨c, r, hc, hhead⟩ := stringifyVal_head hx ht
      have htext : commaJoin (elemTexts [x]) = t := by simp [elemTexts, ht, commaJoin]
      rw [htext]
      refine ⟨c, r ++ ']' :: rest, ⟨by rw [hc]; rfl, hhead⟩, ?_⟩
      rw [parseElems_step f t x ']' rest (delim_close rest) hp]
      simp
    | cons y ys =>
      obtain ⟨t, ht, hp⟩ := parseValue_stringifyVal x hx f
        (',' :: (commaJoin (elemTexts (y :: ys)) ++ ']' :: rest)) hfx (delim_comma _)
      obtain ⟨c, r, hc, hhead⟩ := stringifyVal_head hx ht
      obtain ⟨_, _, _, hrec⟩ := parseElems_elemTexts (y :: ys) hxs (by simp) f rest hfxs
      have htext : commaJoin (elemTexts (x :: y :: ys))
          = t ++ ',' :: commaJoin (elemTexts (y :: ys)) := by
        simp only [elemTexts, ht]
        rfl
      rw [htext]
      simp only [List.append_assoc, List.cons_append]
      refine ⟨c, r ++ ',' :: (commaJoin (elemTexts (y :: ys)) ++ ']' :: rest),
        ⟨by rw [hc]; rfl, hhead⟩, ?_⟩
      rw [parseElems_step f t x ',' _ (delim_comma _) hp]
      simp only [if_true, hrec]
theorem parseMembers_memberTexts :
    ∀ (kvs : List (String × JsVal)), propsDocs kvs = true → kvs ≠ [] →
      ∀ (fuel : Nat) (rest : List Char), needProps kvs ≤ fuel →
      ∃ r, commaJoin (memberTexts kvs) ++ rbrace :: rest = dquote :: r ∧
        parseMembers fuel (commaJoin (memberTexts kvs) ++ rbrace :: rest) = some (kvs, rest)
  | [], _, hne, _, _, _ => absurd rfl hne
  | (k, v) :: kvs, h, _, fuel, rest, hf => by
    obtain ⟨f, rfl⟩ : ∃ f, fuel = f + 1 := ⟨fuel - 1, by simp [needProps] at hf; omega⟩
    have hv : isDoc v = true := by
      simp only [propsDocs, Bool.and_eq_true] at h
      exact h.1
    have hkvs : propsDocs kvs = true := by
      simp only [propsDocs, Bool.and_eq_true] at h
      exact h.2
    have hfv : need v ≤ f := by simp only [needProps] at hf; omega
    have hfkvs : needProps kvs ≤ f := by simp only [needProps] at hf; omega
    cases kvs with
    | nil =>
      obtain ⟨t, ht, hp⟩ := parseValue_stringifyVal v hv f (rbrace :: rest) hfv
        (delim_rbrace rest)
      have htext : commaJoin (memberTexts [(k, v)]) = quote k.data ++ ':' :: t := by
        simp [memberTexts, ht, commaJoin]
      rw [htext]
      simp only [List.append_assoc, List.cons_append]
      refine ⟨quoteChars k.data ++ dquote :: ':' :: (t ++ rbrace :: rest), by simp [quote], ?_⟩
      rw [parseMembers_step f k t v rbrace rest (delim_rbrace rest) hp]
      have h1 : rbrace ≠ ',' := by decide
      simp only [h1, if_true, if_false]
    | cons kv2 kvs2 =>
      obtain ⟨t, ht, hp⟩ := parseValue_stringifyVal v hv f
        (',' :: (commaJoin (memberTexts (kv2 :: kvs2)) ++ rbrace :: rest)) hfv (delim_comma _)
      obtain ⟨_, _, hrec⟩ := parseMembers_memberTexts (kv2 :: kvs2) hkvs (by simp) f rest hfkvs
      obtain ⟨t2, ts2, hts2⟩ : ∃ t2 ts2, memberTexts (kv2 :: kvs2) = t2 :: ts2 := by
        obtain ⟨k2, v2⟩ := kv2
        have hv2 : isDoc v2 = true := by
          simp only [propsDocs, Bool.and_eq_true] at hkvs
          exact hkvs.1
        obtain ⟨u, hu⟩ := stringifyVal_of_isDoc hv2
        exact ⟨quote k2.data ++ ':' :: u, memberTexts kvs2, by simp only [memberTexts, hu]⟩
      have htext : commaJoin (memberTexts ((k, v) :: kv2 :: kvs2))
          = (quote k.data ++ ':' :: t) ++ ',' :: commaJoin (memberTexts (kv2 :: kvs2)) := by
        simp only [memberTexts, ht]
        rw [← memberTexts, hts2]
        rfl
      rw [htext]
      simp only [List.append_assoc, List.cons_append]
      refine ⟨quoteChars k.data ++ dquote :: ':' ::
        (t ++ ',' :: (commaJoin (memberTexts (kv2 :: kvs2)) ++ rbrace :: rest)),
        by simp [quote], ?_⟩
      rw [parseMembers_step f k t v ',' _ (delim_comma _) hp]
      simp only [if_true, hrec]
end

end JSON

namespace JSON

open JsVal

mutual
theorem need_le_length :
    ∀ (v : JsVal) (t : List Char), isDoc v = true → stringifyVal v = some t → need v ≤ t.length
  | .undefined, _, h, _ => by simp [isDoc] at h
  | .null, t, _, ht => by
    simp only [stringifyVal, Option.some.injEq] at ht
    subst ht
    decide
  | .bool true, t, _, ht => by
    simp only [stringifyVal, Option.some.injEq] at ht
    subst ht
    decide
  | .bool false, t, _, ht => by
    simp only [stringifyVal, Option.some.injEq] at ht
    subst ht
    decide
  | .num n, t, h, ht => by
    have hn : n.natAbs < 2 ^ 53 := by simpa [isDoc] using h
    simp only [stringifyVal, numChars_safe n hn, Option.some.injEq] at ht
    subst ht
    obtain ⟨c, tail, hc, _⟩ := intChars_head n
    rw [hc]
    simp [need]
  | .dbl d, t, h, ht => by
    have hj : d.isJson = true := by simpa [isDoc] using h
    rw [stringifyVal_dbl d hj, Option.some.injEq] at ht
    subst ht
    obtain ⟨c, tail, hc, _⟩ := chars_head d hj
    rw [hc]
    simp [need]
  | .str s, t, _, ht => by
    simp only [stringifyVal, Option.some.injEq] at ht
    subst ht
    simp [need, quote]
  | .arr xs, t, h, ht => by
    simp only [stringifyVal, Option.some.injEq] at ht
    subst ht
    have := needElems_le_length xs (by simpa [isDoc] using h)
    simp only [need, List.length_cons, List.length_append, List.length_singleton]
    omega
  | .obj kvs, t, h, ht => by
    simp only [stringifyVal, Option.some.injEq] at ht
    subst ht
    have hdocs : propsDocs kvs = true := by
      simp only [isDoc, Bool.and_eq_true] at h
      exact h.2
    have := needProps_le_length kvs hdocs
    simp only [need, List.length_cons, List.length_append, List.length_singleton]
    omega
theorem needElems_le_length :
    ∀ (xs : List JsVal), allDocs xs = true →
      needElems xs ≤ (commaJoin (elemTexts xs)).length + 1
  | [], _ => by simp [needElems]
  | x :: xs, h => by
    have hx : isDoc x = true := by
      simp only [allDocs, Bool.and_eq_true] at h
      exact h.1
    have hxs : allDocs xs = true := by
      simp only [allDocs, Bool.and_eq_true] at h
      exact h.2
    obtain ⟨t, ht⟩ := stringifyVal_of_isDoc hx
    have h1 := need_le_length x t hx ht
    have h2 := needElems_le_length xs hxs
    cases xs with
    | nil =>
      simp only [elemTexts, ht, commaJoin, needElems]
      omega
    | cons y ys =>
      have htext : commaJoin (elemTexts (x :: y :: ys))
          = t ++ ',' :: commaJoin (elemTexts (y :: ys)) := by
        simp only [elemTexts, ht]
        rfl
      rw [htext]
      simp only [needElems, List.length_append, List.length_cons] at h2 ⊢
      omega
theorem needProps_le_length :
    ∀ (kvs : List (String × JsVal)), propsDocs kvs = true →
      needProps kvs ≤ (commaJoin (memberTexts kvs)).length + 1
  | [], _ => by simp [needProps]
  | (k, v) :: kvs, h => by
    have hv : isDoc v = true := by
      simp only [propsDocs, Bool.and_eq_true] at h
      exact h.1
    have hkvs : propsDocs kvs = true := by
      simp only [propsDocs, Bool.and_eq_true] at h
      exact h.2
    obtain ⟨t, ht⟩ := stringifyVal_of_isDoc hv
    have h1 := need_le_length v t hv ht
    have h2 := needProps_le_length kvs hkvs
    cases kvs with
    | nil =>
      simp only [memberTexts, ht, commaJoin, needProps, List.length_append, List.length_cons]
      omega
    | cons kv2 kvs2 =>
      obtain ⟨t2, ts2, hts2⟩ : ∃ t2 ts2, memberTexts (kv2 :: kvs2) = t2 :: ts2 := by
        obtain ⟨k2, v2⟩ := kv2
        have hv2 : isDoc v2 = true := by
          simp only [propsDocs, Bool.and_eq_true] at hkvs
          exact hkvs.1
        obtain ⟨u, hu⟩ := stringifyVal_of_isDoc hv2
        exact ⟨quote k2.data ++ ':' :: u, memberTexts kvs2, by simp only [memberTexts, hu]⟩
      have htext : commaJoin (memberTexts ((k, v) :: kv2 :: kvs2))
          = (quote k.data ++ ':' :: t) ++ ',' :: commaJoin (memberTexts (kv2 :: kvs2)) := by
        simp only [memberTexts, ht]
        rw [← memberTexts, hts2]
        rfl
      rw [htext]
      simp only [needProps, List.length_append, List.length_cons] at h2 ⊢
      omega
end

theorem parse_stringify {v : JsVal} {s : String} (h : isDoc v = true)
    (hs : stringify v = some s) : parse s = .ok v := by
  obtain ⟨t, ht⟩ := stringifyVal_of_isDoc h
  have hst : s = String.mk t := by
    simp only [stringify, ht, Option.map_some', Option.some.injEq] at hs
    exact hs.symm
  subst hst
  have hneed := need_le_length v t h ht
  obtain ⟨t2, ht2, hp⟩ := parseValue_stringifyVal v h (2 * t.length + 2) [] (by omega)
    (Or.inl rfl)
  rw [ht] at ht2
  cases ht2
  simp only [List.append_nil] at hp
  simp only [parse, hp, skipWs]

theorem parse_quote (s : String) : parse (String.mk (quote s.data)) = .ok (.str s) := by
  have hp := parseValue_str (2 * (quote s.data).length + 1) s []
  simp only [List.append_nil] at hp
  simp only [parse, hp, skipWs]

end JSON

/-- C8 (double-decode round trip): for every JSON document `doc`, the store body
`JSON.stringify(JSON.stringify(doc))` exists and the two-step decode of `getIBdata`
(`JSON.parse` of the body, then `JSON.parse` of the resulting string) yields exactly `doc`.
A JSON document (`isDoc`) is any value without `undefined` in it whose numbers are finite and
other than `-0`: integers, fractions and numbers beyond `2 ^ 53` alike. -/
theorem double_decode_round_trip (doc : JsVal) (h : JSON.isDoc doc = true) :
    ∃ s1 s2, JSON.stringify doc = some s1 ∧ JSON.stringify (.str s1) = some s2 ∧
      JSON.doubleDecode s2 = .ok doc := by
  obtain ⟨t, ht⟩ := JSON.stringifyVal_of_isDoc h
  have hs1 : JSON.stringify doc = some (String.mk t) := by simp [JSON.stringify, ht]
  refine ⟨String.mk t, String.mk (JSON.quote t), hs1, rfl, ?_⟩
  have houter := JSON.parse_quote (String.mk t)
  have hinner := JSON.parse_stringify h hs1
  simp only [JSON.doubleDecode, houter, JSON.parseVal, JsVal.toStr, hinner]

/-- Witness for C8: the round trip at the install-base document
`{records: 2, rows: [{ITEM_SERIAL_NUMBER: "A1", SALES_ORDER: "SO1"}]}`, and at the document
`{records: 1, rows: [{ITEM_SERIAL_NUMBER: "A1", LIST_PRICE: 12.5, WEIGHT: -1e21}]}`, whose
numbers are the doubles `25 * 2 ^ (-1)` and `-(476837158203125 * 2 ^ 21)`. -/
theorem double_decode_round_trip_witness :
    (JSON.isDoc (.obj [("records", .num 2), ("rows", .arr [.obj
        [("ITEM_SERIAL_NUMBER", .str "A1"), ("SALES_ORDER", .str "SO1")]])]) = true ∧
    ∃ s1 s2, JSON.stringify (.obj [("records", .num 2), ("rows", .arr [.obj
        [("ITEM_SERIAL_NUMBER", .str "A1"), ("SALES_ORDER", .str "SO1")]])]) = some s1 ∧
      JSON.stringify (.str s1) = some s2 ∧
      JSON.doubleDecode s2 = .ok (.obj [("records", .num 2), ("rows", .arr [.obj
        [("ITEM_SERIAL_NUMBER", .str "A1"), ("SALES_ORDER", .str "SO1")]])])) ∧
    (JSON.isDoc (.obj [("records", .num 1), ("rows", .arr [.obj
        [("ITEM_SERIAL_NUMBER", .str "A1"), ("LIST_PRICE", .dbl (.fin false 25 (-1))),
          ("WEIGHT", .dbl (.fin true 476837158203125 21))]])]) = true ∧
    ∃ s1 s2, JSON.stringify (.obj [("records", .num 1), ("rows", .arr [.obj
        [("ITEM_SERIAL_NUMBER", .str "A1"), ("LIST_PRICE", .dbl (.fin false 25 (-1))),
          ("WEIGHT", .dbl (.fin true 476837158203125 21))]])]) = some s1 ∧
      JSON.stringify (.str s1) = some s2 ∧
      JSON.doubleDecode s2 = .ok (.obj [("records", .num 1), ("rows", .arr [.obj
        [("ITEM_SERIAL_NUMBER", .str "A1"), ("LIST_PRICE", .dbl (.fin false 25 (-1))),
          ("WEIGHT", .dbl (.fin true 476837158203125 21))]])])) ∧
    JSON.stringify (.obj [("LIST_PRICE", .dbl (.fin false 25 (-1))),
        ("WEIGHT", .dbl (.fin true 476837158203125 21))])
      = some "\x7b\"LIST_PRICE\":12.5,\"WEIGHT\":-1e+21\x7d" :=
  ⟨⟨by decide, double_decode_round_trip _ (by decide)⟩,
    ⟨by rfl, double_decode_round_trip _ (by rfl)⟩, by rfl⟩

/-! ## The collecting loop on arrays -/

namespace JsVal

theorem loopFrom_arr (xs : List JsVal) (body : JsVal → Except JsThrow JsVal)
    (f : JsVal → JsVal) (hbody : ∀ x ∈ xs, body x = .ok (f x)) :
    ∀ (count i : Nat), i + count = xs.length →
      loopFrom (.arr xs) body count i = .ok ((xs.drop i).map f) := by
  intro count
  induction count with
  | zero =>
    intro i hi
    have : xs.drop i = [] := List.drop_eq_nil_of_le (by omega)
    simp [loopFrom, this]
  | succ n ih =>
    intro i hi
    have hlt : i < xs.length := by omega
    have hdrop : xs.drop i = xs[i] :: xs.drop (i + 1) := List.drop_eq_getElem_cons hlt
    have hget : xs.getD i .undefined = xs[i] := by
      simp [List.getD_eq_getElem?_getD, List.getElem?_eq_getElem hlt]
    have hb : body xs[i] = .ok (f xs[i]) := hbody _ (List.getElem_mem hlt)
    simp only [loopFrom, getIndex, hget, hb, ih (i + 1) (by omega), hdrop, List.map_cons]

theorem forLength_arr (xs : List JsVal) (body : JsVal → Except JsThrow JsVal)
    (f : JsVal → JsVal) (hbody : ∀ x ∈ xs, body x = .ok (f x)) :
    forLength (.arr xs) body = .ok (xs.map f) := by
  have h := loopFrom_arr xs body f hbody xs.length 0 (by simp)
  simp only [List.drop_zero] at h
  simp only [forLength, getProp, if_true, toNumber, loopCount, Int.toNat_ofNat, h]

end JsVal

/-! ## The extractor of variant B -/

/-- C7 (variant B extractor): for a document whose `rows` is an array of `n` row objects,
`extractInsight` yields exactly `n` pairs, the `i`-th being
`{SN: r_i.ITEM_SERIAL_NUMBER, SO: r_i.SALES_ORDER}` (row order kept, duplicates kept); and
the result depends on the rows alone: any document with the same `rows` gives the same
output, so running the extractor again on the same document gives the identical list. -/
theorem extractInsight_rows (doc : JsVal) (rows : List (List (String × JsVal)))
    (h : JsVal.getProp doc "rows" = .ok (.arr (rows.map JsVal.obj))) :
    Munger3.extractInsight doc
        = .ok (rows.map (fun r => JsVal.obj [("SN", JsVal.lookup "ITEM_SERIAL_NUMBER" r),
            ("SO", JsVal.lookup "SALES_ORDER" r)])) ∧
      (rows.map (fun r => JsVal.obj [("SN", JsVal.lookup "ITEM_SERIAL_NUMBER" r),
            ("SO", JsVal.lookup "SALES_ORDER" r)])).length = rows.length ∧
      ∀ doc2, JsVal.getProp doc2 "rows" = JsVal.getProp doc "rows" →
        Munger3.extractInsight doc2 = Munger3.extractInsight doc := by
  refine ⟨?_, by simp, ?_⟩
  · have hloop := JsVal.forLength_arr (rows.map JsVal.obj)
      (fun row =>
        match JsVal.getProp row "ITEM_SERIAL_NUMBER" with
        | .error e => .error e
        | .ok sn =>
          match JsVal.getProp row "SALES_ORDER" with
          | .error e => .error e
          | .ok so => .ok (.obj [("SN", sn), ("SO", so)]))
      (fun row =>
        match row with
        | .obj r => JsVal.obj [("SN", JsVal.lookup "ITEM_SERIAL_NUMBER" r),
            ("SO", JsVal.lookup "SALES_ORDER" r)]
        | _ => .undefined)
      (by
        intro x hx
        obtain ⟨r, _, rfl⟩ := List.mem_map.mp hx
        rfl)
    simp only [Munger3.extractInsight, h, hloop, List.map_map]
    rfl
  · intro doc2 h2
    simp only [Munger3.extractInsight, h2]

/-- Witness for C7: the document of the scenario with two rows for the same serial number. -/
theorem extractInsight_rows_witness :
    Munger3.extractInsight (.obj [("records", .num 2), ("rows", .arr [
        .obj [("ITEM_SERIAL_NUMBER", .str "A1"), ("SALES_ORDER", .str "SO1")],
        .obj [("ITEM_SERIAL_NUMBER", .str "A1"), ("SALES_ORDER", .str "SO2")]])])
      = .ok [.obj [("SN", .str "A1"), ("SO", .str "SO1")],
          .obj [("SN", .str "A1"), ("SO", .str "SO2")]] :=
  (extractInsight_rows
    (.obj [("records", .num 2), ("rows", .arr [
        .obj [("ITEM_SERIAL_NUMBER", .str "A1"), ("SALES_ORDER", .str "SO1")],
        .obj [("ITEM_SERIAL_NUMBER", .str "A1"), ("SALES_ORDER", .str "SO2")]])])
    [[("ITEM_SERIAL_NUMBER", .str "A1"), ("SALES_ORDER", .str "SO1")],
     [("ITEM_SERIAL_NUMBER", .str "A1"), ("SALES_ORDER", .str "SO2")]] rfl).1

/-! ## The worklist loader -/

theorem getCustomerListIn_array (bucket : String) (w : World) (source : String)
    (t : List Event) (body : String) (items : List (List (String × JsVal)))
    (hstore : w.ecsGetObject t bucket source = .ok body)
    (hbody : JSON.parse body = .ok (.arr (items.map JsVal.obj))) :
    getCustomerListIn bucket w source t
      = (t ++ [.ecsGetObject bucket source (.ok body)],
          .ok (items.map (JsVal.lookup "gduns"))) := by
  have hloop := JsVal.forLength_arr (items.map JsVal.obj)
    (fun item => JsVal.getProp item "gduns")
    (fun item =>
      match item with
      | .obj kvs => JsVal.lookup "gduns" kvs
      | _ => .undefined)
    (by
      intro x hx
      obtain ⟨r, _, rfl⟩ := List.mem_map.mp hx
      rfl)
  simp only [getCustomerListIn, hstore, hbody, hloop, List.map_map]
  rfl

/-- C9 (worklist loader order): when the store returns a body that is a JSON array of `n`
objects, `getCustomerList` of either program succeeds with a list of length `n` whose `i`-th
element is the `gduns` value of the `i`-th object: document order is kept and nothing is
removed, repeated customers included. -/
theorem getCustomerList_order (w : World) (t : List Event) (body : String)
    (items : List (List (String × JsVal)))
    (hbody : JSON.parse body = .ok (.arr (items.map JsVal.obj))) :
    (w.ecsGetObject t Munger3.ecsBucket customerListSource = .ok body →
      Munger3.getCustomerList w customerListSource t
        = (t ++ [.ecsGetObject Munger3.ecsBucket customerListSource (.ok body)],
            .ok (items.map (JsVal.lookup "gduns")))) ∧
    (∀ master, w.ecsGetObject t SNSlotListGenerator.ecsBucket customerListSource = .ok body →
      SNSlotListGenerator.getCustomerList w customerListSource ⟨t, master⟩
        = (⟨t ++ [.ecsGetObject SNSlotListGenerator.ecsBucket customerListSource (.ok body)],
              master⟩,
            .ok (items.map (JsVal.lookup "gduns")))) ∧
    (items.map (JsVal.lookup "gduns")).length = items.length := by
  refine ⟨?_, ?_, by simp⟩
  · intro hstore
    exact getCustomerListIn_array _ w _ t body items hstore hbody
  · intro master hstore
    simp only [SNSlotListGenerator.getCustomerList, SNSlotListGenerator.onEvents,
      getCustomerListIn_array _ w _ t body items hstore hbody]

/-- Witness for C9: the list `[{"gduns":"100"},{"gduns":"200"},{"gduns":"100"}]` is loaded
as `["100", "200", "100"]`, and the list
`[{"gduns":"100"},{"gduns":1.5},{"gduns":"100","weight":1e3},{"gduns":12345678901234567890}]`
as `["100", 1.5, "100", 12345678901234567000]`, the last element being the double
`6028163525993441 * 2 ^ 11` nearest to the number written. -/
theorem getCustomerList_order_witness :
    Munger3.getCustomerList (Scenario.world (fun _ => .ok Scenario.listWithRepeat))
        customerListSource []
      = ([.ecsGetObject Munger3.ecsBucket customerListSource (.ok Scenario.listWithRepeat)],
          .ok [.str "100", .str "200", .str "100"]) ∧
    Munger3.getCustomerList (Scenario.world (fun _ => .ok Scenario.listWithNumbers))
        customerListSource []
      = ([.ecsGetObject Munger3.ecsBucket customerListSource (.ok Scenario.listWithNumbers)],
          .ok [.str "100", .dbl (.fin false 3 (-1)), .str "100",
            .dbl (.fin false 6028163525993441 11)]) ∧
    JsVal.toStr (.dbl (.fin false 6028163525993441 11)) = .ok "12345678901234567000".data :=
  ⟨(getCustomerList_order (Scenario.world (fun _ => .ok Scenario.listWithRepeat)) []
      Scenario.listWithRepeat [[("gduns", .str "100")], [("gduns", .str "200")],
        [("gduns", .str "100")]] rfl).1 rfl,
    (getCustomerList_order (Scenario.world (fun _ => .ok Scenario.listWithNumbers)) []
      Scenario.listWithNumbers [[("gduns", .str "100")], [("gduns", .dbl (.fin false 3 (-1)))],
        [("gduns", .str "100"), ("weight", .num 1000)],
        [("gduns", .dbl (.fin false 6028163525993441 11))]] (by rfl)).1 rfl,
    rfl⟩

/-- Counterexample to C10: for the body `[{"gduns":"100"},{"name":"x"}]`, whose second
element has no `gduns` field, `getCustomerList` reports success, with the list
`["100", undefined]`. -/
theorem getCustomerList_accepts_missing_gduns :
    Munger3.getCustomerList (Scenario.world (fun _ => .ok Scenario.listLackingGduns))
        customerListSource []
      = ([.ecsGetObject Munger3.ecsBucket customerListSource (.ok Scenario.listLackingGduns)],
          .ok [.str "100", .undefined]) := by
  rfl

/-- C10 as amended (worklist loader failure): `getCustomerList` calls back with the store's
error, and no list, whenever the store returns an error for the key.  A retrieved body is not
checked for `gduns` fields: a body that is a JSON array of objects is reported as success,
with `undefined` in the list for every object that lacks the field. -/
theorem getCustomerList_failure (w : World) (t : List Event) :
    (∀ e, w.ecsGetObject t Munger3.ecsBucket customerListSource = .error e →
      Munger3.getCustomerList w customerListSource t
        = (t ++ [.ecsGetObject Munger3.ecsBucket customerListSource (.error e)],
            .err (.object e))) ∧
    (∀ (body : String) (items : List (List (String × JsVal))),
      w.ecsGetObject t Munger3.ecsBucket customerListSource = .ok body →
      JSON.parse body = .ok (.arr (items.map JsVal.obj)) →
      Munger3.getCustomerList w customerListSource t
          = (t ++ [.ecsGetObject Munger3.ecsBucket customerListSource (.ok body)],
              .ok (items.map (JsVal.lookup "gduns"))) ∧
        ∀ (i : Nat) (hi : i < items.length), JsVal.hasKey "gduns" items[i] = false →
          (items.map (JsVal.lookup "gduns"))[i]? = some .undefined) := by
  refine ⟨?_, ?_⟩
  · intro e he
    simp only [Munger3.getCustomerList, getCustomerListIn, he]
  · intro body items hstore hbody
    refine ⟨getCustomerListIn_array _ w _ t body items hstore hbody, ?_⟩
    intro i hi hkey
    have hlook : ∀ kvs : List (String × JsVal), JsVal.hasKey "gduns" kvs = false →
        JsVal.lookup "gduns" kvs = .undefined := by
      intro kvs
      induction kvs with
      | nil => intro _; rfl
      | cons kv kvs ih =>
        obtain ⟨k, v⟩ := kv
        intro h
        simp only [JsVal.hasKey, Bool.or_eq_false_iff, decide_eq_false_iff_not] at h
        simp only [JsVal.lookup, h.1, if_false, ih h.2]
    simp [List.getElem?_eq_getElem hi, hlook _ hkey]

/-- Witness for the amended C10: a store error `NoSuchKey` is passed on, and the body
`[{"gduns":"100"},{"name":"x"}]` is reported as success with `undefined` in second place. -/
theorem getCustomerList_failure_witness :
    Munger3.getCustomerList (Scenario.world (fun _ => .error "NoSuchKey")) customerListSource []
        = ([.ecsGetObject Munger3.ecsBucket customerListSource (.error "NoSuchKey")],
            .err (.object "NoSuchKey")) ∧
      (Munger3.getCustomerList (Scenario.world (fun _ => .ok Scenario.listLackingGduns))
          customerListSource []
        = ([.ecsGetObject Munger3.ecsBucket customerListSource
              (.ok Scenario.listLackingGduns)],
            .ok ([[("gduns", JsVal.str "100")], [("name", JsVal.str "x")]].map
              (JsVal.lookup "gduns")))) ∧
      ([[("gduns", JsVal.str "100")], [("name", JsVal.str "x")]].map
          (JsVal.lookup "gduns"))[1]? = some .undefined :=
  ⟨(getCustomerList_failure (Scenario.world (fun _ => .error "NoSuchKey")) []).1
      "NoSuchKey" rfl,
    ((getCustomerList_failure (Scenario.world (fun _ => .ok Scenario.listLackingGduns)) []).2
      Scenario.listLackingGduns [[("gduns", .str "100")], [("name", .str "x")]] rfl rfl).1,
    ((getCustomerList_failure (Scenario.world (fun _ => .ok Scenario.listLackingGduns)) []).2
      Scenario.listLackingGduns [[("gduns", .str "100")], [("name", .str "x")]] rfl rfl).2
      1 (by decide) rfl⟩

/-! ## The record fetcher -/

/-- Counterexample to C4: a document with `recordCount: 0` (and no `records` property)
passes the check of `getIBdata`; the extractor runs and its result, the empty list, is passed
to the callback without error. -/
theorem getIBdata_ignores_recordCount :
    Munger3.getIBdata
        (Scenario.world (fun _ => .ok (Scenario.encodeTwice Scenario.docRecordCount0)))
        (.str "100") []
      = ([.ecsGetObject Munger3.ecsBucket "100.json"
            (.ok (Scenario.encodeTwice Scenario.docRecordCount0))], .ok []) := by
  rfl

/-- C4 as amended (record-count validation): the field that `getIBdata` checks is `records`.
For every customer id and every fetched body that double-decodes to a document whose
`records` property compares below 1 (for instance the number 0), `getIBdata` calls back with
the error `no JSON payload in <gdun>.json` whichever extractor it was given, so the
extractor is not consulted; when the property does not compare below 1 the callback gets
what the extractor yields; and a result is passed on without error only for a document whose
`records` property does not compare below 1, which includes a document that has no such
property.  The comparison is the one of JavaScript: an integer `n` is below 1 when `n < 1`,
any other number when its value is, and a text is compared through the number it converts
to, a text that is no number never being below 1. -/
theorem getIBdata_record_check {α : Type} (bucket : String)
    (extract : JsVal → Except JsThrow α) (w : World) (gdun : JsVal) (t : List Event)
    (g : List Char) (body : String) (payload records : JsVal)
    (hg : JsVal.toStr gdun = .ok g)
    (hstore : w.ecsGetObject t bucket (String.mk g ++ ".json") = .ok body)
    (hdec : JSON.doubleDecode body = .ok payload)
    (hrec : JsVal.getProp payload "records" = .ok records) :
    (JsVal.ltNum records 1 = .ok true →
      getIBdataWith bucket extract w gdun t
        = (t ++ [.ecsGetObject bucket (String.mk g ++ ".json") (.ok body)],
            .err (.text ("no JSON payload in " ++ (String.mk g ++ ".json"))))) ∧
    (JsVal.ltNum records 1 = .ok false →
      getIBdataWith bucket extract w gdun t
        = (t ++ [.ecsGetObject bucket (String.mk g ++ ".json") (.ok body)],
            match extract payload with
            | .ok insight => .ok insight
            | .error _ => .err (.text ("unexpected install base JSON format in "
                ++ (String.mk g ++ ".json"))))) ∧
    (∀ insight, (getIBdataWith bucket extract w gdun t).2 = .ok insight →
      JsVal.ltNum records 1 = .ok false ∧ extract payload = .ok insight) ∧
    (∀ n : Int, records = .num n → (JsVal.ltNum records 1 = .ok true ↔ n < 1)) ∧
    (records = .undefined → JsVal.ltNum records 1 = .ok false) ∧
    (∀ d : Dbl, records = .dbl d → JsVal.ltNum records 1 = .ok (d.ltInt 1)) ∧
    (∀ s : String, records = .str s →
      (JsVal.stringToNumber s.data = .nan → JsVal.ltNum records 1 = .ok false) ∧
      (∀ n : Int, JsVal.stringToNumber s.data = .int n →
        (JsVal.ltNum records 1 = .ok true ↔ n < 1)) ∧
      (∀ d : Dbl, JsVal.stringToNumber s.data = .dbl d →
        JsVal.ltNum records 1 = .ok (d.ltInt 1))) := by
  refine ⟨?_, ?_, ?_, ?_, ?_, ?_, ?_⟩
  · intro hlt
    simp only [getIBdataWith, hg, hstore, ibCallback, hdec, hrec, hlt]
  · intro hlt
    simp only [getIBdataWith, hg, hstore, ibCallback, hdec, hrec, hlt]
    cases extract payload <;> rfl
  · intro insight hres
    simp only [getIBdataWith, hg, hstore, ibCallback, hdec, hrec] at hres
    cases hlt : JsVal.ltNum records 1 with
    | error e => simp [hlt] at hres
    | ok b =>
      cases b with
      | true => simp [hlt] at hres
      | false =>
        refine ⟨rfl, ?_⟩
        simp only [hlt] at hres
        cases hex : extract payload with
        | error e => simp [hex] at hres
        | ok v =>
          simp only [hex, Cb.ok.injEq] at hres
          rw [hres]
  · intro n hn
    subst hn
    simp [JsVal.ltNum, JsVal.toNumber]
  · intro hu
    subst hu
    rfl
  · intro d hd
    subst hd
    rfl
  · intro s hs
    subst hs
    refine ⟨?_, ?_, ?_⟩
    · intro h
      simp [JsVal.ltNum, JsVal.toNumber, JsVal.toStr, h]
    · intro n h
      simp [JsVal.ltNum, JsVal.toNumber, JsVal.toStr, h]
    · intro d h
      simp [JsVal.ltNum, JsVal.toNumber, JsVal.toStr, h]

/-- Witness for the amended C4: for customer `100` a document with one row and `records: 0`,
`records: "0.5"` or `records: 0.5` is answered with the error `no JSON payload in 100.json`;
so are the texts `0x0`, `1e-1` and `-Infinity`, which convert to numbers below 1. -/
theorem getIBdata_record_check_witness :
    Munger3.getIBdata
        (Scenario.world (fun _ => .ok (Scenario.encodeTwice Scenario.docRecords0)))
        (.str "100") []
      = ([.ecsGetObject Munger3.ecsBucket "100.json"
            (.ok (Scenario.encodeTwice Scenario.docRecords0))],
          .err (.text "no JSON payload in 100.json")) ∧
    Munger3.getIBdata
        (Scenario.world (fun _ => .ok (Scenario.encodeTwice Scenario.docRecordsText)))
        (.str "100") []
      = ([.ecsGetObject Munger3.ecsBucket "100.json"
            (.ok (Scenario.encodeTwice Scenario.docRecordsText))],
          .err (.text "no JSON payload in 100.json")) ∧
    Munger3.getIBdata
        (Scenario.world (fun _ => .ok (Scenario.encodeTwice Scenario.docRecordsHalf)))
        (.str "100") []
      = ([.ecsGetObject Munger3.ecsBucket "100.json"
            (.ok (Scenario.encodeTwice Scenario.docRecordsHalf))],
          .err (.text "no JSON payload in 100.json")) ∧
    JsVal.ltNum (.str "0x0") 1 = .ok true ∧ JsVal.ltNum (.str "1e-1") 1 = .ok true ∧
    JsVal.ltNum (.str "-Infinity") 1 = .ok true :=
  ⟨(getIBdata_record_check Munger3.ecsBucket Munger3.extractInsight
      (Scenario.world (fun _ => .ok (Scenario.encodeTwice Scenario.docRecords0)))
      (.str "100") [] "100".data (Scenario.encodeTwice Scenario.docRecords0)
      Scenario.docRecords0 (.num 0) rfl rfl rfl rfl).1 rfl,
    (getIBdata_record_check Munger3.ecsBucket Munger3.extractInsight
      (Scenario.world (fun _ => .ok (Scenario.encodeTwice Scenario.docRecordsText)))
      (.str "100") [] "100".data (Scenario.encodeTwice Scenario.docRecordsText)
      Scenario.docRecordsText (.str "0.5") rfl rfl (by rfl) rfl).1 (by rfl),
    (getIBdata_record_check Munger3.ecsBucket Munger3.extractInsight
      (Scenario.world (fun _ => .ok (Scenario.encodeTwice Scenario.docRecordsHalf)))
      (.str "100") [] "100".data (Scenario.encodeTwice Scenario.docRecordsHalf)
      Scenario.docRecordsHalf (.dbl (.fin false 1 (-1))) rfl rfl (by rfl) rfl).1 (by rfl),
    by rfl, by rfl, by rfl⟩

/-! ## The master list of variant A -/

namespace SNSlotListGenerator

theorem strictEq_str (item : JsVal) (s : String) :
    strictEq item (.str s) = true ↔ item = .str s := by
  cases item <;> simp [strictEq]

theorem indexOf_gt_iff (needle : JsVal) :
    ∀ xs : List JsVal, indexOf xs needle > -1 ↔ ∃ x ∈ xs, strictEq x needle = true
  | [] => by simp [indexOf]
  | item :: items => by
    have ih := indexOf_gt_iff needle items
    by_cases h : strictEq item needle = true
    · simp [indexOf, h]
    · have hrest : (∃ x ∈ item :: items, strictEq x needle = true)
          ↔ ∃ x ∈ items, strictEq x needle = true := by
        simp [h]
      rw [hrest, ← ih]
      simp only [indexOf, h, if_false]
      cases hidx : indexOf items needle with
      | ofNat i =>
        simp only [Int.ofNat_eq_coe]
        constructor <;> intro _ <;> omega
      | negSucc k =>
        have hk : Int.negSucc k < 0 := Int.negSucc_lt_zero k
        show ((-1 : Int) > -1) ↔ Int.negSucc k > -1
        constructor <;> intro _ <;> omega

theorem contains_str (master : List JsVal) (s : String) :
    contains master (.str s) = true ↔ JsVal.str s ∈ master := by
  simp only [contains, decide_eq_true_eq, indexOf_gt_iff, strictEq_str]
  constructor
  · rintro ⟨x, hx, rfl⟩
    exact hx
  · intro h
    exact ⟨_, h, rfl⟩

theorem pushNew_strs (items : List String) :
    ∀ master : List JsVal, master.Nodup →
      (pushNew (items.map JsVal.str) master).Nodup ∧
      ∀ v, v ∈ pushNew (items.map JsVal.str) master ↔ v ∈ master ∨ ∃ s ∈ items, v = .str s := by
  induction items with
  | nil =>
    intro master h
    simp [pushNew, h]
  | cons s rest ih =>
    intro master h
    by_cases hc : contains master (.str s) = true
    · have hmem := (contains_str master s).mp hc
      obtain ⟨h1, h2⟩ := ih master h
      simp only [List.map_cons, pushNew, hc, if_true]
      refine ⟨h1, fun v => ?_⟩
      rw [h2 v]
      constructor
      · rintro (hv | ⟨x, hx, rfl⟩)
        · exact Or.inl hv
        · exact Or.inr ⟨x, List.mem_cons_of_mem _ hx, rfl⟩
      · rintro (hv | ⟨x, hx, rfl⟩)
        · exact Or.inl hv
        · rcases List.mem_cons.mp hx with rfl | hx
          · exact Or.inl hmem
          · exact Or.inr ⟨x, hx, rfl⟩
    · have hnot : JsVal.str s ∉ master := fun hm => hc ((contains_str master s).mpr hm)
      have hnd : (master ++ [JsVal.str s]).Nodup := by
        rw [List.nodup_append]
        refine ⟨h, List.nodup_singleton _, ?_⟩
        intro a ha hb
        rw [List.mem_singleton] at hb
        subst hb
        exact hnot ha
      obtain ⟨h1, h2⟩ := ih (master ++ [JsVal.str s]) hnd
      have hcf : contains master (.str s) = false := by simpa using hc
      simp only [List.map_cons, pushNew, hcf, Bool.false_eq_true, if_false]
      refine ⟨h1, fun v => ?_⟩
      rw [h2 v]
      rw [List.mem_append, List.mem_singleton]
      constructor
      · rintro ((hv | rfl) | ⟨x, hx, rfl⟩)
        · exact Or.inl hv
        · exact Or.inr ⟨s, List.mem_cons_self _ _, rfl⟩
        · exact Or.inr ⟨x, List.mem_cons_of_mem _ hx, rfl⟩
      · rintro (hv | ⟨x, hx, rfl⟩)
        · exact Or.inl (Or.inl hv)
        · rcases List.mem_cons.mp hx with rfl | hx
          · exact Or.inl (Or.inr rfl)
          · exact Or.inr ⟨x, hx, rfl⟩

theorem feed_strs (feeds : List (List String)) :
    ∀ s : State, s.masterListOfSNs.Nodup →
      (feeds.foldl (fun st l => (addSNsToList (l.map JsVal.str) st).1) s).masterListOfSNs.Nodup ∧
      ∀ v, v ∈ (feeds.foldl (fun st l => (addSNsToList (l.map JsVal.str) st).1)
            s).masterListOfSNs
          ↔ v ∈ s.masterListOfSNs ∨ ∃ l ∈ feeds, ∃ sn ∈ l, v = .str sn := by
  induction feeds with
  | nil =>
    intro s h
    simp [h]
  | cons l rest ih =>
    intro s h
    obtain ⟨h1, h2⟩ := pushNew_strs l s.masterListOfSNs h
    obtain ⟨h3, h4⟩ := ih (addSNsToList (l.map JsVal.str) s).1 h1
    simp only [List.foldl_cons]
    refine ⟨h3, fun v => ?_⟩
    rw [h4 v]
    simp only [addSNsToList, h2 v]
    constructor
    · rintro ((hv | ⟨x, hx, rfl⟩) | ⟨l2, hl2, x, hx, rfl⟩)
      · exact Or.inl hv
      · exact Or.inr ⟨l, List.mem_cons_self _ _, x, hx, rfl⟩
      · exact Or.inr ⟨l2, List.mem_cons_of_mem _ hl2, x, hx, rfl⟩
    · rintro (hv | ⟨l2, hl2, x, hx, rfl⟩)
      · exact Or.inl (Or.inl hv)
      · rcases List.mem_cons.mp hl2 with rfl | hl2
        · exact Or.inl (Or.inr ⟨x, hx, rfl⟩)
        · exact Or.inr ⟨l2, hl2, x, hx, rfl⟩

end SNSlotListGenerator

/-- C1 (variant A dedup invariant): starting from an empty `masterListOfSNs`, after any
finite sequence of `addSNsToList` calls with arbitrary lists of serial-number strings, every
call has called back without error, the master list has no value twice, and a value is in it
exactly when it occurs in one of the lists fed: each distinct value fed is there once, and
nothing else is there. -/
theorem masterList_dedup (feeds : List (List String)) (events : List Event) :
    (∀ (l : List String) (s : SNSlotListGenerator.State),
      (SNSlotListGenerator.addSNsToList (l.map JsVal.str) s).2 = .ok ()) ∧
    (feeds.foldl (fun st l => (SNSlotListGenerator.addSNsToList (l.map JsVal.str) st).1)
      ⟨events, []⟩).masterListOfSNs.Nodup ∧
    ∀ v, v ∈ (feeds.foldl
          (fun st l => (SNSlotListGenerator.addSNsToList (l.map JsVal.str) st).1)
          ⟨events, []⟩).masterListOfSNs
        ↔ ∃ l ∈ feeds, ∃ sn ∈ l, v = .str sn := by
  obtain ⟨h1, h2⟩ := SNSlotListGenerator.feed_strs feeds ⟨events, []⟩ List.nodup_nil
  refine ⟨fun _ _ => rfl, h1, fun v => ?_⟩
  rw [h2 v]
  simp

/-! ## The customer loop of variant B -/

namespace Munger3

theorem getIBdata_eq (w : World) (gdun : JsVal) (t : List Event) (g : List Char)
    (hg : JsVal.toStr gdun = .ok g) :
    getIBdata w gdun t
      = (t ++ [.ecsGetObject ecsBucket (String.mk g ++ ".json")
            (w.ecsGetObject t ecsBucket (String.mk g ++ ".json"))],
          match w.ecsGetObject t ecsBucket (String.mk g ++ ".json") with
          | .error e => .err (.object e)
          | .ok body =>
            match ibCallback extractInsight (String.mk g ++ ".json") body with
            | .ok insight => .ok insight
            | .error e => .err e) := by
  simp only [getIBdata, getIBdataWith, hg]
  cases w.ecsGetObject t ecsBucket (String.mk g ++ ".json") with
  | error e => rfl
  | ok body =>
    simp only []
    cases ibCallback extractInsight (String.mk g ++ ".json") body <;> rfl

theorem getIBdata_thrown (w : World) (gdun : JsVal) (t : List Event) (e : JsThrow)
    (hg : JsVal.toStr gdun = .error e) : getIBdata w gdun t = (t, .thrown e) := by
  simp only [getIBdata, getIBdataWith, hg]

theorem item_of_err (w : World) (gdun : JsVal) (t t1 : List Event) (e : JsErr)
    (h : getIBdata w gdun t = (t1, .err e)) : processGDUNItem w gdun t = (t1, .ok ()) := by
  simp only [processGDUNItem, Async.andThen, h]

theorem item_of_thrown (w : World) (gdun : JsVal) (t t1 : List Event) (e : JsThrow)
    (h : getIBdata w gdun t = (t1, .thrown e)) :
    processGDUNItem w gdun t = (t1, .thrown e) := by
  simp only [processGDUNItem, Async.andThen, h]

theorem item_of_ok (w : World) (gdun : JsVal) (t t1 : List Event) (g : List Char)
    (insight : List JsVal) (hg : JsVal.toStr gdun = .ok g)
    (h : getIBdata w gdun t = (t1, .ok insight)) :
    processGDUNItem w gdun t
      = (t1 ++ [.s3PutObject (s3params g insight) (w.s3PutObject t1 (s3params g insight))],
          match w.s3PutObject t1 (s3params g insight) with
          | .error _ => .ok ()
          | .ok etag =>
            match JSON.parse etag with
            | .ok _ => .ok ()
            | .error e => .thrown e) := by
  simp only [processGDUNItem, Async.andThen, h, storeInsight, hg]
  cases w.s3PutObject t1 (s3params g insight) with
  | error e => rfl
  | ok etag =>
    simp only []
    cases JSON.parse etag <;> rfl

theorem item_counts (w : World) (gdun : JsVal) (t : List Event) :
    ∃ new, (processGDUNItem w gdun t).1 = t ++ new ∧
      new.countP Event.isPut = new.countP isValidFetch ∧ new.countP Event.isPut ≤ 1 := by
  cases hg : JsVal.toStr gdun with
  | error e =>
    refine ⟨[], ?_, rfl, by simp⟩
    rw [item_of_thrown w gdun t t e (getIBdata_thrown w gdun t e hg)]
    simp
  | ok g =>
    have hget := getIBdata_eq w gdun t g hg
    cases hresp : w.ecsGetObject t ecsBucket (String.mk g ++ ".json") with
    | error e =>
      simp only [hresp] at hget
      refine ⟨[.ecsGetObject ecsBucket (String.mk g ++ ".json") (.error e)], ?_, ?_, ?_⟩
      · rw [item_of_err w gdun t _ _ hget]
      · simp [List.countP_cons, Event.isPut, isValidFetch]
      · simp [List.countP_cons, Event.isPut]
    | ok body =>
      simp only [hresp] at hget
      cases hib : ibCallback extractInsight (String.mk g ++ ".json") body with
      | error e =>
        simp only [hib] at hget
        refine ⟨[.ecsGetObject ecsBucket (String.mk g ++ ".json") (.ok body)], ?_, ?_, ?_⟩
        · rw [item_of_err w gdun t _ _ hget]
        · simp [List.countP_cons, Event.isPut, isValidFetch, hib]
        · simp [List.countP_cons, Event.isPut]
      | ok insight =>
        simp only [hib] at hget
        refine ⟨[.ecsGetObject ecsBucket (String.mk g ++ ".json") (.ok body),
          .s3PutObject (s3params g insight) (w.s3PutObject
            (t ++ [.ecsGetObject ecsBucket (String.mk g ++ ".json") (.ok body)])
            (s3params g insight))],
          ?_, ?_, ?_⟩
        · rw [item_of_ok w gdun t _ g insight hg hget]
          simp
        · simp [List.countP_cons, Event.isPut, isValidFetch, hib]
        · simp [List.countP_cons, Event.isPut]

end Munger3

/-- Counterexample to C2: with the worklist `["200"]` and an input store that has no
`200.json`, `processGDUN` makes no publish attempt at all, not `len(W) = 1` of them: the
only call made is the failed fetch. -/
theorem processGDUN_skips_publish :
    ((Munger3.processGDUN (Scenario.world Scenario.store100) [.str "200"] []).1.countP
        Event.isPut = 0) ∧
      ((Munger3.processGDUN (Scenario.world Scenario.store100) [.str "200"] []).1.countP
        Event.isPut ≠ [JsVal.str "200"].length) := by
  constructor
  · rfl
  · decide

/-- C2 as amended (variant B skip policy): for every worklist `W` and every behaviour of the
stores, the number of publish attempts (`putObject` calls) made by `processGDUN` in one cycle
equals the number of customers whose fetch succeeded and passed validation in that cycle; a
customer whose fetch or validation fails gets no publish attempt, so the number is at most
`len(W)`. -/
theorem processGDUN_publish_count (w : World) (W : List JsVal) :
    ∀ t : List Event, ∃ new, (Munger3.processGDUN w W t).1 = t ++ new ∧
      new.countP Event.isPut = new.countP Munger3.isValidFetch ∧
      new.countP Event.isPut ≤ W.length := by
  induction W with
  | nil =>
    intro t
    exact ⟨[], by simp [Munger3.processGDUN, Async.forEachSeries], rfl, by simp⟩
  | cons g rest ih =>
    intro t
    obtain ⟨new1, h1, hc1, hle1⟩ := Munger3.item_counts w g t
    cases hitem : Munger3.processGDUNItem w g t with
    | mk t1 r =>
      rw [hitem] at h1
      simp only at h1
      subst h1
      cases r with
      | ok u =>
        obtain ⟨new2, h2, hc2, hle2⟩ := ih (t ++ new1)
        refine ⟨new1 ++ new2, ?_, ?_, ?_⟩
        · simp only [Munger3.processGDUN, Async.forEachSeries, hitem] at h2 ⊢
          rw [h2, List.append_assoc]
        · simp only [List.countP_append, hc1, hc2]
        · simp only [List.countP_append, List.length_cons]
          omega
      | err e =>
        refine ⟨new1, ?_, hc1, ?_⟩
        · simp only [Munger3.processGDUN, Async.forEachSeries, hitem]
        · simp only [List.length_cons]
          omega
      | silent =>
        refine ⟨new1, ?_, hc1, ?_⟩
        · simp only [Munger3.processGDUN, Async.forEachSeries, hitem]
        · simp only [List.length_cons]
          omega
      | thrown e =>
        refine ⟨new1, ?_, hc1, ?_⟩
        · simp only [Munger3.processGDUN, Async.forEachSeries, hitem]
        · simp only [List.length_cons]
          omega

namespace Munger3

theorem item_isolated (w : World) (gdun : JsVal) (t : List Event) (g : List Char)
    (hg : JsVal.toStr gdun = .ok g)
    (hetag : ∀ (t1 : List Event) (p : PutParams) (etag : String),
      w.s3PutObject t1 p = .ok etag → ∃ v, JSON.parse etag = .ok v) :
    ∃ new, processGDUNItem w gdun t = (t ++ new, .ok ()) ∧
      new.filterMap Event.fetchKey = [String.mk g ++ ".json"] := by
  have hget := getIBdata_eq w gdun t g hg
  cases hresp : w.ecsGetObject t ecsBucket (String.mk g ++ ".json") with
  | error e =>
    simp only [hresp] at hget
    exact ⟨_, item_of_err w gdun t _ _ hget, rfl⟩
  | ok body =>
    simp only [hresp] at hget
    cases hib : ibCallback extractInsight (String.mk g ++ ".json") body with
    | error e =>
      simp only [hib] at hget
      exact ⟨_, item_of_err w gdun t _ _ hget, rfl⟩
    | ok insight =>
      simp only [hib] at hget
      have hitem := item_of_ok w gdun t _ g insight hg hget
      refine ⟨[.ecsGetObject ecsBucket (String.mk g ++ ".json") (.ok body),
        .s3PutObject (s3params g insight) (w.s3PutObject
          (t ++ [.ecsGetObject ecsBucket (String.mk g ++ ".json") (.ok body)])
          (s3params g insight))], ?_, rfl⟩
      rw [hitem]
      cases hput : w.s3PutObject
          (t ++ [.ecsGetObject ecsBucket (String.mk g ++ ".json") (.ok body)])
          (s3params g insight) with
      | error e => simp
      | ok etag =>
        obtain ⟨v, hv⟩ := hetag _ _ _ hput
        simp [hv]

end Munger3

/-- C5 (variant B per-customer isolation): for every worklist `W` of customer ids and every
pattern of per-customer fetch, validation or publish failures (a publish that succeeds
returning a well-formed `ETag`), `processGDUN` fetches once for every element of `W`, in
worklist order, and finishes by calling its callback without an error; hence, when the
worklist was loaded, `cycleThru` reports `Full cycle completed successfully`. -/
theorem processGDUN_isolation (w : World) (W : List JsVal)
    (hids : ∀ g ∈ W, ∃ s, JsVal.toStr g = .ok s)
    (hetag : ∀ (t1 : List Event) (p : PutParams) (etag : String),
      w.s3PutObject t1 p = .ok etag → ∃ v, JSON.parse etag = .ok v) :
    ∀ t : List Event, ∃ new, Munger3.processGDUN w W t = (t ++ new, .ok ()) ∧
      (new.filterMap Event.fetchKey).map some = W.map ibKey ∧
      ∀ t0, Munger3.getCustomerList w customerListSource t0 = (t, .ok W) →
        Munger3.cycleThru w t0
          = (t ++ new ++ [.log "Full cycle completed successfully", .setTimeout 604800000],
              .ok ()) := by
  have hloop : ∀ (V : List JsVal), (∀ g ∈ V, ∃ s, JsVal.toStr g = .ok s) →
      ∀ t : List Event, ∃ new, Munger3.processGDUN w V t = (t ++ new, .ok ()) ∧
        (new.filterMap Event.fetchKey).map some = V.map ibKey := by
    intro V
    induction V with
    | nil =>
      intro _ t
      exact ⟨[], by simp [Munger3.processGDUN, Async.forEachSeries], rfl⟩
    | cons g rest ih =>
      intro hV t
      obtain ⟨s, hs⟩ := hV g (List.mem_cons_self _ _)
      obtain ⟨new1, h1, hk1⟩ := Munger3.item_isolated w g t s hs hetag
      obtain ⟨new2, h2, hk2⟩ := ih (fun x hx => hV x (List.mem_cons_of_mem _ hx)) (t ++ new1)
      refine ⟨new1 ++ new2, ?_, ?_⟩
      · simp only [Munger3.processGDUN, Async.forEachSeries, h1] at h2 ⊢
        rw [h2, List.append_assoc]
      · simp only [List.filterMap_append, List.map_append, hk1, hk2, List.map_cons, ibKey, hs,
          List.map_nil, List.singleton_append]
  intro t
  obtain ⟨new, hrun, hkeys⟩ := hloop W hids t
  refine ⟨new, hrun, hkeys, ?_⟩
  intro t0 hload
  simp only [Munger3.cycleThru, Async.andThen, hload, hrun]

/-- Witness for C5: the scenario worklist `["100", "200"]`, where `100.json` is valid and
`200.json` is missing: both customers are fetched, in order, and the callback gets no
error. -/
theorem processGDUN_isolation_witness :
    ∃ new, Munger3.processGDUN (Scenario.world Scenario.store100) [.str "100", .str "200"] []
        = ([] ++ new, .ok ()) ∧
      (new.filterMap Event.fetchKey).map some = [some "100.json", some "200.json"] := by
  obtain ⟨new, h1, h2, _⟩ := processGDUN_isolation (Scenario.world Scenario.store100)
    [.str "100", .str "200"]
    (by
      intro g hg
      simp only [List.mem_cons, List.mem_singleton, List.not_mem_nil, or_false] at hg
      rcases hg with rfl | rfl <;> exact ⟨_, rfl⟩)
    (by
      intro t1 p etag h
      simp only [Scenario.world, Except.ok.injEq] at h
      subst h
      exact ⟨.str "etag", rfl⟩) []
  exact ⟨new, h1, h2⟩

/-- C6 (variant B publish content): for every customer id `g` (with text `g`) whose document
is fetched and validated, so that `getIBdata` passes on the list extracted from the decoded
document, the calls made for that customer are the fetch followed by exactly one `putObject`
on the bucket `munger-insights` with key `g + ".SNSO.3"`, body `JSON.stringify` of the
extracted list and content type `json`; for a customer whose fetch fails the fetch is the only
call, and no put is issued.  In the scenario (customer list `["100", "200"]`, `100.json` with
rows `(A1,SO1)`, `(A1,SO2)`, `200.json` missing) the whole cycle issues exactly one put, with
key `100.SNSO.3` and body `[{"SN":"A1","SO":"SO1"},{"SN":"A1","SO":"SO2"}]`. -/
theorem processGDUNItem_publish (w : World) (gdun : JsVal) (t : List Event) (g : List Char)
    (hg : JsVal.toStr gdun = .ok g) :
    (∀ (body : String) (insight : List JsVal),
      w.ecsGetObject t Munger3.ecsBucket (String.mk g ++ ".json") = .ok body →
      ibCallback Munger3.extractInsight (String.mk g ++ ".json") body = .ok insight →
      (∃ payload, JSON.doubleDecode body = .ok payload ∧
        Munger3.extractInsight payload = .ok insight) ∧
      (Munger3.processGDUNItem w gdun t).1
        = t ++ [.ecsGetObject Munger3.ecsBucket (String.mk g ++ ".json") (.ok body),
            .s3PutObject
              { Bucket := "munger-insights"
                Key := String.mk g ++ ".SNSO.3"
                Body := JSON.stringify (.arr insight)
                ContentType := "json" }
              (w.s3PutObject
                (t ++ [.ecsGetObject Munger3.ecsBucket (String.mk g ++ ".json") (.ok body)])
                { Bucket := "munger-insights"
                  Key := String.mk g ++ ".SNSO.3"
                  Body := JSON.stringify (.arr insight)
                  ContentType := "json" })]) ∧
    (∀ e : String,
      w.ecsGetObject t Munger3.ecsBucket (String.mk g ++ ".json") = .error e →
      Munger3.processGDUNItem w gdun t
        = (t ++ [.ecsGetObject Munger3.ecsBucket (String.mk g ++ ".json") (.error e)],
            .ok ())) ∧
    (Munger3.cycleThru (Scenario.world Scenario.store100) []).1
      = [.ecsGetObject "installBase" "PNWandNCAcustomers.json" (.ok Scenario.list100and200),
          .ecsGetObject "installBase" "100.json"
            (.ok (Scenario.encodeTwice Scenario.doc100)),
          .s3PutObject
            { Bucket := "munger-insights"
              Key := "100.SNSO.3"
              Body := some ("[\x7b\"SN\":\"A1\",\"SO\":\"SO1\"\x7d," ++
                "\x7b\"SN\":\"A1\",\"SO\":\"SO2\"\x7d]")
              ContentType := "json" }
            (.ok "\"etag\""),
          .ecsGetObject "installBase" "200.json" (.error "NoSuchKey"),
          .log "Full cycle completed successfully",
          .setTimeout 604800000] := by
  have hkey : String.mk g ++ "." ++ "SNSO" ++ "." ++ Munger3.mungerNumber
      = String.mk g ++ ".SNSO.3" := by
    simp only [String.append_assoc]
    rfl
  have hget := Munger3.getIBdata_eq w gdun t g hg
  refine ⟨?_, ?_, ?_⟩
  · intro body insight hstore hib
    constructor
    · simp only [ibCallback] at hib
      cases hdec : JSON.doubleDecode body with
      | error e => simp [hdec] at hib
      | ok payload =>
        refine ⟨payload, rfl, ?_⟩
        simp only [hdec] at hib
        cases hrec : JsVal.getProp payload "records" with
        | error e => simp [hrec] at hib
        | ok records =>
          simp only [hrec] at hib
          cases hlt : JsVal.ltNum records 1 with
          | error e => simp [hlt] at hib
          | ok b =>
            cases b with
            | true => simp [hlt] at hib
            | false =>
              simp only [hlt] at hib
              cases hex : Munger3.extractInsight payload with
              | error e => simp [hex] at hib
              | ok v =>
                simp only [hex, Except.ok.injEq] at hib
                rw [hib]
    · simp only [hstore, hib] at hget
      rw [Munger3.item_of_ok w gdun t _ g insight hg hget]
      simp only [Munger3.s3params, Munger3.awsBucket, hkey, List.append_assoc,
        List.cons_append, List.nil_append]
  · intro e hstore
    simp only [hstore] at hget
    exact Munger3.item_of_err w gdun t _ _ hget
  · rfl

/-- Witness for C6: customer `100` of the scenario gets its fetch and one put with key
`100.SNSO.3` and the body of the two `SN`/`SO` pairs.  The customer number `1e21`, whose
document (fetched as `1e+21.json`) has a row with the price `12.5` and a sales order
`{"b":1,"1":2}`, gets one put with key `1e+21.SNSO.3` and the body
`[{"SN":"A1","SO":{"1":2,"b":1}}]`. -/
theorem processGDUNItem_publish_witness :
    (Munger3.processGDUNItem (Scenario.world Scenario.store100) (.str "100") []).1
      = [.ecsGetObject "installBase" "100.json" (.ok (Scenario.encodeTwice Scenario.doc100)),
          .s3PutObject
            { Bucket := "munger-insights"
              Key := "100.SNSO.3"
              Body := some ("[\x7b\"SN\":\"A1\",\"SO\":\"SO1\"\x7d," ++
                "\x7b\"SN\":\"A1\",\"SO\":\"SO2\"\x7d]")
              ContentType := "json" }
            (.ok "\"etag\"")] ∧
    (Munger3.processGDUNItem (Scenario.world Scenario.storePriced) Scenario.gdun1e21 []).1
      = [.ecsGetObject "installBase" "1e+21.json" (.ok Scenario.docPricedBody),
          .s3PutObject
            { Bucket := "munger-insights"
              Key := "1e+21.SNSO.3"
              Body := some ("[\x7b\"SN\":\"A1\",\"SO\":\x7b\"1\":2,\"b\":1\x7d\x7d]")
              ContentType := "json" }
            (.ok "\"etag\"")] :=
  ⟨((processGDUNItem_publish (Scenario.world Scenario.store100) (.str "100") [] "100".data
      rfl).1 (Scenario.encodeTwice Scenario.doc100)
      [.obj [("SN", .str "A1"), ("SO", .str "SO1")],
        .obj [("SN", .str "A1"), ("SO", .str "SO2")]]
      rfl rfl).2,
    ((processGDUNItem_publish (Scenario.world Scenario.storePriced) Scenario.gdun1e21 []
      "1e+21".data (by rfl)).1 Scenario.docPricedBody
      [.obj [("SN", .str "A1"), ("SO", .obj [("1", .num 2), ("b", .num 1)])]]
      (by rfl) (by rfl)).2⟩

/-! ## The customer loop of variant A -/

namespace Async

theorem forEachSeries_append {σ α : Type} (iterator : α → Step σ Unit) (rest : List α) :
    ∀ (pre : List α) (s s1 : σ), forEachSeries iterator pre s = (s1, .ok ()) →
      forEachSeries iterator (pre ++ rest) s = forEachSeries iterator rest s1 := by
  intro pre
  induction pre with
  | nil =>
    intro s s1 h
    simp only [forEachSeries, Prod.mk.injEq] at h
    rw [← h.1]
    rfl
  | cons x xs ih =>
    intro s s1 h
    simp only [forEachSeries, List.cons_append] at h ⊢
    cases hx : iterator x s with
    | mk s2 r =>
      rw [hx] at h
      cases r with
      | ok u =>
        simp only at h ⊢
        exact ih s2 s1 h
      | err e => simp at h
      | silent => simp at h
      | thrown e => simp at h

end Async

namespace SNSlotListGenerator

theorem item_shape (w : World) (gdun : JsVal) (s : State) :
    (∃ e, JsVal.toStr gdun = .error e ∧
      Async.andThen (getIBdata w gdun) (fun SNsToAdd => addSNsToList SNsToAdd) s
        = (s, .thrown e)) ∨
    (∃ g resp, JsVal.toStr gdun = .ok g ∧
      (Async.andThen (getIBdata w gdun) (fun SNsToAdd => addSNsToList SNsToAdd) s).1.events
        = s.events ++ [.ecsGetObject ecsBucket (String.mk g ++ ".json") resp] ∧
      ((Async.andThen (getIBdata w gdun) (fun SNsToAdd => addSNsToList SNsToAdd) s).2
          = .ok () ∨
        ∃ e, Async.andThen (getIBdata w gdun) (fun SNsToAdd => addSNsToList SNsToAdd) s
          = (⟨s.events ++ [.ecsGetObject ecsBucket (String.mk g ++ ".json") resp],
              s.masterListOfSNs⟩, .err e))) := by
  cases hg : JsVal.toStr gdun with
  | error e =>
    left
    refine ⟨e, rfl, ?_⟩
    simp only [Async.andThen, getIBdata, onEvents, getIBdataWith, hg]
  | ok g =>
    right
    refine ⟨g, w.ecsGetObject s.events ecsBucket (String.mk g ++ ".json"), rfl, ?_⟩
    simp only [Async.andThen, getIBdata, onEvents, getIBdataWith, hg]
    cases w.ecsGetObject s.events ecsBucket (String.mk g ++ ".json") with
    | error e =>
      exact ⟨rfl, Or.inr ⟨_, rfl⟩⟩
    | ok body =>
      simp only []
      cases ibCallback extractSNs (String.mk g ++ ".json") body with
      | error e => exact ⟨rfl, Or.inr ⟨_, rfl⟩⟩
      | ok SNs => exact ⟨rfl, Or.inl rfl⟩

theorem processGDUN_ok_events (w : World) (pre : List JsVal) :
    ∀ (s s1 : State), processGDUN w pre s = (s1, .ok ()) →
      ∃ new, s1.events = s.events ++ new ∧ new.countP Event.isWrite = 0 ∧
        (new.filterMap Event.fetchKey).map some = pre.map ibKey := by
  induction pre with
  | nil =>
    intro s s1 h
    simp only [processGDUN, Async.forEachSeries, Prod.mk.injEq] at h
    exact ⟨[], by rw [← h.1]; simp, rfl, rfl⟩
  | cons g rest ih =>
    intro s s1 h
    simp only [processGDUN, Async.forEachSeries] at h
    rcases item_shape w g s with ⟨e, _, hthrown⟩ | ⟨gs, resp, hg, hev, hres⟩
    · rw [hthrown] at h
      simp at h
    · cases hitem : Async.andThen (getIBdata w g) (fun SNsToAdd => addSNsToList SNsToAdd) s with
      | mk s2 r =>
        rw [hitem] at h hev hres
        simp only at hev
        cases r with
        | ok u =>
          simp only at h
          obtain ⟨new2, h2, hw2, hk2⟩ := ih s2 s1 h
          refine ⟨.ecsGetObject ecsBucket (String.mk gs ++ ".json") resp :: new2, ?_, ?_, ?_⟩
          · rw [h2, hev]
            simp
          · simp [List.countP_cons, Event.isWrite, hw2]
          · simp only [List.filterMap_cons, Event.fetchKey, List.map_cons, hk2, ibKey, hg]
        | err e => simp at h
        | silent => simp at h
        | thrown e => simp at h

end SNSlotListGenerator

/-- C3 (variant A abort policy): for every worklist `pre ++ g :: post` in which the customers
of `pre` succeed and `g` is the first whose fetch, validation or accumulation fails,
`processGDUN` ends right after the fetch for `g` and passes the error to its callback: the
calls made are one fetch for each customer of `pre` and for `g`, in order, and nothing else
(no customer of `post` is fetched, no file is written); the master list is what the
customers of `pre` left; and `cycleThru`, having loaded that worklist, hands the error to its
final callback without calling `storeSNList`, so that no `writeFile` is made in the cycle. -/
theorem processGDUN_abort (w : World) (pre post : List JsVal) (g : JsVal)
    (s s1 s2 : SNSlotListGenerator.State) (e : JsErr)
    (hpre : SNSlotListGenerator.processGDUN w pre s = (s1, .ok ()))
    (hfail : Async.andThen (SNSlotListGenerator.getIBdata w g)
      (fun SNsToAdd => SNSlotListGenerator.addSNsToList SNsToAdd) s1 = (s2, .err e)) :
    SNSlotListGenerator.processGDUN w (pre ++ g :: post) s = (s2, .err e) ∧
    s2.masterListOfSNs = s1.masterListOfSNs ∧
    (∃ new, s2.events = s.events ++ new ∧ new.countP Event.isWrite = 0 ∧
      (new.filterMap Event.fetchKey).map some = (pre ++ [g]).map ibKey) ∧
    ∀ s0, SNSlotListGenerator.getCustomerList w customerListSource s0 = (s, .ok (pre ++ g :: post)) →
      SNSlotListGenerator.cycleThru w s0
          = (⟨s2.events ++ [.log "Process Complete."], s2.masterListOfSNs⟩, .err e) ∧
        ∃ added, (SNSlotListGenerator.cycleThru w s0).1.events = s0.events ++ added ∧
          added.countP Event.isWrite = 0 := by
  have hrun : SNSlotListGenerator.processGDUN w (pre ++ g :: post) s = (s2, .err e) := by
    simp only [SNSlotListGenerator.processGDUN] at hpre ⊢
    rw [Async.forEachSeries_append _ (g :: post) pre s s1 hpre]
    simp only [Async.forEachSeries, hfail]
  obtain ⟨new1, hev1, hw1, hk1⟩ := SNSlotListGenerator.processGDUN_ok_events w pre s s1 hpre
  have hshape : ∃ gs resp, JsVal.toStr g = .ok gs ∧
      s2 = ⟨s1.events ++ [.ecsGetObject SNSlotListGenerator.ecsBucket
        (String.mk gs ++ ".json") resp], s1.masterListOfSNs⟩ := by
    rcases SNSlotListGenerator.item_shape w g s1 with ⟨e2, _, hthrown⟩ | ⟨gs, resp, hg, _, hres⟩
    · rw [hthrown] at hfail
      simp at hfail
    · rcases hres with hok | ⟨e2, herr⟩
      · rw [hfail] at hok
        simp at hok
      · rw [hfail] at herr
        simp only [Prod.mk.injEq] at herr
        exact ⟨gs, resp, hg, herr.1⟩
  obtain ⟨gs, resp, hg, hs2⟩ := hshape
  have hnew : s2.events = s.events ++ (new1 ++ [.ecsGetObject SNSlotListGenerator.ecsBucket
      (String.mk gs ++ ".json") resp]) := by
    rw [hs2, hev1, List.append_assoc]
  refine ⟨hrun, by rw [hs2], ⟨_, hnew, ?_, ?_⟩, ?_⟩
  · simp [List.countP_append, hw1, List.countP_cons, Event.isWrite]
  · simp only [List.filterMap_append, List.map_append, hk1, List.filterMap_cons,
      Event.fetchKey, List.filterMap_nil, List.map_cons, List.map_nil, ibKey, hg]
  · intro s0 hload
    have hcycle : SNSlotListGenerator.cycleThru w s0
        = (⟨s2.events ++ [.log "Process Complete."], s2.masterListOfSNs⟩, .err e) := by
      simp only [SNSlotListGenerator.cycleThru, Async.andThen, hload, hrun]
    refine ⟨hcycle, ?_⟩
    have hs : ∃ first, s.events = s0.events ++ [first] ∧ first.isWrite = false := by
      simp only [SNSlotListGenerator.getCustomerList, SNSlotListGenerator.onEvents,
        getCustomerListIn] at hload
      refine ⟨.ecsGetObject SNSlotListGenerator.ecsBucket customerListSource
        (w.ecsGetObject s0.events SNSlotListGenerator.ecsBucket customerListSource), ?_, rfl⟩
      cases hresp : w.ecsGetObject s0.events SNSlotListGenerator.ecsBucket customerListSource with
      | error e2 =>
        rw [hresp] at hload
        simp at hload
      | ok body =>
        rw [hresp] at hload
        simp only at hload
        cases hparse : JSON.parse body with
        | error e2 =>
          rw [hparse] at hload
          simp at hload
        | ok payload =>
          rw [hparse] at hload
          simp only at hload
          cases hloop : JsVal.forLength payload (fun item => JsVal.getProp item "gduns") with
          | error e2 =>
            rw [hloop] at hload
            simp at hload
          | ok GDUNS =>
            rw [hloop] at hload
            simp only [Prod.mk.injEq] at hload
            rw [← hload.1]
    obtain ⟨first, hfirst, hfw⟩ := hs
    refine ⟨[first] ++ (new1 ++ [.ecsGetObject SNSlotListGenerator.ecsBucket
      (String.mk gs ++ ".json") resp]) ++ [.log "Process Complete."], ?_, ?_⟩
    · rw [hcycle]
      simp only [hnew, hfirst, List.append_assoc]
    · have h1 : [first].countP Event.isWrite = 0 := by simp [List.countP_cons, hfw]
      have h2 : [Event.ecsGetObject SNSlotListGenerator.ecsBucket
          (String.mk gs ++ ".json") resp].countP Event.isWrite = 0 := by
        simp [List.countP_cons, Event.isWrite]
      have h3 : [Event.log "Process Complete."].countP Event.isWrite = 0 := by
        simp [List.countP_cons, Event.isWrite]
      simp only [List.countP_append, h1, h2, h3, hw1]

/-- Witness for C3: the scenario in variant A with a third customer `300` behind the failing
one: `100.json` is valid, `200.json` is missing; the run ends with the store's error after
two fetches, the master list holding `A1`, and `300` is never fetched. -/
theorem processGDUN_abort_witness :
    SNSlotListGenerator.processGDUN (Scenario.world Scenario.store100)
        ([.str "100"] ++ .str "200" :: [.str "300"]) ⟨[], []⟩
      = (⟨[.ecsGetObject "pacnwinstalls" "100.json" (.ok (Scenario.encodeTwice Scenario.doc100)),
            .ecsGetObject "pacnwinstalls" "200.json" (.error "NoSuchKey")],
          [.str "A1"]⟩, .err (.object "NoSuchKey")) :=
  (processGDUN_abort (Scenario.world Scenario.store100) [.str "100"] [.str "300"] (.str "200")
    ⟨[], []⟩
    ⟨[.ecsGetObject "pacnwinstalls" "100.json" (.ok (Scenario.encodeTwice Scenario.doc100))],
      [.str "A1"]⟩
    ⟨[.ecsGetObject "pacnwinstalls" "100.json" (.ok (Scenario.encodeTwice Scenario.doc100)),
        .ecsGetObject "pacnwinstalls" "200.json" (.error "NoSuchKey")],
      [.str "A1"]⟩
    (.object "NoSuchKey") rfl rfl).1

/-! ## The cycle of variant B -/

namespace Munger3

theorem getCustomerList_events (w : World) (t t1 : List Event) (r : Cb (List JsVal))
    (h : getCustomerList w customerListSource t = (t1, r)) :
    t1 = t ++ [.ecsGetObject ecsBucket customerListSource
      (w.ecsGetObject t ecsBucket customerListSource)] := by
  simp only [getCustomerList, getCustomerListIn] at h
  cases hresp : w.ecsGetObject t ecsBucket customerListSource with
  | error e =>
    rw [hresp] at h
    simp only [Prod.mk.injEq] at h
    exact h.1.symm
  | ok body =>
    rw [hresp] at h
    simp only at h
    cases hparse : JSON.parse body with
    | error e =>
      rw [hparse] at h
      simp only [Prod.mk.injEq] at h
      exact h.1.symm
    | ok payload =>
      rw [hparse] at h
      simp only at h
      cases hloop : JsVal.forLength payload (fun item => JsVal.getProp item "gduns") with
      | error e =>
        rw [hloop] at h
        simp only [Prod.mk.injEq] at h
        exact h.1.symm
      | ok GDUNS =>
        rw [hloop] at h
        simp only [Prod.mk.injEq] at h
        exact h.1.symm

theorem item_no_timer (w : World) (gdun : JsVal) (t : List Event) :
    ∃ new, (processGDUNItem w gdun t).1 = t ++ new ∧ ∀ e ∈ new, e.isTimer = false := by
  cases hg : JsVal.toStr gdun with
  | error e =>
    refine ⟨[], ?_, by simp⟩
    rw [item_of_thrown w gdun t t e (getIBdata_thrown w gdun t e hg)]
    simp
  | ok g =>
    have hget := getIBdata_eq w gdun t g hg
    cases hresp : w.ecsGetObject t ecsBucket (String.mk g ++ ".json") with
    | error e =>
      simp only [hresp] at hget
      refine ⟨[.ecsGetObject ecsBucket (String.mk g ++ ".json") (.error e)], ?_, ?_⟩
      · rw [item_of_err w gdun t _ _ hget]
      · intro ev hev
        rw [List.mem_singleton] at hev
        subst hev
        rfl
    | ok body =>
      simp only [hresp] at hget
      cases hib : ibCallback extractInsight (String.mk g ++ ".json") body with
      | error e =>
        simp only [hib] at hget
        refine ⟨[.ecsGetObject ecsBucket (String.mk g ++ ".json") (.ok body)], ?_, ?_⟩
        · rw [item_of_err w gdun t _ _ hget]
        · intro ev hev
          rw [List.mem_singleton] at hev
          subst hev
          rfl
      | ok insight =>
        simp only [hib] at hget
        refine ⟨[.ecsGetObject ecsBucket (String.mk g ++ ".json") (.ok body),
          .s3PutObject (s3params g insight) (w.s3PutObject
            (t ++ [.ecsGetObject ecsBucket (String.mk g ++ ".json") (.ok body)])
            (s3params g insight))], ?_, ?_⟩
        · rw [item_of_ok w gdun t _ g insight hg hget]
          simp
        · intro ev hev
          simp only [List.mem_cons, List.mem_singleton, List.not_mem_nil, or_false] at hev
          rcases hev with rfl | rfl <;> rfl

theorem processGDUN_no_timer (w : World) (W : List JsVal) :
    ∀ t : List Event, ∃ new, (processGDUN w W t).1 = t ++ new ∧
      ∀ e ∈ new, e.isTimer = false := by
  induction W with
  | nil =>
    intro t
    exact ⟨[], by simp [processGDUN, Async.forEachSeries], by simp⟩
  | cons g rest ih =>
    intro t
    obtain ⟨new1, h1, hn1⟩ := item_no_timer w g t
    cases hitem : processGDUNItem w g t with
    | mk t1 r =>
      rw [hitem] at h1
      simp only at h1
      subst h1
      cases r with
      | ok u =>
        obtain ⟨new2, h2, hn2⟩ := ih (t ++ new1)
        refine ⟨new1 ++ new2, ?_, ?_⟩
        · simp only [processGDUN, Async.forEachSeries, hitem] at h2 ⊢
          rw [h2, List.append_assoc]
        · intro e he
          rcases List.mem_append.mp he with he | he
          · exact hn1 e he
          · exact hn2 e he
      | err e => exact ⟨new1, by simp only [processGDUN, Async.forEachSeries, hitem], hn1⟩
      | silent => exact ⟨new1, by simp only [processGDUN, Async.forEachSeries, hitem], hn1⟩
      | thrown e => exact ⟨new1, by simp only [processGDUN, Async.forEachSeries, hitem], hn1⟩

theorem cycle_shape (w : World) (t t2 : List Event) (r : Cb Unit)
    (h : cycleThru w t = (t2, r)) (hdone : r = .ok () ∨ ∃ e, r = .err e) :
    ∃ added msg, t2 = t ++ added ++ [.log msg, .setTimeout 604800000] ∧
      added.countP Event.isTimer = 0 := by
  simp only [cycleThru, Async.andThen] at h
  cases hload : getCustomerList w customerListSource t with
  | mk t1 r1 =>
    have hev := getCustomerList_events w t t1 r1 hload
    have hfirst : [Event.ecsGetObject ecsBucket customerListSource
        (w.ecsGetObject t ecsBucket customerListSource)].countP Event.isTimer = 0 := by
      simp [List.countP_cons, Event.isTimer]
    rw [hload] at h
    cases r1 with
    | err e =>
      simp only [Prod.mk.injEq] at h
      exact ⟨_, _, by rw [← h.1, hev], hfirst⟩
    | silent =>
      simp only [Prod.mk.injEq] at h
      rcases hdone with hd | ⟨e, hd⟩ <;> rw [← h.2] at hd <;> cases hd
    | thrown e =>
      simp only [Prod.mk.injEq] at h
      rcases hdone with hd | ⟨e2, hd⟩ <;> rw [← h.2] at hd <;> cases hd
    | ok W =>
      simp only at h
      obtain ⟨new, hnew, hnt⟩ := processGDUN_no_timer w W t1
      have hcount : new.countP Event.isTimer = 0 := by
        rw [List.countP_eq_zero]
        intro e he
        simp [hnt e he]
      cases hrun : processGDUN w W t1 with
      | mk t3 r3 =>
        rw [hrun] at h hnew
        simp only at hnew
        cases r3 with
        | ok u =>
          simp only [Prod.mk.injEq] at h
          refine ⟨[Event.ecsGetObject ecsBucket customerListSource
            (w.ecsGetObject t ecsBucket customerListSource)] ++ new,
            "Full cycle completed successfully", ?_, ?_⟩
          · rw [← h.1, hnew, hev]
            simp only [List.append_assoc]
          · simp only [List.countP_append, hfirst, hcount]
        | err e =>
          simp only [Prod.mk.injEq] at h
          refine ⟨[Event.ecsGetObject ecsBucket customerListSource
            (w.ecsGetObject t ecsBucket customerListSource)] ++ new,
            "Full cycle likely not complete, error: " ++ errText e, ?_, ?_⟩
          · rw [← h.1, hnew, hev]
            simp only [List.append_assoc]
          · simp only [List.countP_append, hfirst, hcount]
        | silent =>
          simp only [Prod.mk.injEq] at h
          rcases hdone with hd | ⟨e, hd⟩ <;> rw [← h.2] at hd <;> cases hd
        | thrown e =>
          simp only [Prod.mk.injEq] at h
          rcases hdone with hd | ⟨e2, hd⟩ <;> rw [← h.2] at hd <;> cases hd

end Munger3

/-- C11 (variant B load failure and rescheduling): when `getCustomerList` reports an error,
the only call to a store that `cycleThru` makes in that cycle is the fetch of the customer
list (no per-customer fetch, no publish), and it still reports the cycle and sets the timer
of 604800000 ms that restarts `cycleThru`; more generally every cycle that reaches its final
callback, with or without an error, ends with the report followed by that timer and sets no
other timer, so that a run of `n` such cycles has set exactly `n` timers. -/
theorem cycleThru_reschedules (w : World) :
    (∀ (t t1 : List Event) (e : JsErr),
      Munger3.getCustomerList w customerListSource t = (t1, .err e) →
      t1 = t ++ [.ecsGetObject Munger3.ecsBucket customerListSource
          (w.ecsGetObject t Munger3.ecsBucket customerListSource)] ∧
      Munger3.cycleThru w t
        = (t1 ++ [.log ("Full cycle likely not complete, error: " ++ Munger3.errText e),
            .setTimeout 604800000], .err e)) ∧
    (∀ (t t2 : List Event) (r : Cb Unit), Munger3.cycleThru w t = (t2, r) →
      (r = .ok () ∨ ∃ e, r = .err e) →
      ∃ added msg, t2 = t ++ added ++ [.log msg, .setTimeout 604800000] ∧
        added.countP Event.isTimer = 0) ∧
    (∀ (n : Nat) (t t2 : List Event), Munger3.run w n t = (t2, .ok ()) →
      ∃ added, t2 = t ++ added ∧ added.countP Event.isTimer = n) := by
  refine ⟨?_, ?_, ?_⟩
  · intro t t1 e hload
    refine ⟨Munger3.getCustomerList_events w t t1 _ hload, ?_⟩
    simp only [Munger3.cycleThru, Async.andThen, hload]
  · intro t t2 r h hdone
    exact Munger3.cycle_shape w t t2 r h hdone
  · intro n
    induction n with
    | zero =>
      intro t t2 h
      simp only [Munger3.run, Prod.mk.injEq] at h
      exact ⟨[], by rw [← h.1]; simp, rfl⟩
    | succ k ih =>
      intro t t2 h
      simp only [Munger3.run] at h
      have hlast : ∀ msg : String,
          [Event.log msg, Event.setTimeout 604800000].countP Event.isTimer = 1 := by
        intro msg
        simp [List.countP_cons, Event.isTimer]
      cases hcycle : Munger3.cycleThru w t with
      | mk t1 r =>
        rw [hcycle] at h
        cases r with
        | ok u =>
          simp only at h
          obtain ⟨added1, msg, h1, hc1⟩ := Munger3.cycle_shape w t t1 _ hcycle (Or.inl rfl)
          obtain ⟨added2, h2, hc2⟩ := ih t1 t2 h
          refine ⟨added1 ++ [.log msg, .setTimeout 604800000] ++ added2, ?_, ?_⟩
          · rw [h2, h1]
            simp only [List.append_assoc]
          · simp only [List.countP_append, hc1, hc2, hlast]
            omega
        | err e =>
          simp only at h
          obtain ⟨added1, msg, h1, hc1⟩ := Munger3.cycle_shape w t t1 _ hcycle
            (Or.inr ⟨e, rfl⟩)
          obtain ⟨added2, h2, hc2⟩ := ih t1 t2 h
          refine ⟨added1 ++ [.log msg, .setTimeout 604800000] ++ added2, ?_, ?_⟩
          · rw [h2, h1]
            simp only [List.append_assoc]
          · simp only [List.countP_append, hc1, hc2, hlast]
            omega
        | silent => simp at h
        | thrown e => simp at h

/-- Witness for C11: with an input store that has no customer list, the cycle consists of
the failed fetch of the list, the report and the timer of 604800000 ms. -/
theorem cycleThru_reschedules_witness :
    Munger3.cycleThru (Scenario.world (fun _ => .error "NoSuchKey")) []
      = ([.ecsGetObject "installBase" "PNWandNCAcustomers.json" (.error "NoSuchKey")]
          ++ [.log "Full cycle likely not complete, error: NoSuchKey", .setTimeout 604800000],
          .err (.object "NoSuchKey")) :=
  ((cycleThru_reschedules (Scenario.world (fun _ => .error "NoSuchKey"))).1 []
    [.ecsGetObject "installBase" "PNWandNCAcustomers.json" (.error "NoSuchKey")]
    (.object "NoSuchKey") rfl).2

/-! ## The end of the cycle of variant A -/

namespace SNSlotListGenerator

theorem loader_events (w : World) (s0 s1 : State) (r : Cb (List JsVal))
    (h : getCustomerList w customerListSource s0 = (s1, r)) :
    s1 = ⟨s0.events ++ [.ecsGetObject ecsBucket customerListSource
      (w.ecsGetObject s0.events ecsBucket customerListSource)], s0.masterListOfSNs⟩ := by
  simp only [getCustomerList, onEvents, getCustomerListIn] at h
  cases hresp : w.ecsGetObject s0.events ecsBucket customerListSource with
  | error e =>
    rw [hresp] at h
    simp only [Prod.mk.injEq] at h
    exact h.1.symm
  | ok body =>
    rw [hresp] at h
    simp only at h
    cases hparse : JSON.parse body with
    | error e =>
      rw [hparse] at h
      simp only [Prod.mk.injEq] at h
      exact h.1.symm
    | ok payload =>
      rw [hparse] at h
      simp only at h
      cases hloop : JsVal.forLength payload (fun item => JsVal.getProp item "gduns") with
      | error e =>
        rw [hloop] at h
        simp only [Prod.mk.injEq] at h
        exact h.1.symm
      | ok GDUNS =>
        rw [hloop] at h
        simp only [Prod.mk.injEq] at h
        exact h.1.symm

theorem processGDUN_ok_quiet (w : World) (W : List JsVal) :
    ∀ (s s1 : State), processGDUN w W s = (s1, .ok ()) →
      ∃ new, s1.events = s.events ++ new ∧ new.countP Event.isWrite = 0 ∧
        new.countP Event.isLog = 0 := by
  induction W with
  | nil =>
    intro s s1 h
    simp only [processGDUN, Async.forEachSeries, Prod.mk.injEq] at h
    exact ⟨[], by rw [← h.1]; simp, rfl, rfl⟩
  | cons g rest ih =>
    intro s s1 h
    simp only [processGDUN, Async.forEachSeries] at h
    rcases item_shape w g s with ⟨e, _, hthrown⟩ | ⟨gs, resp, _, hev, _⟩
    · rw [hthrown] at h
      simp at h
    · cases hitem : Async.andThen (getIBdata w g) (fun SNsToAdd => addSNsToList SNsToAdd) s with
      | mk s2 r =>
        rw [hitem] at h hev
        simp only at hev
        cases r with
        | ok u =>
          simp only at h
          obtain ⟨new2, h2, hw2, hl2⟩ := ih s2 s1 h
          refine ⟨.ecsGetObject ecsBucket (String.mk gs ++ ".json") resp :: new2, ?_, ?_, ?_⟩
          · rw [h2, hev]
            simp
          · simp [List.countP_cons, Event.isWrite, hw2]
          · simp [List.countP_cons, Event.isLog, hl2]
        | err e => simp at h
        | silent => simp at h
        | thrown e => simp at h

end SNSlotListGenerator

/-- C12 (variant A completion), what the code does: when the worklist load and every
customer succeed, `cycleThru` calls `storeSNList` once with the accumulated master list, so
that exactly one `writeFile` of that list is made; but `storeSNList` never calls its task
callback, whether the write fails or not, so the series of `cycleThru` stops there: the final
callback does not run and `Process Complete.` is not printed. -/
theorem cycleThru_write_not_signalled (w : World) (W : List JsVal)
    (s0 s1 s2 : SNSlotListGenerator.State)
    (hload : SNSlotListGenerator.getCustomerList w customerListSource s0 = (s1, .ok W))
    (hrun : SNSlotListGenerator.processGDUN w W s1 = (s2, .ok ())) :
    (∀ (l : List JsVal) (s : SNSlotListGenerator.State),
      (SNSlotListGenerator.storeSNList w l s).2 = .silent) ∧
    SNSlotListGenerator.cycleThru w s0
      = (⟨s2.events ++ [.writeFile (w.dirname ++ "/allSNs.txt") s2.masterListOfSNs
            (w.writeFile s2.events (w.dirname ++ "/allSNs.txt") s2.masterListOfSNs)],
          s2.masterListOfSNs⟩, .silent) ∧
    ∃ added, (SNSlotListGenerator.cycleThru w s0).1.events = s0.events ++ added ∧
      added.countP Event.isWrite = 1 ∧ added.countP Event.isLog = 0 := by
  have hcycle : SNSlotListGenerator.cycleThru w s0
      = (⟨s2.events ++ [.writeFile (w.dirname ++ "/allSNs.txt") s2.masterListOfSNs
            (w.writeFile s2.events (w.dirname ++ "/allSNs.txt") s2.masterListOfSNs)],
          s2.masterListOfSNs⟩, .silent) := by
    simp only [SNSlotListGenerator.cycleThru, Async.andThen, hload, hrun,
      SNSlotListGenerator.storeSNList]
  refine ⟨fun _ _ => rfl, hcycle, ?_⟩
  have hs1 := SNSlotListGenerator.loader_events w s0 s1 _ hload
  obtain ⟨new, hnew, hw, hl⟩ := SNSlotListGenerator.processGDUN_ok_quiet w W s1 s2 hrun
  refine ⟨[.ecsGetObject SNSlotListGenerator.ecsBucket customerListSource
      (w.ecsGetObject s0.events SNSlotListGenerator.ecsBucket customerListSource)] ++ new ++
    [.writeFile (w.dirname ++ "/allSNs.txt") s2.masterListOfSNs
      (w.writeFile s2.events (w.dirname ++ "/allSNs.txt") s2.masterListOfSNs)], ?_, ?_, ?_⟩
  · rw [hcycle]
    simp only [hnew, hs1, List.append_assoc]
  · simp [List.countP_append, List.countP_cons, Event.isWrite, hw]
  · simp [List.countP_append, List.countP_cons, Event.isLog, hl]

/-- Witness for C12: customers `100` and `200` both have the document of the scenario and
the write succeeds; the cycle is the three fetches and the write of `["A1"]`, after which
nothing is printed and no callback is called. -/
theorem cycleThru_write_not_signalled_witness :
    SNSlotListGenerator.cycleThru (Scenario.world Scenario.storeFull) ⟨[], []⟩
      = (⟨[.ecsGetObject "pacnwinstalls" "PNWandNCAcustomers.json" (.ok Scenario.list100and200),
            .ecsGetObject "pacnwinstalls" "100.json"
              (.ok (Scenario.encodeTwice Scenario.doc100)),
            .ecsGetObject "pacnwinstalls" "200.json"
              (.ok (Scenario.encodeTwice Scenario.doc100))] ++
            [.writeFile "/app/allSNs.txt" [.str "A1"] none],
          [.str "A1"]⟩, .silent) :=
  (cycleThru_write_not_signalled (Scenario.world Scenario.storeFull) [.str "100", .str "200"]
    ⟨[], []⟩
    ⟨[.ecsGetObject "pacnwinstalls" "PNWandNCAcustomers.json" (.ok Scenario.list100and200)],
      []⟩
    ⟨[.ecsGetObject "pacnwinstalls" "PNWandNCAcustomers.json" (.ok Scenario.list100and200),
        .ecsGetObject "pacnwinstalls" "100.json"
          (.ok (Scenario.encodeTwice Scenario.doc100)),
        .ecsGetObject "pacnwinstalls" "200.json"
          (.ok (Scenario.encodeTwice Scenario.doc100))],
      [.str "A1"]⟩
    rfl rfl).2.1
